import Mathlib

/-!
# Sorting toolkit and cached binary search (Assignment 5), stack and queue
# exercises (Assignment 3)

Shallow embedding of `src/Assignment5/AssignmentSubmission5.cpp`:
`TLinkedList`, `OperationSummary`, the comparator callbacks and the `TSort` engine
(selection, bubble, quick and merge sort, binary search over the cached sorted
buffer), together with the `remove` method that the same `TLinkedList` class has in
`src/Assignment4/AssignmentSubmission4.cpp`, and of the parts of
`src/Assignment3/AssignmentSubmission3.cpp` built on `TStack` and `TQueue`
(`ReverseString`, `DFSFindZero`, `BFSFindZero`).

Modelling conventions.
* A `TBankAccount*` is a `Ptr α = Option α`; `none` is `nullptr`.  The record
  type `α` is abstract: the engine only ever passes references to the comparator.
* A C array together with its `int` size, and a `std::vector`, is a `List (Ptr α)`;
  its length is the size.  `int` variables are `Int` (all index arithmetic of the
  source stays between `-1` and the size, so no wrap-around is reachable), array
  cells are read and written through `rd` / `wr` at an `Int` index.
* `long long` counters only ever grow from zero by one; they are `Nat`.
  `timeSpentMs` is wall-clock time and is not part of the model.
* `for` loops whose bounds are fixed on entry are `forRange`; `while` loops and
  the recursive helpers carry a fuel argument and return `none` when it runs out,
  so a result `some _` always is a result of the real, terminated computation.
* A call that runs into undefined behaviour has no result: `clear()` on an owning
  list that holds one record twice deletes that record twice and is `none`.
* In Assignment 3 the `int` arrays of `TStack` and `TQueue` are lists of `Int` of
  length `MAX_SIZE`; a thrown exception is `none`; the arrays `grid` and `visited`
  are functions of the two indices; `/` and `%` on `int` are `Int.tdiv`, `Int.tmod`.
-/

namespace Assignment3

/-- Constant `MAX_SIZE`. -/
def MAX_SIZE : Int := 100

/-- Class `TStack`: `data` is the array `int data[MAX_SIZE]` and `top` the index
of the top item (`-1` when the stack is empty). -/
structure TStack where
  data : List Int
  top : Int

/-- Constructor `TStack() : top(-1)`; the cells of the fresh array are not read
before they are written, the model fills them with `0`. -/
def TStack.new : TStack := ⟨List.replicate 100 0, -1⟩

/-- Method `TStack::IsEmpty`. -/
def TStack.IsEmpty (s : TStack) : Bool := decide (s.top = -1)

/-- Method `TStack::Push`: `false` and no change when the stack is full, otherwise
`data[++top] = item`. -/
def TStack.Push (s : TStack) (item : Int) : Bool × TStack :=
  if s.top ≥ MAX_SIZE - 1 then (false, s)
  else (true, ⟨s.data.set (s.top + 1).toNat item, s.top + 1⟩)

/-- Method `TStack::Pop`: `none` stands for the exception thrown on an empty
stack, otherwise `data[top--]` is returned. -/
def TStack.Pop (s : TStack) : Option (Int × TStack) :=
  if s.IsEmpty then none else some (s.data.getD s.top.toNat 0, ⟨s.data, s.top - 1⟩)

/-- Class `TQueue`: a ring buffer in `int data[MAX_SIZE]`. -/
structure TQueue where
  data : List Int
  front : Int
  rear : Int
  count : Int

/-- Constructor `TQueue() : front(0), rear(0), count(0)`. -/
def TQueue.new : TQueue := ⟨List.replicate 100 0, 0, 0, 0⟩

/-- Method `TQueue::IsEmpty`. -/
def TQueue.IsEmpty (q : TQueue) : Bool := decide (q.count = 0)

/-- Method `TQueue::Enqueue`: `false` and no change when the queue is full. -/
def TQueue.Enqueue (q : TQueue) (item : Int) : Bool × TQueue :=
  if q.count ≥ MAX_SIZE then (false, q)
  else (true, ⟨q.data.set q.rear.toNat item, q.front, Int.tmod (q.rear + 1) MAX_SIZE,
    q.count + 1⟩)

/-- Method `TQueue::Dequeue`: `none` stands for the exception thrown on an empty
queue. -/
def TQueue.Dequeue (q : TQueue) : Option (Int × TQueue) :=
  if q.IsEmpty then none
  else some (q.data.getD q.front.toNat 0,
    ⟨q.data, Int.tmod (q.front + 1) MAX_SIZE, q.rear, q.count - 1⟩)

/-- Conversion `(char)x` of an `int` to an 8-bit signed `char`, as a value.  A
`std::string` is the list of the values of its characters; the conversion of a
`char` to `int` in `stack.Push(ch)` keeps the value. -/
def toChar (x : Int) : Int := (x + 128) % 256 - 128

/-- Loop `while (!stack.IsEmpty()) reversed += (char)stack.Pop();` with fuel. -/
def reverseLoop : Nat → TStack → List Int → Option (List Int)
  | 0, stack, reversed => if stack.IsEmpty then some reversed else none
  | fuel + 1, stack, reversed =>
    if stack.IsEmpty then some reversed
    else
      match stack.Pop with
      | none => none
      | some (x, stack1) => reverseLoop fuel stack1 (reversed ++ [toChar x])

/-- Function `ReverseString`: every character is pushed (the result of `Push` is
not looked at), then the stack is emptied into `reversed`.  The stack never holds
more than `MAX_SIZE` items, which is the fuel of the second loop. -/
def ReverseString (str : List Int) : Option (List Int) :=
  let stack := str.foldl (fun (s : TStack) (ch : Int) => (s.Push ch).2) TStack.new
  reverseLoop 100 stack []

/-- The four codes the searches push for the neighbours of `(row, col)`, in the
order of the source: up, down, left, right. -/
def neighbourCodes (row col : Int) : List Int :=
  [(row - 1) * 100 + col, (row + 1) * 100 + col, row * 100 + (col - 1), row * 100 + (col + 1)]

/-- Decoding `int row = code / 100, col = code % 100;` (C++ truncating division). -/
def decode (code : Int) : Int × Int := (Int.tdiv code 100, Int.tmod code 100)

/-- Bounds check `row < 0 || row >= 100 || col < 0 || col >= 100`. -/
def rejected (row col : Int) : Bool :=
  decide (row < 0) || decide (row ≥ 100) || decide (col < 0) || decide (col ≥ 100)

/-- Assignment `visited[row][col] = true`. -/
def markVisited (visited : Int → Int → Bool) (row col : Int) : Int → Int → Bool :=
  fun r c => if r = row ∧ c = col then true else visited r c

/-- What a grid search hands back: the returned flag, the `visited` array it
leaves behind and, for the proofs, the cells it marked, in the order of marking. -/
structure SearchOutcome where
  found : Bool
  visited : Int → Int → Bool
  order : List (Int × Int)

/-- Loop `while (!stack.IsEmpty())` of `DFSFindZero`, with fuel.  `grid` and
`visited` are the arrays `int grid[100][100]` and `bool visited[100][100]`, read
only at indices that passed the bounds check. -/
def dfsLoop (grid : Int → Int → Int) :
    Nat → TStack → (Int → Int → Bool) → List (Int × Int) → Option SearchOutcome
  | 0, stack, visited, order => if stack.IsEmpty then some ⟨false, visited, order⟩ else none
  | fuel + 1, stack, visited, order =>
    if stack.IsEmpty then some ⟨false, visited, order⟩
    else
      match stack.Pop with
      | none => none
      | some (code, stack1) =>
        let row := (decode code).1
        let col := (decode code).2
        if rejected row col || visited row col then dfsLoop grid fuel stack1 visited order
        else
          let visited1 := markVisited visited row col
          if grid row col = 0 then some ⟨true, visited1, order ++ [(row, col)]⟩
          else
            dfsLoop grid fuel
              ((neighbourCodes row col).foldl (fun (s : TStack) (c : Int) => (s.Push c).2) stack1)
              visited1 (order ++ [(row, col)])

/-- Function `DFSFindZero`.  Every iteration pops one code and at most `100 * 100`
iterations push four codes, so `4 * 100 * 100 + 1` iterations are never exceeded. -/
def DFSFindZero (grid : Int → Int → Int) (visited : Int → Int → Bool)
    (startRow startCol : Int) : Option SearchOutcome :=
  dfsLoop grid 40001 (TStack.new.Push (startRow * 100 + startCol)).2 visited []

/-- Loop `while (!queue.IsEmpty())` of `BFSFindZero`, with fuel. -/
def bfsLoop (grid : Int → Int → Int) :
    Nat → TQueue → (Int → Int → Bool) → List (Int × Int) → Option SearchOutcome
  | 0, queue, visited, order => if queue.IsEmpty then some ⟨false, visited, order⟩ else none
  | fuel + 1, queue, visited, order =>
    if queue.IsEmpty then some ⟨false, visited, order⟩
    else
      match queue.Dequeue with
      | none => none
      | some (code, queue1) =>
        let row := (decode code).1
        let col := (decode code).2
        if rejected row col || visited row col then bfsLoop grid fuel queue1 visited order
        else
          let visited1 := markVisited visited row col
          if grid row col = 0 then some ⟨true, visited1, order ++ [(row, col)]⟩
          else
            bfsLoop grid fuel
              ((neighbourCodes row col).foldl
                (fun (q : TQueue) (c : Int) => (q.Enqueue c).2) queue1)
              visited1 (order ++ [(row, col)])

/-- Function `BFSFindZero`, with the iteration bound of `DFSFindZero`. -/
def BFSFindZero (grid : Int → Int → Int) (visited : Int → Int → Bool)
    (startRow startCol : Int) : Option SearchOutcome :=
  bfsLoop grid 40001 (TQueue.new.Enqueue (startRow * 100 + startCol)).2 visited []

/-- Two cells of the grid are neighbours: they differ by one step in one
direction. -/
def adjacent (a b : Int × Int) : Bool :=
  (decide (a.1 = b.1) && (decide (a.2 = b.2 + 1) || decide (a.2 + 1 = b.2))) ||
  (decide (a.2 = b.2) && (decide (a.1 = b.1 + 1) || decide (a.1 + 1 = b.1)))

/-- Grid used in the examples: `0` in the cell `(1, 0)`, `1` everywhere else. -/
def exampleGrid : Int → Int → Int := fun r c => if r = 1 ∧ c = 0 then 0 else 1

end Assignment3

namespace Assignment5

/-- A nullable reference to a record: `none` is `nullptr`. -/
abbrev Ptr (α : Type) := Option α

/-- Comparator callback `typedef int (*FCompareAccounts)(TBankAccount* a, TBankAccount* b)`:
negative if `a < b`, zero if equal, positive if `a > b`. -/
abbrev FCompareAccounts (α : Type) := Ptr α → Ptr α → Int

/-- Performance metrics `struct OperationSummary` (without the wall-clock field). -/
structure OperationSummary where
  comparisons : Nat
  swaps : Nat
deriving DecidableEq

/-- Default constructor `OperationSummary() : comparisons(0), swaps(0)`. -/
def OperationSummary.new : OperationSummary := ⟨0, 0⟩

/-- Statement `summary.comparisons++`. -/
def OperationSummary.incComparisons (s : OperationSummary) : OperationSummary :=
  { s with comparisons := s.comparisons + 1 }

/-- Statement `summary.swaps++`. -/
def OperationSummary.incSwaps (s : OperationSummary) : OperationSummary :=
  { s with swaps := s.swaps + 1 }

/-! ## Low-level helpers: array cells, integer division, loops -/

/-- Read `arr[i]` at an `int` index. -/
def rd {α : Type} (arr : List (Ptr α)) (i : Int) : Ptr α :=
  if 0 ≤ i then arr.getD i.toNat none else none

/-- Write `arr[i] = v` at an `int` index. -/
def wr {α : Type} (arr : List (Ptr α)) (i : Int) (v : Ptr α) : List (Ptr α) :=
  if 0 ≤ i then arr.set i.toNat v else arr

/-- Exchange `std::swap(arr[i], arr[j])`. -/
def swap {α : Type} (arr : List (Ptr α)) (i j : Int) : List (Ptr α) :=
  wr (wr arr i (rd arr j)) j (rd arr i)

/-- C++ `int` division (truncation toward zero). -/
def cdiv (a b : Int) : Int := Int.tdiv a b

/-- Runs `count` iterations of a loop body, the loop variable starting at `j`. -/
def forLoop {σ : Type} (body : Int → σ → σ) : Nat → Int → σ → σ
  | 0, _, s => s
  | k + 1, j, s => forLoop body k (j + 1) (body j s)

/-- Loop `for (int j = lo; j < hi; ++j) body`. -/
def forRange {σ : Type} (lo hi : Int) (body : Int → σ → σ) (s : σ) : σ :=
  forLoop body (hi - lo).toNat lo s

/-- Loop `while (cond) body`, with fuel: `none` when the fuel is used up
while the condition still holds. -/
def whileLoop {σ : Type} (cond : σ → Bool) (body : σ → σ) : Nat → σ → Option σ
  | 0, s => if cond s then none else some s
  | k + 1, s => if cond s then whileLoop cond body k (body s) else some s

/-- Allocation `new TBankAccount*[n]` followed by
`for (int i = 0; i < n; ++i) dst[i] = src[i]`. -/
def copyArray {α : Type} (src : List (Ptr α)) (n : Int) : List (Ptr α) :=
  forRange 0 n (fun i dst => wr dst i (rd src i)) (List.replicate n.toNat none)

/-! ## TLinkedList -/

/-- Singly-linked list `TLinkedList<T>`.  `head` is the chain of links reachable
from the `head` pointer, given by the `data` pointer of each link (`[]` when
`head == nullptr`); `tail` is the position in that chain of the link the `tail`
pointer designates (`none` when `tail == nullptr`). -/
structure TLinkedList (α : Type) where
  head : List (Ptr α)
  tail : Option Nat
  ownsData : Bool
  size : Nat

/-- Constructor `TLinkedList(bool ownsDataFlag)`. -/
def TLinkedList.new {α : Type} (ownsDataFlag : Bool) : TLinkedList α :=
  { head := [], tail := none, ownsData := ownsDataFlag, size := 0 }

/-- Method `add(T* dataPtr)`: a null pointer is ignored; otherwise a new link is
hung behind the link `tail` designates (`tail->next = newNode` cuts off whatever
followed that link) and becomes the new `tail`.  A non-empty chain with
`tail == nullptr` is no state of a running program (the source would dereference
null); the model leaves such a list as it is. -/
def TLinkedList.add {α : Type} (l : TLinkedList α) (dataPtr : Ptr α) : TLinkedList α :=
  match dataPtr with
  | none => l
  | some a =>
    match l.head, l.tail with
    | [], _ => { l with head := [some a], tail := some 0, size := l.size + 1 }
    | h :: t, some k =>
      { l with head := (h :: t).take (k + 1) ++ [some a],
               tail := some ((h :: t).take (k + 1)).length,
               size := l.size + 1 }
    | _ :: _, none => l

/-- Method `getSize()`. -/
def TLinkedList.getSize {α : Type} (l : TLinkedList α) : Nat := l.size

/-- Method `isEmpty()`: `head == nullptr`. -/
def TLinkedList.isEmpty {α : Type} (l : TLinkedList α) : Bool := l.head.isEmpty

/-- The state a call of `clear()` that returns leaves behind: every link has been
released (`head` is null when the loop ends), then `tail = nullptr; size = 0;`. -/
def TLinkedList.cleared {α : Type} (l : TLinkedList α) : TLinkedList α :=
  { l with head := [], tail := none, size := 0 }

/-- Loop of `clear()`:
`while (head) { nodeToDelete = head; head = head->next;
if (ownsData) delete nodeToDelete->data; delete nodeToDelete; }`
on the chain `head` designates, `deleted` being the records destroyed so far (the
records held are alive when `clear()` is called).  `delete` on a null pointer does
nothing; `delete` on a record that has been destroyed already is undefined
behaviour, for which the loop has no result (`none`).  The result is the chain
`head` designates when the loop ends, together with the records destroyed. -/
def clearRun {α : Type} [DecidableEq α] :
    List (Ptr α) → Bool → List (Ptr α) → Option (List (Ptr α) × List (Ptr α))
  | [], _, deleted => some ([], deleted)
  | d :: rest, owns, deleted =>
    if owns then
      if d ≠ none ∧ d ∈ deleted then none
      else clearRun rest owns (deleted ++ [d])
    else clearRun rest owns deleted

/-- Method `clear()`: the loop, then `tail = nullptr; size = 0;`.  `none` when the
loop runs into undefined behaviour. -/
def TLinkedList.clear {α : Type} [DecidableEq α] (l : TLinkedList α) :
    Option (TLinkedList α) :=
  match clearRun l.head l.ownsData [] with
  | none => none
  | some r => some { l with head := r.1, tail := none, size := 0 }

/-- Loop `for (auto it = list->begin(); it != list->end(); ++it) vec.push_back(*it)`;
the iterator is the chain that is still to be visited. -/
def gather {α : Type} : List (Ptr α) → List (Ptr α) → List (Ptr α)
  | [], vec => vec
  | d :: rest, vec => gather rest (vec ++ [d])

/-- The references a traversal from `begin()` to `end()` yields, in order. -/
def TLinkedList.toVec {α : Type} (l : TLinkedList α) : List (Ptr α) :=
  gather l.head []

/-- Result construction `new TLinkedList<TBankAccount>(false)` followed by
`for (auto p : vec) result->add(p)`. -/
def listOfVec {α : Type} (vec : List (Ptr α)) : TLinkedList α :=
  vec.foldl TLinkedList.add (TLinkedList.new false)

/-- Representation invariant of the list: `size` counts the links and `tail`
designates the last link. -/
def TLinkedList.WellFormed {α : Type} (l : TLinkedList α) : Prop :=
  l.size = l.head.length ∧
    l.tail = (if l.head.length = 0 then none else some (l.head.length - 1))

/-- The sequence states a program can build: a new list, then `add` and `clear`
(a call of `clear()` that returns leaves `l.cleared`). -/
inductive TLinkedList.Reachable {α : Type} : TLinkedList α → Prop
  | new (owns : Bool) : TLinkedList.Reachable (TLinkedList.new owns)
  | add {l : TLinkedList α} (p : Ptr α) :
      TLinkedList.Reachable l → TLinkedList.Reachable (l.add p)
  | clear {l : TLinkedList α} :
      TLinkedList.Reachable l → TLinkedList.Reachable l.cleared

/-- Loop of `clear()` seen from the records: for every link, front to back,
`if (ownsData) delete nodeToDelete->data;`.  The result is the log of the
references whose records were destroyed, in the order of destruction. -/
def clearLoop {α : Type} : List (Ptr α) → Bool → List (Ptr α) → List (Ptr α)
  | [], _, log => log
  | d :: rest, owns, log => clearLoop rest owns (if owns then log ++ [d] else log)

/-- The records `clear()` destroys. -/
def TLinkedList.clearDestroyed {α : Type} (l : TLinkedList α) : List (Ptr α) :=
  clearLoop l.head l.ownsData []

/-- The records the destructor `~TLinkedList() { clear(); }` destroys. -/
def TLinkedList.teardownDestroyed {α : Type} (l : TLinkedList α) : List (Ptr α) :=
  l.clearDestroyed

/-- What `remove` hands back and leaves behind: the returned flag, the list, and
the log of the references whose records it destroyed. -/
structure RemoveResult (α : Type) where
  removed : Bool
  list : TLinkedList α
  destroyed : List (Ptr α)

/-- Search loop of `remove`:
`while (current->next != nullptr && current->next->data != dataPtr) current = current->next;`
on the chain behind `current`, whose position is `pos`; the result is the position
of `current` when the loop stops. -/
def removeSearch {α : Type} [DecidableEq α] (dataPtr : Ptr α) :
    List (Ptr α) → Nat → Nat
  | [], pos => pos
  | d :: rest, pos => if d ≠ dataPtr then removeSearch dataPtr rest (pos + 1) else pos

/-- Method `remove(T* dataPtr)` of `TLinkedList` in
`src/Assignment4/AssignmentSubmission4.cpp` (the members `add`, `getSize`,
`isEmpty`, `clear` of that class are, statement for statement, the ones modelled
above).  Links are named by their position in the chain, so a `tail` pointer that
is not reassigned designates a position one lower once a link in front of it is
gone.  `size--` is the natural-number predecessor: a chain with a link has
`size > 0` in every state a program reaches. -/
def TLinkedList.remove {α : Type} [DecidableEq α] (l : TLinkedList α) (dataPtr : Ptr α) :
    RemoveResult α :=
  match l.head, dataPtr with
  | [], _ => ⟨false, l, []⟩
  | _ :: _, none => ⟨false, l, []⟩
  | d :: rest, some a =>
    if d = some a then
      ⟨true,
        { l with head := rest,
                 tail := if rest.isEmpty then none else l.tail.map (fun k => k - 1),
                 size := l.size - 1 },
        if l.ownsData then [d] else []⟩
    else
      let current := removeSearch (some a) rest 0
      if current + 1 < (d :: rest).length then
        ⟨true,
          { l with head := (d :: rest).eraseIdx (current + 1),
                   tail := l.tail.map (fun k =>
                     if k = current + 1 then current else if current + 1 < k then k - 1 else k),
                   size := l.size - 1 },
          if l.ownsData then [(d :: rest).getD (current + 1) none] else []⟩
      else ⟨false, l, []⟩

/-- The sequence states a program can build with the Assignment 4 class: a new
list, then `add`, `remove` and `clear` (a call of `clear()` that returns leaves
`l.cleared`). -/
inductive TLinkedList.ReachableWithRemove {α : Type} [DecidableEq α] : TLinkedList α → Prop
  | new (owns : Bool) : TLinkedList.ReachableWithRemove (TLinkedList.new owns)
  | add {l : TLinkedList α} (p : Ptr α) :
      TLinkedList.ReachableWithRemove l → TLinkedList.ReachableWithRemove (l.add p)
  | remove {l : TLinkedList α} (p : Ptr α) :
      TLinkedList.ReachableWithRemove l → TLinkedList.ReachableWithRemove (l.remove p).list
  | clear {l : TLinkedList α} :
      TLinkedList.ReachableWithRemove l → TLinkedList.ReachableWithRemove l.cleared

/-! ## Records and comparator callbacks -/

/-- Enumeration `EBankAccountType`. -/
inductive EBankAccountType where
  | Checking | Savings | Credit | Pension | Loan
deriving DecidableEq

/-- Record `class TBankAccount`.  `S` stands for `std::string` and `B` for the
`double` balance; `creationTimestamp` is a `time_t` count of seconds. -/
structure TBankAccount (S B : Type) where
  accountNumber : S
  accountType : EBankAccountType
  ownerFirstName : S
  ownerLastName : S
  creationTimestamp : Int
  balance : B

/-- Contract of `std::string::compare`, the part the comparators rely on: the
result is negative, zero or positive, its sign flips when the operands are
exchanged, it is zero exactly for equal strings, and `<= 0` is transitive. -/
def StringCompareContract {S : Type} (strCompare : S → S → Int) : Prop :=
  (∀ a b : S, Int.sign (strCompare a b) = - Int.sign (strCompare b a)) ∧
  (∀ a b : S, strCompare a b = 0 ↔ a = b) ∧
  (∀ a b c : S, strCompare a b ≤ 0 → strCompare b c ≤ 0 → strCompare a c ≤ 0)

/-- Callback `CompareByLastName`: lexicographic compare on last name, tie-breaker
on first name; `strCompare x y` is `x.compare(y)`. -/
def CompareByLastName {S B : Type} (strCompare : S → S → Int)
    (a b : Ptr (TBankAccount S B)) : Int :=
  match a, b with
  | some x, some y =>
    let cmp := strCompare x.ownerLastName y.ownerLastName
    if cmp ≠ 0 then cmp else strCompare x.ownerFirstName y.ownerFirstName
  | _, _ => if a.isSome then 1 else if b.isSome then -1 else 0

/-- Callback `CompareByBalance`; `lt x y` is the `double` comparison `x < y`, and
`a->balance > b->balance` is `lt` with the operands exchanged. -/
def CompareByBalance {S B : Type} (lt : B → B → Bool)
    (a b : Ptr (TBankAccount S B)) : Int :=
  match a, b with
  | some x, some y =>
    if lt x.balance y.balance then -1 else if lt y.balance x.balance then 1 else 0
  | _, _ => if a.isSome then 1 else if b.isSome then -1 else 0

/-- Three-way lexicographic comparison of strings given by their character codes:
an instance of the contract of `std::string::compare`, used in the examples. -/
def lexCompare : List Nat → List Nat → Int
  | [], [] => 0
  | [], _ :: _ => -1
  | _ :: _, [] => 1
  | a :: s, b :: t => if a < b then -1 else if b < a then 1 else lexCompare s t

/-! ## Selection sort -/

/-- Loop state of the scan for the minimum. -/
structure MinScan where
  minIdx : Int
  summary : OperationSummary

/-- Body of `for (int j = i + 1; j < n; ++j)`:
`summary.comparisons++; if (cmp(arr[j], arr[minIdx]) < 0) minIdx = j;`. -/
def selectionInnerBody {α : Type} (cmp : FCompareAccounts α) (arr : List (Ptr α))
    (j : Int) (st : MinScan) : MinScan :=
  let summary := st.summary.incComparisons
  if cmp (rd arr j) (rd arr st.minIdx) < 0 then ⟨j, summary⟩ else ⟨st.minIdx, summary⟩

/-- Working array together with the running summary. -/
structure SortState (α : Type) where
  arr : List (Ptr α)
  summary : OperationSummary

/-- Body of `for (int i = 0; i < n - 1; ++i)` of selection sort. -/
def selectionOuterBody {α : Type} (cmp : FCompareAccounts α) (n : Int)
    (i : Int) (st : SortState α) : SortState α :=
  let scan := forRange (i + 1) n (selectionInnerBody cmp st.arr) ⟨i, st.summary⟩
  if scan.minIdx ≠ i then
    ⟨swap st.arr i scan.minIdx, scan.summary.incSwaps⟩
  else
    ⟨st.arr, scan.summary⟩

/-- The loop nest shared verbatim by `SelectionSortArray` (lines 247-257, on `arr`
and `originalArraySize`) and `SelectionSortList` (lines 283-293, on `vec` and `n`). -/
def selectionLoops {α : Type} (cmp : FCompareAccounts α) (n : Int)
    (st : SortState α) : SortState α :=
  forRange 0 (n - 1) (selectionOuterBody cmp n) st

/-! ## Bubble sort -/

/-- Loop state of one bubble pass. -/
structure BubbleState (α : Type) where
  arr : List (Ptr α)
  summary : OperationSummary
  swapped : Bool

/-- Body of `for (int j = 0; j < n - 1 - pass; ++j)`. -/
def bubbleInnerBody {α : Type} (cmp : FCompareAccounts α)
    (j : Int) (st : BubbleState α) : BubbleState α :=
  let summary := st.summary.incComparisons
  if cmp (rd st.arr (j + 1)) (rd st.arr j) < 0 then
    ⟨swap st.arr j (j + 1), summary.incSwaps, true⟩
  else
    ⟨st.arr, summary, st.swapped⟩

/-- Loop `for (int pass = ...; pass < n - 1; ++pass)` with `count` passes left:
`swapped = false;` the inner loop; `if (!swapped) break;`. -/
def bubblePasses {α : Type} (cmp : FCompareAccounts α) (n : Int) :
    Nat → Int → SortState α → SortState α
  | 0, _, st => st
  | k + 1, pass, st =>
    let r := forRange 0 (n - 1 - pass) (bubbleInnerBody cmp) ⟨st.arr, st.summary, false⟩
    if !r.swapped then ⟨r.arr, r.summary⟩
    else bubblePasses cmp n k (pass + 1) ⟨r.arr, r.summary⟩

/-- The pass loop of `BubbleSortArray` (lines 312-324). -/
def bubbleLoops {α : Type} (cmp : FCompareAccounts α) (n : Int)
    (st : SortState α) : SortState α :=
  bubblePasses cmp n (n - 1 - 0).toNat 0 st

/-! ## Quick sort -/

/-- Loop state of `Partition`. -/
structure PartState (α : Type) where
  i : Int
  arr : List (Ptr α)
  summary : OperationSummary

/-- Body of `for (int j = left; j < right; ++j)` in `Partition`. -/
def partitionBody {α : Type} (cmp : FCompareAccounts α) (pivot : Ptr α)
    (j : Int) (st : PartState α) : PartState α :=
  let summary := st.summary.incComparisons
  if cmp (rd st.arr j) pivot ≤ 0 then
    let i := st.i + 1
    if i ≠ j then ⟨i, swap st.arr i j, summary.incSwaps⟩ else ⟨i, st.arr, summary⟩
  else
    ⟨st.i, st.arr, summary⟩

/-- Lomuto partition `TSort::Partition`; returns the pivot index together with the
array and summary it leaves behind. -/
def Partition {α : Type} (cmp : FCompareAccounts α) (arr : List (Ptr α)) (left right : Int)
    (summary : OperationSummary) : Int × SortState α :=
  let pivot := rd arr right
  let st := forRange left right (partitionBody cmp pivot) ⟨left - 1, arr, summary⟩
  if st.i + 1 ≠ right then
    (st.i + 1, ⟨swap st.arr (st.i + 1) right, st.summary.incSwaps⟩)
  else
    (st.i + 1, ⟨st.arr, st.summary⟩)

/-- Recursion `TSort::QuickSortRecursive`; the fuel bounds the depth of the
recursion. -/
def QuickSortRecursive {α : Type} (cmp : FCompareAccounts α) :
    Nat → SortState α → Int → Int → Option (SortState α)
  | 0, st, left, right => if left ≥ right then some st else none
  | fuel + 1, st, left, right =>
    if left ≥ right then some st
    else
      let p := Partition cmp st.arr left right st.summary
      match QuickSortRecursive cmp fuel p.2 left (p.1 - 1) with
      | none => none
      | some st1 => QuickSortRecursive cmp fuel st1 (p.1 + 1) right

/-! ## Merge sort -/

/-- Loop state of `Merge`. -/
structure MergeState (α : Type) where
  i : Int
  j : Int
  k : Int
  vec : List (Ptr α)
  summary : OperationSummary

/-- Body of `while (i < n1 && j < n2)`. -/
def mergeBody {α : Type} (cmp : FCompareAccounts α) (L R : List (Ptr α))
    (st : MergeState α) : MergeState α :=
  let summary := st.summary.incComparisons
  if cmp (rd L st.i) (rd R st.j) ≤ 0 then
    ⟨st.i + 1, st.j, st.k + 1, wr st.vec st.k (rd L st.i), summary⟩
  else
    ⟨st.i, st.j + 1, st.k + 1, wr st.vec st.k (rd R st.j), summary⟩

/-- Body of `while (i < n1) vec[k++] = L[i++];`. -/
def drainLeftBody {α : Type} (L : List (Ptr α)) (st : MergeState α) : MergeState α :=
  ⟨st.i + 1, st.j, st.k + 1, wr st.vec st.k (rd L st.i), st.summary⟩

/-- Body of `while (j < n2) vec[k++] = R[j++];`. -/
def drainRightBody {α : Type} (R : List (Ptr α)) (st : MergeState α) : MergeState α :=
  ⟨st.i, st.j + 1, st.k + 1, wr st.vec st.k (rd R st.j), st.summary⟩

/-- Procedure `TSort::Merge`. -/
def Merge {α : Type} (cmp : FCompareAccounts α) (st : SortState α) (left mid right : Int) :
    Option (SortState α) :=
  let n1 := mid - left + 1
  let n2 := right - mid
  let L := forRange 0 n1 (fun i L => wr L i (rd st.arr (left + i))) (List.replicate n1.toNat none)
  let R := forRange 0 n2 (fun j R => wr R j (rd st.arr (mid + 1 + j))) (List.replicate n2.toNat none)
  let fuel := (n1 + n2).toNat
  match whileLoop (fun s => decide (s.i < n1) && decide (s.j < n2)) (mergeBody cmp L R) fuel
      ⟨0, 0, left, st.arr, st.summary⟩ with
  | none => none
  | some s1 =>
    match whileLoop (fun s => decide (s.i < n1)) (drainLeftBody L) fuel s1 with
    | none => none
    | some s2 =>
      match whileLoop (fun s => decide (s.j < n2)) (drainRightBody R) fuel s2 with
      | none => none
      | some s3 => some ⟨s3.vec, s3.summary⟩

/-- Recursion `TSort::MergeSortRecursive`; the fuel bounds the depth of the
recursion. -/
def MergeSortRecursive {α : Type} (cmp : FCompareAccounts α) :
    Nat → SortState α → Int → Int → Option (SortState α)
  | 0, st, left, right => if left ≥ right then some st else none
  | fuel + 1, st, left, right =>
    if left ≥ right then some st
    else
      let mid := left + cdiv (right - left) 2
      match MergeSortRecursive cmp fuel st left mid with
      | none => none
      | some st1 =>
        match MergeSortRecursive cmp fuel st1 (mid + 1) right with
        | none => none
        | some st2 => Merge cmp st2 left mid right

/-! ## Binary search -/

/-- Recursion `TSort::BinarySearchRecursive` over the cached buffer; the fuel
bounds the depth of the recursion. -/
def BinarySearchRecursive {α : Type} (sortedArray : List (Ptr α)) (key : Ptr α)
    (cmp : FCompareAccounts α) :
    Nat → Int → Int → OperationSummary → Option (Ptr α × OperationSummary)
  | 0, left, right, summary => if left > right then some (none, summary) else none
  | fuel + 1, left, right, summary =>
    if left > right then some (none, summary)
    else
      let mid := left + cdiv (right - left) 2
      let summary := summary.incComparisons
      let c := cmp (rd sortedArray mid) key
      if c = 0 then some (rd sortedArray mid, summary)
      else if c < 0 then
        BinarySearchRecursive sortedArray key cmp fuel (mid + 1) right summary
      else
        BinarySearchRecursive sortedArray key cmp fuel left (mid - 1) summary

/-! ## The recursive helpers with a log of the cells they touch

Each `...Log` function below is the function of the same name above, run on a pair
of the program state and a log: the log receives, in program order, every index
at which the function reads or writes the buffer it works on.  The first component
runs exactly as in the function without a log. -/

/-- Loop body of `Partition` with the log: `arr[j]` is read; when the test
succeeds with `i != j`, `arr[i]` and `arr[j]` are exchanged. -/
def partitionBodyLog {α : Type} (cmp : FCompareAccounts α) (pivot : Ptr α)
    (j : Int) (s : PartState α × List Int) : PartState α × List Int :=
  (partitionBody cmp pivot j s.1,
    s.2 ++ (j :: if cmp (rd s.1.arr j) pivot ≤ 0 ∧ s.1.i + 1 ≠ j then [s.1.i + 1, j] else []))

/-- `Partition` with the log: `arr[right]` is read for the pivot, then the loop
runs, then `arr[i+1]` and `arr[right]` are exchanged when `i + 1 != right`. -/
def PartitionLog {α : Type} (cmp : FCompareAccounts α) (arr : List (Ptr α)) (left right : Int)
    (summary : OperationSummary) (log : List Int) : (Int × SortState α) × List Int :=
  let pivot := rd arr right
  let r := forRange left right (partitionBodyLog cmp pivot)
    (⟨left - 1, arr, summary⟩, log ++ [right])
  if r.1.i + 1 ≠ right then
    ((r.1.i + 1, ⟨swap r.1.arr (r.1.i + 1) right, r.1.summary.incSwaps⟩),
      r.2 ++ [r.1.i + 1, right])
  else
    ((r.1.i + 1, ⟨r.1.arr, r.1.summary⟩), r.2)

/-- `QuickSortRecursive` with the log. -/
def QuickSortRecursiveLog {α : Type} (cmp : FCompareAccounts α) :
    Nat → SortState α × List Int → Int → Int → Option (SortState α × List Int)
  | 0, s, left, right => if left ≥ right then some s else none
  | fuel + 1, s, left, right =>
    if left ≥ right then some s
    else
      let p := PartitionLog cmp s.1.arr left right s.1.summary s.2
      match QuickSortRecursiveLog cmp fuel (p.1.2, p.2) left (p.1.1 - 1) with
      | none => none
      | some s1 => QuickSortRecursiveLog cmp fuel s1 (p.1.1 + 1) right

/-- `Merge` with the log: the copy loops read `vec[left + i]` and `vec[mid + 1 + j]`,
each iteration of the three `while` loops writes `vec[k]`. -/
def MergeLog {α : Type} (cmp : FCompareAccounts α) (s : SortState α × List Int)
    (left mid right : Int) : Option (SortState α × List Int) :=
  let n1 := mid - left + 1
  let n2 := right - mid
  let cl := forRange 0 n1
    (fun i (c : List (Ptr α) × List Int) => (wr c.1 i (rd s.1.arr (left + i)), c.2 ++ [left + i]))
    (List.replicate n1.toNat none, s.2)
  let cr := forRange 0 n2
    (fun j (c : List (Ptr α) × List Int) =>
      (wr c.1 j (rd s.1.arr (mid + 1 + j)), c.2 ++ [mid + 1 + j]))
    (List.replicate n2.toNat none, cl.2)
  let L := cl.1
  let R := cr.1
  let fuel := (n1 + n2).toNat
  match whileLoop (fun m : MergeState α × List Int => decide (m.1.i < n1) && decide (m.1.j < n2))
      (fun m => (mergeBody cmp L R m.1, m.2 ++ [m.1.k])) fuel
      (⟨0, 0, left, s.1.arr, s.1.summary⟩, cr.2) with
  | none => none
  | some m1 =>
    match whileLoop (fun m : MergeState α × List Int => decide (m.1.i < n1))
        (fun m => (drainLeftBody L m.1, m.2 ++ [m.1.k])) fuel m1 with
    | none => none
    | some m2 =>
      match whileLoop (fun m : MergeState α × List Int => decide (m.1.j < n2))
          (fun m => (drainRightBody R m.1, m.2 ++ [m.1.k])) fuel m2 with
      | none => none
      | some m3 => some (⟨m3.1.vec, m3.1.summary⟩, m3.2)

/-- `MergeSortRecursive` with the log. -/
def MergeSortRecursiveLog {α : Type} (cmp : FCompareAccounts α) :
    Nat → SortState α × List Int → Int → Int → Option (SortState α × List Int)
  | 0, s, left, right => if left ≥ right then some s else none
  | fuel + 1, s, left, right =>
    if left ≥ right then some s
    else
      let mid := left + cdiv (right - left) 2
      match MergeSortRecursiveLog cmp fuel s left mid with
      | none => none
      | some s1 =>
        match MergeSortRecursiveLog cmp fuel s1 (mid + 1) right with
        | none => none
        | some s2 => MergeLog cmp s2 left mid right

/-- `BinarySearchRecursive` with the log: `sortedArray[mid]` is read for the
comparison, and once more when it is returned. -/
def BinarySearchRecursiveLog {α : Type} (sortedArray : List (Ptr α)) (key : Ptr α)
    (cmp : FCompareAccounts α) :
    Nat → Int → Int → OperationSummary × List Int →
      Option ((Ptr α × OperationSummary) × List Int)
  | 0, left, right, s => if left > right then some ((none, s.1), s.2) else none
  | fuel + 1, left, right, s =>
    if left > right then some ((none, s.1), s.2)
    else
      let mid := left + cdiv (right - left) 2
      let summary := s.1.incComparisons
      let c := cmp (rd sortedArray mid) key
      if c = 0 then some ((rd sortedArray mid, summary), s.2 ++ [mid, mid])
      else if c < 0 then
        BinarySearchRecursiveLog sortedArray key cmp fuel (mid + 1) right (summary, s.2 ++ [mid])
      else
        BinarySearchRecursiveLog sortedArray key cmp fuel left (mid - 1) (summary, s.2 ++ [mid])

/-! ## The engine -/

/-- Sorting engine `class TSort`.  The source buffer is `originalArray` (its
length is `originalArraySize`); `sortedArray` is `none` while the cache pointer
is `nullptr`. -/
structure TSort (α : Type) where
  originalList : TLinkedList α
  originalArray : List (Ptr α)
  sortedArray : Option (List (Ptr α))
  sortedArraySize : Int
  isArraySorted : Bool

/-- Field `originalArraySize`. -/
def TSort.originalArraySize {α : Type} (self : TSort α) : Int := self.originalArray.length

/-- Constructor `TSort(aList, aArray, aArraySize)`. -/
def TSort.new {α : Type} (aList : TLinkedList α) (aArray : List (Ptr α)) : TSort α :=
  { originalList := aList, originalArray := aArray,
    sortedArray := none, sortedArraySize := 0, isArraySorted := false }

/-- Cache refresh at the end of every buffer sort: the old cache is dropped,
`sortedArraySize = originalArraySize`, a fresh array receives a copy of `arr`,
`isArraySorted = true`. -/
def TSort.refreshCache {α : Type} (self : TSort α) (arr : List (Ptr α)) : TSort α :=
  { self with sortedArraySize := self.originalArraySize,
              sortedArray := some (copyArray arr self.originalArraySize),
              isArraySorted := true }

/-- What a buffer sort hands back: the new array, the summary, the engine. -/
structure ArrayResult (α : Type) where
  arr : List (Ptr α)
  summary : OperationSummary
  self : TSort α

/-- What a sequence sort hands back: the new list, the summary, the engine. -/
structure ListResult (α : Type) where
  list : TLinkedList α
  summary : OperationSummary
  self : TSort α

/-- What a search hands back: the reference found (or `nullptr`), the summary,
the engine. -/
structure SearchResult (α : Type) where
  found : Ptr α
  summary : OperationSummary
  self : TSort α

/-- Method `TSort::SelectionSortArray`. -/
def TSort.SelectionSortArray {α : Type} (self : TSort α) (cmp : FCompareAccounts α)
    (_summary : OperationSummary) : ArrayResult α :=
  let summary := OperationSummary.new
  let arr := copyArray self.originalArray self.originalArraySize
  let st := selectionLoops cmp self.originalArraySize ⟨arr, summary⟩
  ⟨st.arr, st.summary, self.refreshCache st.arr⟩

/-- Method `TSort::SelectionSortList`. -/
def TSort.SelectionSortList {α : Type} (self : TSort α) (cmp : FCompareAccounts α)
    (_summary : OperationSummary) : ListResult α :=
  let summary := OperationSummary.new
  let vec := self.originalList.toVec
  let n : Int := vec.length
  let st := selectionLoops cmp n ⟨vec, summary⟩
  ⟨listOfVec st.arr, st.summary, self⟩

/-- Method `TSort::BubbleSortArray`. -/
def TSort.BubbleSortArray {α : Type} (self : TSort α) (cmp : FCompareAccounts α)
    (_summary : OperationSummary) : ArrayResult α :=
  let summary := OperationSummary.new
  let arr := copyArray self.originalArray self.originalArraySize
  let st := bubbleLoops cmp self.originalArraySize ⟨arr, summary⟩
  ⟨st.arr, st.summary, self.refreshCache st.arr⟩

/-- Method `TSort::QuickSortArray`; the recursion gets `originalArraySize` as fuel. -/
def TSort.QuickSortArray {α : Type} (self : TSort α) (cmp : FCompareAccounts α)
    (_summary : OperationSummary) : Option (ArrayResult α) :=
  let summary := OperationSummary.new
  let arr := copyArray self.originalArray self.originalArraySize
  match QuickSortRecursive cmp self.originalArraySize.toNat ⟨arr, summary⟩
      0 (self.originalArraySize - 1) with
  | none => none
  | some st => some ⟨st.arr, st.summary, self.refreshCache st.arr⟩

/-- Method `TSort::MergeSortList`; the recursion gets the number of references
as fuel. -/
def TSort.MergeSortList {α : Type} (self : TSort α) (cmp : FCompareAccounts α)
    (_summary : OperationSummary) : Option (ListResult α) :=
  let summary := OperationSummary.new
  let vec := self.originalList.toVec
  match MergeSortRecursive cmp vec.length ⟨vec, summary⟩ 0 ((vec.length : Int) - 1) with
  | none => none
  | some st => some ⟨listOfVec st.arr, st.summary, self⟩

/-- Method `TSort::BinarySearch`; the recursion gets `sortedArraySize` as fuel. -/
def TSort.BinarySearch {α : Type} (self : TSort α) (key : Ptr α) (cmp : FCompareAccounts α)
    (_summary : OperationSummary) : Option (SearchResult α) :=
  let summary := OperationSummary.new
  match self.isArraySorted, self.sortedArray with
  | true, some sortedArray =>
    match BinarySearchRecursive sortedArray key cmp self.sortedArraySize.toNat
        0 (self.sortedArraySize - 1) summary with
    | none => none
    | some r => some ⟨r.1, r.2, self⟩
  | _, _ => some ⟨none, summary, self⟩

/-- The engine states a program reaches without running a buffer sort: a newly
constructed engine, then any series of `SelectionSortList`, `MergeSortList` and
`BinarySearch` calls. -/
inductive TSort.NoBufferSort {α : Type} : TSort α → Prop
  | new (aList : TLinkedList α) (aArray : List (Ptr α)) :
      TSort.NoBufferSort (TSort.new aList aArray)
  | selectionSortList {self : TSort α} (cmp : FCompareAccounts α) (summary : OperationSummary) :
      TSort.NoBufferSort self → TSort.NoBufferSort (self.SelectionSortList cmp summary).self
  | mergeSortList {self : TSort α} (cmp : FCompareAccounts α) (summary : OperationSummary)
      (res : ListResult α) :
      TSort.NoBufferSort self → self.MergeSortList cmp summary = some res →
      TSort.NoBufferSort res.self
  | binarySearch {self : TSort α} (key : Ptr α) (cmp : FCompareAccounts α)
      (summary : OperationSummary) (res : SearchResult α) :
      TSort.NoBufferSort self → self.BinarySearch key cmp summary = some res →
      TSort.NoBufferSort res.self

/-! ## Specification vocabulary -/

/-- Sign antisymmetry of a comparator on the references in `S`:
`sign (cmp a b) = - sign (cmp b a)`. -/
def SignAntisymmOn {α : Type} (cmp : FCompareAccounts α) (S : List (Ptr α)) : Prop :=
  ∀ a ∈ S, ∀ b ∈ S, Int.sign (cmp a b) = - Int.sign (cmp b a)

/-- Transitivity of `cmp · · ≤ 0` on the references in `S`. -/
def TransOn {α : Type} (cmp : FCompareAccounts α) (S : List (Ptr α)) : Prop :=
  ∀ a ∈ S, ∀ b ∈ S, ∀ c ∈ S, cmp a b ≤ 0 → cmp b c ≤ 0 → cmp a c ≤ 0

/-- The comparator is a total preorder on the references in `S`. -/
def TotalPreorderOn {α : Type} (cmp : FCompareAccounts α) (S : List (Ptr α)) : Prop :=
  SignAntisymmOn cmp S ∧ TransOn cmp S

/-- Non-decreasing order of a buffer: `cmp(out[i], out[i+1]) <= 0` for every
`0 <= i < n-1`. -/
def NonDecreasing {α : Type} (cmp : FCompareAccounts α) (out : List (Ptr α)) : Prop :=
  ∀ i : Int, 0 ≤ i → i < (out.length : Int) - 1 → cmp (rd out i) (rd out (i + 1)) ≤ 0

/-- Number of inversions of a buffer, counted cell by cell: for every cell, the
number of later cells that compare `< 0` with it. -/
def inversions {α : Type} (cmp : FCompareAccounts α) : List (Ptr α) → Nat
  | [] => 0
  | x :: l => l.countP (fun y => decide (cmp y x < 0)) + inversions cmp l

/-- Number of inversions of a buffer `a`: the number of index pairs `i < j` with
`cmp(a[j], a[i]) < 0`. -/
def inversionCount {α : Type} (cmp : FCompareAccounts α) (a : List (Ptr α)) : Nat :=
  ((List.range a.length).map (fun (i : Nat) =>
    (List.range a.length).countP
      (fun (j : Nat) =>
        decide (i < j) && decide (cmp (rd a (j : Int)) (rd a (i : Int)) < 0)))).sum

/-- The cells of `[lo, hi]` are rearranged among themselves and every other cell
is kept: the lengths agree, cells outside the range are equal, and whatever
holds of all range cells of `arr` holds of all range cells of `arr'`. -/
def RangeStable {α : Type} (arr arr' : List (Ptr α)) (lo hi : Int) : Prop :=
  arr'.length = arr.length ∧
  (∀ k : Int, (k < lo ∨ hi < k) → rd arr' k = rd arr k) ∧
  ∀ P : Ptr α → Prop, (∀ k : Int, lo ≤ k → k ≤ hi → P (rd arr k)) →
    ∀ k : Int, lo ≤ k → k ≤ hi → P (rd arr' k)

/-- List view of `Merge`: the merge of the left run `L` and the right run `R`,
taking the left element whenever `cmp(L[i], R[j]) <= 0`; `Merge` writes this list
into `vec[left..right]` (theorem `merge_spec`). -/
def mergeLists {α : Type} (cmp : FCompareAccounts α) :
    List (Ptr α) → List (Ptr α) → List (Ptr α)
  | [], R => R
  | l :: L, [] => l :: L
  | l :: L, r :: R =>
    if cmp l r ≤ 0 then l :: mergeLists cmp L (r :: R)
    else r :: mergeLists cmp (l :: L) R

/-- Invariant of the three `while` loops of `Merge` on `vec = pre ++ A ++ B ++ post`:
`Au`, `Bu` are the parts of the runs already consumed (`i`, `j` their lengths),
`acc` is what has been written behind `pre` (`k` its end), `rest` the cells of the
range still to be overwritten; `C` is what a particular loop knows in addition
about the unconsumed parts. -/
def MergeInv {α : Type} (cmp : FCompareAccounts α) (pre A B post : List (Ptr α))
    (s0 : OperationSummary) (C : List (Ptr α) → List (Ptr α) → Prop)
    (st : MergeState α) : Prop :=
  ∃ Au Ad Bu Bd acc rest : List (Ptr α),
    A = Au ++ Ad ∧ B = Bu ++ Bd ∧ st.i = Au.length ∧ st.j = Bu.length ∧
    st.k = (pre.length : Int) + acc.length ∧
    st.vec = pre ++ (acc ++ (rest ++ post)) ∧ rest.length = Ad.length + Bd.length ∧
    acc ++ mergeLists cmp Ad Bd = mergeLists cmp A B ∧
    st.summary.swaps = s0.swaps ∧ st.summary.comparisons ≤ s0.comparisons + acc.length ∧
    C Ad Bd

/-- Comparator on `Ptr Nat` used in the examples: a null reference orders first,
records are compared by their number (as `CompareByBalance` does by balance). -/
def cmpNat : FCompareAccounts Nat
  | none, none => 0
  | none, some _ => -1
  | some _, none => 1
  | some a, some b => if a < b then -1 else if a > b then 1 else 0

/-- Comparator on `Ptr Nat` used in the examples: the order of `cmpNat` reversed. -/
def cmpNatDesc : FCompareAccounts Nat := fun a b => cmpNat b a

/-- Comparator on `Ptr Nat` used in the examples: records are compared by their
number of tens only, so records such as `20` and `21` compare equal. -/
def cmpTens : FCompareAccounts Nat :=
  fun a b => cmpNat (a.map (fun x => x / 10)) (b.map (fun x => x / 10))

/-- The part of the buffer in the cells `left .. right`. -/
def slice {α : Type} (arr : List (Ptr α)) (left right : Int) : List (Ptr α) :=
  (arr.drop left.toNat).take (right - left + 1).toNat

/-- Example engine over `Ptr Nat`: the buffer and the sequence hold the same references. -/
def exampleEngine (l : List (Ptr Nat)) : TSort Nat := TSort.new (listOfVec l) l

/-! ## Basic facts: array cells -/

theorem length_wr {α : Type} (arr : List (Ptr α)) (i : Int) (v : Ptr α) :
    (wr arr i v).length = arr.length := by
  unfold wr; split <;> simp

theorem length_swap {α : Type} (arr : List (Ptr α)) (i j : Int) :
    (swap arr i j).length = arr.length := by
  simp [swap, length_wr]

theorem rd_wr {α : Type} (arr : List (Ptr α)) (i k : Int) (v : Ptr α)
    (hi : 0 ≤ i) (hlt : i < arr.length) :
    rd (wr arr i v) k = if k = i then v else rd arr k := by
  unfold rd wr
  by_cases hk : 0 ≤ k
  · simp only [hk, hi, if_true]
    rw [List.getD_eq_getElem?_getD, List.getD_eq_getElem?_getD, List.getElem?_set]
    by_cases hki : k = i
    · subst hki
      have : k.toNat < arr.length := by omega
      simp [this]
    · have : ¬ i.toNat = k.toNat := by omega
      simp [this, hki]
  · have : k ≠ i := by omega
    simp [hk, this]

theorem rd_swap {α : Type} (arr : List (Ptr α)) (i j k : Int)
    (hi : 0 ≤ i) (hil : i < arr.length) (hj : 0 ≤ j) (hjl : j < arr.length) :
    rd (swap arr i j) k =
      if k = j then rd arr i else if k = i then rd arr j else rd arr k := by
  unfold swap
  rw [rd_wr _ _ _ _ hj (by rw [length_wr]; exact hjl), rd_wr _ _ _ _ hi hil]

theorem rd_mem {α : Type} (arr : List (Ptr α)) (k : Int) (h0 : 0 ≤ k) (hk : k < arr.length) :
    rd arr k ∈ arr := by
  unfold rd
  have h : k.toNat < arr.length := by omega
  simp only [h0, if_true]
  rw [List.getD_eq_getElem _ _ h]
  exact List.getElem_mem h

theorem exists_rd_of_mem {α : Type} (arr : List (Ptr α)) (x : Ptr α) (hx : x ∈ arr) :
    ∃ k : Int, 0 ≤ k ∧ k < arr.length ∧ rd arr k = x := by
  obtain ⟨n, hn, rfl⟩ := List.getElem_of_mem hx
  refine ⟨(n : Int), by omega, by omega, ?_⟩
  unfold rd
  have h0 : (0 : Int) ≤ (n : Int) := by omega
  simp only [h0, if_true, Int.toNat_ofNat]
  exact List.getD_eq_getElem _ _ hn

theorem ext_rd {α : Type} (a b : List (Ptr α)) (hlen : a.length = b.length)
    (h : ∀ k : Int, 0 ≤ k → k < a.length → rd a k = rd b k) : a = b := by
  apply List.ext_getElem hlen
  intro n h1 h2
  have := h (n : Int) (by omega) (by omega)
  unfold rd at this
  have h0 : (0 : Int) ≤ (n : Int) := by omega
  simp only [h0, if_true, Int.toNat_ofNat] at this
  rwa [List.getD_eq_getElem _ _ h1, List.getD_eq_getElem _ _ h2] at this

theorem getD_cons_set_perm {α : Type} (d x : α) :
    ∀ (l : List α) (j : Nat), j < l.length → (l.getD j d :: l.set j x).Perm (x :: l)
  | [], _, h => by simp at h
  | y :: t, 0, _ => by
    simpa using List.Perm.swap x y t
  | y :: t, j + 1, h => by
    have ih := getD_cons_set_perm d x t j (by simpa using h)
    simp only [List.getD_cons_succ, List.set_cons_succ]
    exact ((List.Perm.swap y (t.getD j d) (t.set j x)).trans (ih.cons y)).trans
      (List.Perm.swap x y t)

theorem set_exchange_perm {α : Type} (d : α) :
    ∀ (l : List α) (i j : Nat), i < l.length → j < l.length →
      ((l.set i (l.getD j d)).set j (l.getD i d)).Perm l
  | [], _, _, h, _ => by simp at h
  | y :: t, 0, 0, _, _ => by simp
  | y :: t, 0, j + 1, _, h => by
    simpa using getD_cons_set_perm d y t j (by simpa using h)
  | y :: t, i + 1, 0, h, _ => by
    simpa using getD_cons_set_perm d y t i (by simpa using h)
  | y :: t, i + 1, j + 1, h1, h2 => by
    simpa using set_exchange_perm d t i j (by simpa using h1) (by simpa using h2)

theorem swap_perm {α : Type} (arr : List (Ptr α)) (i j : Int)
    (hi : 0 ≤ i) (hil : i < arr.length) (hj : 0 ≤ j) (hjl : j < arr.length) :
    (swap arr i j).Perm arr := by
  unfold swap wr rd
  simp only [hi, hj, if_true]
  exact set_exchange_perm none arr i.toNat j.toNat (by omega) (by omega)

/-! ## Basic facts: loops -/

theorem forLoop_inv {σ : Type} (P : Int → σ → Prop) (body : Int → σ → σ) :
    ∀ (count : Nat) (j : Int) (s : σ), P j s →
      (∀ k t, j ≤ k → k < j + count → P k t → P (k + 1) (body k t)) →
      P (j + count) (forLoop body count j s)
  | 0, j, s, h0, _ => by simpa [forLoop] using h0
  | c + 1, j, s, h0, hstep => by
    have h1 : P (j + 1) (body j s) := hstep j s (le_refl _) (by omega) h0
    have := forLoop_inv P body c (j + 1) (body j s) h1
      (fun k t hk1 hk2 hP => hstep k t (by omega) (by push_cast; omega) hP)
    simp only [forLoop]
    have e : j + ((c + 1 : Nat) : Int) = j + 1 + (c : Int) := by push_cast; omega
    rw [e]
    exact this

/-- Invariant rule for `for (int j = lo; j < hi; ++j)`. -/
theorem forRange_inv {σ : Type} (P : Int → σ → Prop) (lo hi : Int) (body : Int → σ → σ)
    (s : σ) (hle : lo ≤ hi) (h0 : P lo s)
    (hstep : ∀ k t, lo ≤ k → k < hi → P k t → P (k + 1) (body k t)) :
    P hi (forRange lo hi body s) := by
  unfold forRange
  have := forLoop_inv P body (hi - lo).toNat lo s h0
    (fun k t h1 h2 hP => hstep k t h1 (by omega) hP)
  have e : lo + ((hi - lo).toNat : Int) = hi := by omega
  rwa [e] at this

theorem forRange_empty {σ : Type} (lo hi : Int) (body : Int → σ → σ) (s : σ) (h : hi ≤ lo) :
    forRange lo hi body s = s := by
  unfold forRange
  have : (hi - lo).toNat = 0 := by omega
  rw [this]; rfl

/-- Total-correctness rule for `while (cond) body` with a variant `m`. -/
theorem whileLoop_spec {σ : Type} (cond : σ → Bool) (body : σ → σ) (Inv : σ → Prop)
    (m : σ → Nat)
    (hstep : ∀ s, Inv s → cond s = true → Inv (body s) ∧ m (body s) < m s) :
    ∀ (fuel : Nat) (s : σ), Inv s → m s ≤ fuel →
      ∃ s', whileLoop cond body fuel s = some s' ∧ Inv s' ∧ cond s' = false
  | 0, s, hI, hm => by
    cases hc : cond s with
    | false => exact ⟨s, by simp [whileLoop, hc], hI, hc⟩
    | true => have := (hstep s hI hc).2; omega
  | f + 1, s, hI, hm => by
    cases hc : cond s with
    | false => exact ⟨s, by simp [whileLoop, hc], hI, hc⟩
    | true =>
      obtain ⟨h1, h2⟩ := hstep s hI hc
      obtain ⟨s', e, hI', hc'⟩ := whileLoop_spec cond body Inv m hstep f (body s) h1 (by omega)
      exact ⟨s', by simp [whileLoop, hc, e], hI', hc'⟩

theorem copyArray_eq {α : Type} (src : List (Ptr α)) :
    copyArray src src.length = src := by
  unfold copyArray
  have key := forRange_inv
    (fun (j : Int) (dst : List (Ptr α)) => dst.length = src.length ∧
      ∀ k : Int, 0 ≤ k → k < j → rd dst k = rd src k)
    0 src.length (fun i dst => wr dst i (rd src i))
    (List.replicate (src.length : Int).toNat none) (by omega)
    ⟨by simp, by intro k h1 h2; omega⟩
    (by
      intro k t h1 h2 ⟨hl, hr⟩
      refine ⟨by rw [length_wr]; exact hl, ?_⟩
      intro q hq1 hq2
      rw [rd_wr _ _ _ _ h1 (by omega)]
      by_cases e : q = k
      · simp [e]
      · simp only [e, if_false]; exact hr q hq1 (by omega))
  exact ext_rd _ _ key.1 (fun k h1 h2 => key.2 k h1 (by omega))

/-! ## Basic facts: comparators -/

theorem sign_flip {x y : Int} (h : Int.sign x = - Int.sign y) :
    (x < 0 ↔ 0 < y) ∧ (0 < x ↔ y < 0) := by
  have hx1 := @Int.sign_eq_one_iff_pos x
  have hx2 := @Int.sign_eq_neg_one_iff_neg x
  have hy1 := @Int.sign_eq_one_iff_pos y
  have hy2 := @Int.sign_eq_neg_one_iff_neg y
  refine ⟨⟨fun hh => hy1.1 ?_, fun hh => hx2.1 ?_⟩, ⟨fun hh => hy2.1 ?_, fun hh => hx1.1 ?_⟩⟩
  · have := hx2.2 hh; omega
  · have := hy1.2 hh; omega
  · have := hx1.2 hh; omega
  · have := hy2.2 hh; omega

theorem SignAntisymmOn.neg_iff {α : Type} {cmp : FCompareAccounts α} {S : List (Ptr α)}
    (h : SignAntisymmOn cmp S) {a b : Ptr α} (ha : a ∈ S) (hb : b ∈ S) :
    cmp a b < 0 ↔ 0 < cmp b a :=
  (sign_flip (h a ha b hb)).1

theorem SignAntisymmOn.le_of_not_neg {α : Type} {cmp : FCompareAccounts α} {S : List (Ptr α)}
    (h : SignAntisymmOn cmp S) {a b : Ptr α} (ha : a ∈ S) (hb : b ∈ S)
    (hn : ¬ cmp a b < 0) : cmp b a ≤ 0 := by
  have := (sign_flip (h b hb a ha)).2
  by_contra hc
  exact hn (this.1 (by omega))

theorem SignAntisymmOn.self_eq_zero {α : Type} {cmp : FCompareAccounts α} {S : List (Ptr α)}
    (h : SignAntisymmOn cmp S) {a : Ptr α} (ha : a ∈ S) : cmp a a = 0 := by
  have h1 := (sign_flip (h a ha a ha)).1
  have h2 := (sign_flip (h a ha a ha)).2
  rcases lt_trichotomy (cmp a a) 0 with hx | hx | hx
  · have := h1.1 hx; omega
  · exact hx
  · have := h2.1 hx; omega

theorem SignAntisymmOn.eq_zero_symm {α : Type} {cmp : FCompareAccounts α} {S : List (Ptr α)}
    (h : SignAntisymmOn cmp S) {a b : Ptr α} (ha : a ∈ S) (hb : b ∈ S)
    (hz : cmp a b = 0) : cmp b a = 0 := by
  have h1 := (sign_flip (h a ha b hb)).1
  have h2 := (sign_flip (h a ha b hb)).2
  rcases lt_trichotomy (cmp b a) 0 with hx | hx | hx
  · have := h2.2 hx; omega
  · exact hx
  · have := h1.2 hx; omega

theorem signAntisymmOn_mono {α : Type} {cmp : FCompareAccounts α} {S T : List (Ptr α)}
    (h : SignAntisymmOn cmp S) (hsub : ∀ x ∈ T, x ∈ S) : SignAntisymmOn cmp T :=
  fun a ha b hb => h a (hsub a ha) b (hsub b hb)

theorem transOn_mono {α : Type} {cmp : FCompareAccounts α} {S T : List (Ptr α)}
    (h : TransOn cmp S) (hsub : ∀ x ∈ T, x ∈ S) : TransOn cmp T :=
  fun a ha b hb c hc => h a (hsub a ha) b (hsub b hb) c (hsub c hc)

theorem totalPreorderOn_mono {α : Type} {cmp : FCompareAccounts α} {S T : List (Ptr α)}
    (h : TotalPreorderOn cmp S) (hsub : ∀ x ∈ T, x ∈ S) : TotalPreorderOn cmp T :=
  ⟨signAntisymmOn_mono h.1 hsub, transOn_mono h.2 hsub⟩

theorem cmpNat_totalPreorder (S : List (Ptr Nat)) : TotalPreorderOn cmpNat S := by
  constructor
  · intro a _ b _
    rcases a with _ | x <;> rcases b with _ | y <;> simp [cmpNat]
    rcases lt_trichotomy x y with h | h | h
    · have : ¬ y < x := by omega
      simp [h, this]
    · subst h; simp
    · have : ¬ x < y := by omega
      simp [h, this]
  · intro a _ b _ c _
    rcases a with _ | x <;> rcases b with _ | y <;> rcases c with _ | z <;> simp [cmpNat]
    split_ifs <;> intros <;> omega

/-! ## Selection sort -/

/-- The scan for the minimum leaves `minIdx` inside `[i, n)`, whatever the comparator. -/
theorem selectionScan_range {α : Type} (cmp : FCompareAccounts α) (arr : List (Ptr α))
    (i n : Int) (s : OperationSummary) (hin : i + 1 ≤ n) :
    i ≤ (forRange (i + 1) n (selectionInnerBody cmp arr) ⟨i, s⟩).minIdx ∧
      (forRange (i + 1) n (selectionInnerBody cmp arr) ⟨i, s⟩).minIdx < n := by
  have key := forRange_inv (fun (j : Int) (st : MinScan) => i ≤ st.minIdx ∧ st.minIdx < j)
    (i + 1) n (selectionInnerBody cmp arr) ⟨i, s⟩ hin ⟨le_refl _, by simp⟩
    (by
      intro k t h1 h2 ⟨ha, hb⟩
      unfold selectionInnerBody
      dsimp only
      split <;> dsimp only
      · exact ⟨by omega, by omega⟩
      · exact ⟨ha, by omega⟩)
  exact key

/-- Under a total preorder the scan ends on a minimum of `arr[i..n)`. -/
theorem selectionScan_min {α : Type} (cmp : FCompareAccounts α) (arr S : List (Ptr α))
    (hpre : TotalPreorderOn cmp S) (hmem : ∀ x ∈ arr, x ∈ S)
    (i n : Int) (s : OperationSummary) (h0 : 0 ≤ i) (hin : i + 1 ≤ n) (hn : n ≤ arr.length) :
    ∀ k : Int, i ≤ k → k < n →
      cmp (rd arr (forRange (i + 1) n (selectionInnerBody cmp arr) ⟨i, s⟩).minIdx) (rd arr k) ≤ 0 := by
  have hS : ∀ k : Int, 0 ≤ k → k < n → rd arr k ∈ S :=
    fun k h1 h2 => hmem _ (rd_mem arr k h1 (by omega))
  have key := forRange_inv
    (fun (j : Int) (st : MinScan) => (i ≤ st.minIdx ∧ st.minIdx < j) ∧
      ∀ k : Int, i ≤ k → k < j → cmp (rd arr st.minIdx) (rd arr k) ≤ 0)
    (i + 1) n (selectionInnerBody cmp arr) ⟨i, s⟩ hin
    ⟨⟨le_refl _, by simp⟩, by
      intro k h1 h2
      have : k = i := by omega
      subst this
      exact le_of_eq (hpre.1.self_eq_zero (hS k h0 (by omega)))⟩
    (by
      intro j t h1 h2 ⟨⟨ha, hb⟩, hmin⟩
      unfold selectionInnerBody
      dsimp only
      have hj : rd arr j ∈ S := hS j (by omega) h2
      have hm : rd arr t.minIdx ∈ S := hS t.minIdx (by omega) (by omega)
      split <;> dsimp only
      · rename_i hlt
        refine ⟨⟨by omega, by omega⟩, ?_⟩
        intro k hk1 hk2
        by_cases e : k = j
        · subst e; exact le_of_eq (hpre.1.self_eq_zero hj)
        · exact hpre.2 _ hj _ hm _ (hS k (by omega) (by omega)) (le_of_lt hlt)
            (hmin k hk1 (by omega))
      · rename_i hnlt
        refine ⟨⟨ha, by omega⟩, ?_⟩
        intro k hk1 hk2
        by_cases e : k = j
        · subst e; exact hpre.1.le_of_not_neg hj hm hnlt
        · exact hmin k hk1 (by omega))
  exact key.2

/-- One round of selection sort permutes the working array. -/
theorem selectionOuterBody_perm {α : Type} (cmp : FCompareAccounts α) (n i : Int)
    (st : SortState α) (h0 : 0 ≤ i) (hin : i + 1 ≤ n) (hn : n ≤ st.arr.length) :
    (selectionOuterBody cmp n i st).arr.Perm st.arr := by
  unfold selectionOuterBody
  dsimp only
  have hr := selectionScan_range cmp st.arr i n st.summary hin
  split
  · exact swap_perm _ _ _ h0 (by omega) (by omega) (by omega)
  · exact List.Perm.refl _

/-- The selection-sort loop nest permutes the working array, whatever the comparator. -/
theorem selectionLoops_perm {α : Type} (cmp : FCompareAccounts α) (st : SortState α) :
    (selectionLoops cmp st.arr.length st).arr.Perm st.arr := by
  unfold selectionLoops
  by_cases hn : (0 : Int) ≤ (st.arr.length : Int) - 1
  · exact forRange_inv (fun (_ : Int) (t : SortState α) => t.arr.Perm st.arr)
      0 ((st.arr.length : Int) - 1) _ st hn (List.Perm.refl _)
      (by
        intro k t h1 h2 hP
        have hl : t.arr.length = st.arr.length := hP.length_eq
        exact (selectionOuterBody_perm cmp _ k t h1 (by omega) (by omega)).trans hP)
  · rw [forRange_empty _ _ _ _ (by omega)]

/-- The selection-sort loop nest leaves the array ordered under a total preorder:
every earlier cell compares `<= 0` with every later cell. -/
theorem selectionLoops_ordered {α : Type} (cmp : FCompareAccounts α) (st : SortState α)
    (hpre : TotalPreorderOn cmp st.arr) :
    ∀ a b : Int, 0 ≤ a → a < b → b < st.arr.length →
      cmp (rd (selectionLoops cmp st.arr.length st).arr a)
        (rd (selectionLoops cmp st.arr.length st).arr b) ≤ 0 := by
  intro a b ha0 hab hb
  have hn : (0 : Int) ≤ (st.arr.length : Int) - 1 := by omega
  have key := forRange_inv
    (fun (i : Int) (t : SortState α) => t.arr.Perm st.arr ∧
      ∀ a b : Int, 0 ≤ a → a < i → a < b → b < st.arr.length →
        cmp (rd t.arr a) (rd t.arr b) ≤ 0)
    0 ((st.arr.length : Int) - 1) (selectionOuterBody cmp st.arr.length) st hn
    ⟨List.Perm.refl _, by intro a b h1 h2; omega⟩
    (by
      intro i t h1 h2 ⟨hP, hsorted⟩
      have hl : t.arr.length = st.arr.length := hP.length_eq
      have hmem : ∀ x ∈ t.arr, x ∈ st.arr := fun x hx => hP.mem_iff.1 hx
      refine ⟨(selectionOuterBody_perm cmp _ i t h1 (by omega) (by omega)).trans hP, ?_⟩
      have hr := selectionScan_range cmp t.arr i st.arr.length t.summary (by omega)
      have hmin := selectionScan_min cmp t.arr st.arr hpre hmem i st.arr.length t.summary
        h1 (by omega) (by omega)
      unfold selectionOuterBody
      dsimp only
      generalize (forRange (i + 1) (st.arr.length : Int) (selectionInnerBody cmp t.arr)
        ⟨i, t.summary⟩) = scan at hr hmin
      intro a b ha hai hab hb
      split
      · rename_i hne
        rw [rd_swap _ _ _ _ h1 (by omega) (by omega) (by omega),
          rd_swap _ _ _ _ h1 (by omega) (by omega) (by omega)]
        by_cases e : a = i
        · subst e
          have e1 : ¬ a = scan.minIdx := fun h => hne h.symm
          simp only [e1, if_false, if_true]
          split
          · exact hmin a (le_refl _) (by omega)
          · have : ¬ b = a := by omega
            simp only [this, if_false]
            exact hmin b (by omega) hb
        · have e1 : ¬ a = scan.minIdx := by omega
          simp only [e1, e, if_false]
          split
          · exact hsorted a i ha (by omega) (by omega) (by omega)
          · split
            · exact hsorted a scan.minIdx ha (by omega) (by omega) (by omega)
            · exact hsorted a b ha (by omega) hab hb
      · rename_i heq
        have heq : scan.minIdx = i := by
          by_contra hc; exact heq hc
        by_cases e : a = i
        · subst e
          rw [← heq]
          exact hmin b (by omega) hb
        · exact hsorted a b ha (by omega) hab hb)
  exact key.2 a b ha0 (by omega) hab hb

/-! ## Order vocabulary on lists -/

theorem rd_natCast {α : Type} (l : List (Ptr α)) (n : Nat) (h : n < l.length) :
    rd l (n : Int) = l[n] := by
  unfold rd
  have h0 : (0 : Int) ≤ (n : Int) := by omega
  simp only [h0, if_true, Int.toNat_ofNat]
  exact List.getD_eq_getElem _ _ h

theorem pairwise_of_rd {α : Type} (cmp : FCompareAccounts α) (l : List (Ptr α))
    (h : ∀ a b : Int, 0 ≤ a → a < b → b < l.length → cmp (rd l a) (rd l b) ≤ 0) :
    l.Pairwise (fun x y => cmp x y ≤ 0) := by
  rw [List.pairwise_iff_getElem]
  intro i j hi hj hij
  have := h (i : Int) (j : Int) (by omega) (by omega) (by omega)
  rwa [rd_natCast l i hi, rd_natCast l j hj] at this

theorem nonDecreasing_of_pairwise {α : Type} (cmp : FCompareAccounts α) (l : List (Ptr α))
    (h : l.Pairwise (fun x y => cmp x y ≤ 0)) : NonDecreasing cmp l := by
  rw [List.pairwise_iff_getElem] at h
  intro i h0 h1
  have hi : i.toNat < l.length := by omega
  have hj : i.toNat + 1 < l.length := by omega
  have := h i.toNat (i.toNat + 1) hi hj (by omega)
  rw [← rd_natCast l _ hi, ← rd_natCast l _ hj] at this
  have e1 : ((i.toNat : Nat) : Int) = i := by omega
  have e2 : ((i.toNat + 1 : Nat) : Int) = i + 1 := by omega
  rwa [e1, e2] at this

/-! ## TLinkedList -/

theorem gather_eq {α : Type} : ∀ (it vec : List (Ptr α)), gather it vec = vec ++ it
  | [], vec => by simp [gather]
  | d :: rest, vec => by simp [gather, gather_eq rest]

theorem TLinkedList.toVec_eq {α : Type} (l : TLinkedList α) : l.toVec = l.head := by
  simp [TLinkedList.toVec, gather_eq]

theorem TLinkedList.wellFormed_new {α : Type} (owns : Bool) :
    (TLinkedList.new owns : TLinkedList α).WellFormed := by
  simp [TLinkedList.new, TLinkedList.WellFormed]

theorem TLinkedList.add_none {α : Type} (l : TLinkedList α) : l.add none = l := rfl

theorem TLinkedList.add_some {α : Type} (l : TLinkedList α) (a : α) (h : l.WellFormed) :
    (l.add (some a)).head = l.head ++ [some a] ∧ (l.add (some a)).size = l.size + 1 ∧
      (l.add (some a)).ownsData = l.ownsData ∧ (l.add (some a)).WellFormed := by
  obtain ⟨hs, ht⟩ := h
  rcases l with ⟨hd, tl, owns, sz⟩
  cases hd with
  | nil => simp_all [TLinkedList.add, TLinkedList.WellFormed]
  | cons x xs =>
    simp only [List.length_cons, Nat.add_one_ne_zero, if_false, Nat.add_sub_cancel] at ht
    subst ht
    simp only [TLinkedList.add, TLinkedList.WellFormed]
    have e : List.take (xs.length + 1) (x :: xs) = x :: xs := by
      apply List.take_of_length_le; simp
    rw [e]
    simp_all

theorem TLinkedList.foldl_add {α : Type} :
    ∀ (vec : List (Ptr α)) (l : TLinkedList α), l.WellFormed →
      (vec.foldl TLinkedList.add l).head = l.head ++ vec.filter (fun p => p.isSome) ∧
      (vec.foldl TLinkedList.add l).size = l.size + (vec.filter (fun p => p.isSome)).length ∧
      (vec.foldl TLinkedList.add l).ownsData = l.ownsData ∧
      (vec.foldl TLinkedList.add l).WellFormed
  | [], l, h => by simp [h]
  | none :: rest, l, h => by
    simpa [TLinkedList.add_none] using TLinkedList.foldl_add rest l h
  | some a :: rest, l, h => by
    obtain ⟨h1, h2, h3, h4⟩ := TLinkedList.add_some l a h
    obtain ⟨g1, g2, g3, g4⟩ := TLinkedList.foldl_add rest (l.add (some a)) h4
    simp only [List.foldl_cons, Option.isSome_some, List.filter_cons_of_pos, List.length_cons]
    rw [g1, g2, g3, h1, h2, h3]
    refine ⟨by simp, by omega, rfl, g4⟩

/-- The list built from a vector holds its non-null references, in order. -/
theorem listOfVec_toVec {α : Type} (vec : List (Ptr α)) :
    (listOfVec vec).toVec = vec.filter (fun p => p.isSome) := by
  rw [TLinkedList.toVec_eq]
  have := (TLinkedList.foldl_add vec (TLinkedList.new false) (TLinkedList.wellFormed_new _)).1
  simpa [listOfVec, TLinkedList.new] using this

theorem listOfVec_size {α : Type} (vec : List (Ptr α)) :
    (listOfVec vec).getSize = (vec.filter (fun p => p.isSome)).length := by
  have := (TLinkedList.foldl_add vec (TLinkedList.new false) (TLinkedList.wellFormed_new _)).2.1
  simpa [listOfVec, TLinkedList.new, TLinkedList.getSize] using this

theorem filter_isSome_of_noNull {α : Type} (vec : List (Ptr α)) (h : ∀ p ∈ vec, p ≠ none) :
    vec.filter (fun p => p.isSome) = vec := by
  rw [List.filter_eq_self]
  intro p hp
  cases p with
  | none => exact absurd rfl (h none hp)
  | some a => rfl

/-- Every reachable list is well formed and holds no null reference. -/
theorem TLinkedList.Reachable.inv {α : Type} {l : TLinkedList α} (h : l.Reachable) :
    l.WellFormed ∧ ∀ p ∈ l.head, p ≠ none := by
  induction h with
  | new owns => exact ⟨TLinkedList.wellFormed_new owns, by simp [TLinkedList.new]⟩
  | @add l p _ ih =>
    cases p with
    | none => simpa [TLinkedList.add_none] using ih
    | some a =>
      obtain ⟨h1, _, _, h4⟩ := TLinkedList.add_some l a ih.1
      refine ⟨h4, ?_⟩
      rw [h1]
      intro p hp
      rcases List.mem_append.1 hp with hp | hp
      · exact ih.2 p hp
      · simp at hp; simp [hp]
  | clear _ _ => simp [TLinkedList.cleared, TLinkedList.WellFormed]

/-! ## Rearrangement inside a range -/

theorem rangeStable_refl {α : Type} (arr : List (Ptr α)) (lo hi : Int) :
    RangeStable arr arr lo hi :=
  ⟨rfl, fun _ _ => rfl, fun _ h => h⟩

theorem rangeStable_trans {α : Type} {a b c : List (Ptr α)} {lo hi : Int}
    (h1 : RangeStable a b lo hi) (h2 : RangeStable b c lo hi) : RangeStable a c lo hi :=
  ⟨h2.1.trans h1.1, fun k hk => (h2.2.1 k hk).trans (h1.2.1 k hk),
    fun P hP => h2.2.2 P (h1.2.2 P hP)⟩

theorem rangeStable_widen {α : Type} {a b : List (Ptr α)} {lo hi lo' hi' : Int}
    (h : RangeStable a b lo hi) (hlo : lo' ≤ lo) (hhi : hi ≤ hi') :
    RangeStable a b lo' hi' := by
  refine ⟨h.1, fun k hk => h.2.1 k (by omega), ?_⟩
  intro P hP k hk1 hk2
  by_cases hin : lo ≤ k ∧ k ≤ hi
  · exact h.2.2 P (fun q hq1 hq2 => hP q (by omega) (by omega)) k hin.1 hin.2
  · rw [h.2.1 k (by omega)]
    exact hP k hk1 hk2

theorem rangeStable_swap {α : Type} (arr : List (Ptr α)) (lo hi i j : Int)
    (hi0 : 0 ≤ i) (hil : i < arr.length) (hj0 : 0 ≤ j) (hjl : j < arr.length)
    (hir : lo ≤ i ∧ i ≤ hi) (hjr : lo ≤ j ∧ j ≤ hi) :
    RangeStable arr (swap arr i j) lo hi := by
  refine ⟨length_swap _ _ _, ?_, ?_⟩
  · intro k hk
    rw [rd_swap _ _ _ _ hi0 hil hj0 hjl]
    have e1 : ¬ k = j := by omega
    have e2 : ¬ k = i := by omega
    simp only [e1, e2, if_false]
  · intro P hP k hk1 hk2
    rw [rd_swap _ _ _ _ hi0 hil hj0 hjl]
    split
    · exact hP i hir.1 hir.2
    · split
      · exact hP j hjr.1 hjr.2
      · exact hP k hk1 hk2

/-! ## Bubble sort -/

/-- One bubble pass over `[0, m]`, for any comparator: the array is permuted, only
cells of `[0, m]` move, and a pass without a swap changes nothing and has seen no
inverted neighbours. -/
theorem bubblePass_struct {α : Type} (cmp : FCompareAccounts α) (arr0 : List (Ptr α))
    (s : OperationSummary) (m : Int) (hm0 : 0 ≤ m) (hml : m < arr0.length) :
    (forRange 0 m (bubbleInnerBody cmp) ⟨arr0, s, false⟩).arr.Perm arr0 ∧
    RangeStable arr0 (forRange 0 m (bubbleInnerBody cmp) ⟨arr0, s, false⟩).arr 0 m ∧
    ((forRange 0 m (bubbleInnerBody cmp) ⟨arr0, s, false⟩).swapped = false →
      (forRange 0 m (bubbleInnerBody cmp) ⟨arr0, s, false⟩).arr = arr0 ∧
      ∀ k : Int, 0 ≤ k → k < m → ¬ cmp (rd arr0 (k + 1)) (rd arr0 k) < 0) := by
  have key := forRange_inv
    (fun (j : Int) (st : BubbleState α) => st.arr.Perm arr0 ∧ RangeStable arr0 st.arr 0 m ∧
      (st.swapped = false → st.arr = arr0 ∧
        ∀ k : Int, 0 ≤ k → k < j → ¬ cmp (rd arr0 (k + 1)) (rd arr0 k) < 0))
    0 m (bubbleInnerBody cmp) ⟨arr0, s, false⟩ hm0
    ⟨List.Perm.refl _, rangeStable_refl _ _ _, fun _ => ⟨rfl, by intro k h1 h2; omega⟩⟩
    (by
      intro j t h1 h2 ⟨hP, hR, hN⟩
      have hl : (t.arr.length : Int) = arr0.length := by rw [hP.length_eq]
      unfold bubbleInnerBody
      dsimp only
      split <;> dsimp only
      · refine ⟨(swap_perm _ _ _ h1 (by omega) (by omega) (by omega)).trans hP,
          rangeStable_trans hR (rangeStable_swap _ _ _ _ _ h1 (by omega) (by omega) (by omega)
            ⟨by omega, by omega⟩ ⟨by omega, by omega⟩), ?_⟩
        intro hf; cases hf
      · rename_i hnlt
        refine ⟨hP, hR, ?_⟩
        intro hsw
        obtain ⟨e, hprev⟩ := hN hsw
        refine ⟨e, ?_⟩
        intro k hk1 hk2
        by_cases ek : k = j
        · subst ek; rw [← e]; exact hnlt
        · exact hprev k hk1 (by omega))
  exact key

/-- Under a total preorder a bubble pass over `[0, m]` leaves a maximum of the
range in cell `m`. -/
theorem bubblePass_max {α : Type} (cmp : FCompareAccounts α) (arr0 S : List (Ptr α))
    (hpre : TotalPreorderOn cmp S) (hmem : ∀ x ∈ arr0, x ∈ S)
    (s : OperationSummary) (m : Int) (hm0 : 0 ≤ m) (hml : m < arr0.length) :
    ∀ k : Int, 0 ≤ k → k ≤ m →
      cmp (rd (forRange 0 m (bubbleInnerBody cmp) ⟨arr0, s, false⟩).arr k)
        (rd (forRange 0 m (bubbleInnerBody cmp) ⟨arr0, s, false⟩).arr m) ≤ 0 := by
  have key := forRange_inv
    (fun (j : Int) (st : BubbleState α) => st.arr.Perm arr0 ∧
      ∀ k : Int, 0 ≤ k → k ≤ j → cmp (rd st.arr k) (rd st.arr j) ≤ 0)
    0 m (bubbleInnerBody cmp) ⟨arr0, s, false⟩ hm0
    ⟨List.Perm.refl _, by
      intro k h1 h2
      have : k = 0 := by omega
      subst this
      exact le_of_eq (hpre.1.self_eq_zero (hmem _ (rd_mem _ _ (le_refl _) (by omega))))⟩
    (by
      intro j t h1 h2 ⟨hP, hmax⟩
      have hl : (t.arr.length : Int) = arr0.length := by rw [hP.length_eq]
      have hS : ∀ k : Int, 0 ≤ k → k < arr0.length → rd t.arr k ∈ S :=
        fun k hk1 hk2 => hmem _ (hP.mem_iff.1 (rd_mem _ _ hk1 (by omega)))
      have hj : rd t.arr j ∈ S := hS j h1 (by omega)
      have hj1 : rd t.arr (j + 1) ∈ S := hS (j + 1) (by omega) (by omega)
      unfold bubbleInnerBody
      dsimp only
      split <;> dsimp only
      · rename_i hlt
        refine ⟨(swap_perm _ _ _ h1 (by omega) (by omega) (by omega)).trans hP, ?_⟩
        intro k hk1 hk2
        rw [rd_swap _ _ _ _ h1 (by omega) (by omega) (by omega),
          rd_swap _ _ _ _ h1 (by omega) (by omega) (by omega)]
        simp only [if_true]
        by_cases e1 : k = j + 1
        · simp only [e1, if_true]
          exact le_of_eq (hpre.1.self_eq_zero hj)
        · simp only [e1, if_false]
          by_cases e2 : k = j
          · simp only [e2, if_true]; exact le_of_lt hlt
          · simp only [e2, if_false]; exact hmax k hk1 (by omega)
      · rename_i hnlt
        refine ⟨hP, ?_⟩
        intro k hk1 hk2
        have hle : cmp (rd t.arr j) (rd t.arr (j + 1)) ≤ 0 :=
          hpre.1.le_of_not_neg hj1 hj hnlt
        by_cases e1 : k = j + 1
        · subst e1; exact le_of_eq (hpre.1.self_eq_zero hj1)
        · exact hpre.2 _ (hS k hk1 (by omega)) _ hj _ hj1 (hmax k hk1 (by omega)) hle)
  exact key.2

/-- The pass loop of bubble sort permutes the working array, whatever the comparator. -/
theorem bubblePasses_perm {α : Type} (cmp : FCompareAccounts α) (n : Int) :
    ∀ (count : Nat) (pass : Int) (st : SortState α), 0 ≤ pass →
      pass + count ≤ max (n - 1) pass → (st.arr.length : Int) = n →
      (bubblePasses cmp n count pass st).arr.Perm st.arr
  | 0, _, st, _, _, _ => by simp [bubblePasses]
  | c + 1, pass, st, h0, hc, hl => by
    have hpn : pass < n - 1 := by push_cast at hc; omega
    have hs := bubblePass_struct cmp st.arr st.summary (n - 1 - pass) (by omega) (by omega)
    simp only [bubblePasses]
    split
    · exact hs.1
    · exact (bubblePasses_perm cmp n c (pass + 1) _ (by omega) (by push_cast at hc; omega)
        (by dsimp only; rw [hs.1.length_eq]; exact hl)).trans hs.1

theorem bubbleLoops_perm {α : Type} (cmp : FCompareAccounts α) (st : SortState α) :
    (bubbleLoops cmp st.arr.length st).arr.Perm st.arr := by
  unfold bubbleLoops
  exact bubblePasses_perm cmp (st.arr.length : Int) ((st.arr.length : Int) - 1 - 0).toNat 0 st
    (le_refl _) (by omega) rfl

/-- The pass loop of bubble sort, started with the last `pass` cells already in
their final place, leaves a non-decreasing array under a total preorder. -/
theorem bubblePasses_sorted {α : Type} (cmp : FCompareAccounts α) (S : List (Ptr α))
    (hpre : TotalPreorderOn cmp S) (n : Int) :
    ∀ (count : Nat) (pass : Int) (st : SortState α), 0 ≤ pass →
      pass + count = max (n - 1) pass → (st.arr.length : Int) = n →
      (∀ x ∈ st.arr, x ∈ S) →
      (∀ a b : Int, 0 ≤ a → a < b → b < n → n - pass ≤ b →
        cmp (rd st.arr a) (rd st.arr b) ≤ 0) →
      NonDecreasing cmp (bubblePasses cmp n count pass st).arr
  | 0, pass, st, h0, hc, hl, _, hQ => by
    simp only [bubblePasses]
    intro i hi0 hi1
    exact hQ i (i + 1) hi0 (by omega) (by omega) (by omega)
  | c + 1, pass, st, h0, hc, hl, hmem, hQ => by
    have hpn : pass < n - 1 := by push_cast at hc; omega
    have hs := bubblePass_struct cmp st.arr st.summary (n - 1 - pass) (by omega) (by omega)
    have hmax := bubblePass_max cmp st.arr S hpre hmem st.summary (n - 1 - pass)
      (by omega) (by omega)
    simp only [bubblePasses]
    generalize (forRange 0 (n - 1 - pass) (bubbleInnerBody cmp)
      ⟨st.arr, st.summary, false⟩) = r at hs hmax
    obtain ⟨hP, hR, hN⟩ := hs
    split
    · rename_i hsw
      have hsw : r.swapped = false := by simpa using hsw
      obtain ⟨e, hno⟩ := hN hsw
      dsimp only
      rw [e]
      intro i hi0 hi1
      by_cases hlow : i < n - 1 - pass
      · exact hpre.1.le_of_not_neg
          (hmem _ (rd_mem _ _ (by omega) (by omega)))
          (hmem _ (rd_mem _ _ (by omega) (by omega))) (hno i hi0 hlow)
      · exact hQ i (i + 1) hi0 (by omega) (by omega) (by omega)
    · apply bubblePasses_sorted cmp S hpre n c (pass + 1) ⟨r.arr, r.summary⟩ (by omega)
        (by push_cast at hc; omega)
        (by dsimp only; rw [hP.length_eq]; exact hl)
        (fun x hx => hmem x (hP.mem_iff.1 hx))
      intro a b ha hab hb hnb
      dsimp only
      by_cases eb : b = n - 1 - pass
      · subst eb; exact hmax a ha (by omega)
      · rw [hR.2.1 b (Or.inr (by omega))]
        by_cases hlow : a ≤ n - 1 - pass
        · exact hR.2.2 (fun x => cmp x (rd st.arr b) ≤ 0)
            (fun k hk1 hk2 => hQ k b hk1 (by omega) hb (by omega)) a ha hlow
        · rw [hR.2.1 a (Or.inr (by omega))]
          exact hQ a b ha hab hb (by omega)

theorem bubbleLoops_sorted {α : Type} (cmp : FCompareAccounts α) (st : SortState α)
    (hpre : TotalPreorderOn cmp st.arr) :
    NonDecreasing cmp (bubbleLoops cmp st.arr.length st).arr := by
  unfold bubbleLoops
  exact bubblePasses_sorted cmp st.arr hpre (st.arr.length : Int)
    ((st.arr.length : Int) - 1 - 0).toNat 0 st (le_refl _) (by omega) rfl
    (fun _ h => h) (by intro a b h1 h2 h3 h4; omega)

/-! ## Quick sort -/

/-- Postcondition of `Partition` on a range `0 <= left <= right < n`, for any
comparator: the returned index lies in the range and holds the pivot, the cells
before it compare `<= 0` with the pivot, the cells behind it do not, the array is
permuted and only cells of the range move. -/
theorem partition_spec {α : Type} (cmp : FCompareAccounts α) (arr : List (Ptr α))
    (left right : Int) (s : OperationSummary)
    (hl : 0 ≤ left) (hlr : left ≤ right) (hr : right < arr.length) :
    (left ≤ (Partition cmp arr left right s).1 ∧ (Partition cmp arr left right s).1 ≤ right) ∧
    (Partition cmp arr left right s).2.arr.Perm arr ∧
    RangeStable arr (Partition cmp arr left right s).2.arr left right ∧
    rd (Partition cmp arr left right s).2.arr (Partition cmp arr left right s).1 = rd arr right ∧
    (∀ k : Int, left ≤ k → k < (Partition cmp arr left right s).1 →
      cmp (rd (Partition cmp arr left right s).2.arr k) (rd arr right) ≤ 0) ∧
    (∀ k : Int, (Partition cmp arr left right s).1 < k → k ≤ right →
      ¬ cmp (rd (Partition cmp arr left right s).2.arr k) (rd arr right) ≤ 0) := by
  have key := forRange_inv
    (fun (j : Int) (st : PartState α) => (left - 1 ≤ st.i ∧ st.i < j) ∧ st.arr.Perm arr ∧
      RangeStable arr st.arr left (right - 1) ∧
      (∀ k : Int, left ≤ k → k ≤ st.i → cmp (rd st.arr k) (rd arr right) ≤ 0) ∧
      (∀ k : Int, st.i < k → k < j → ¬ cmp (rd st.arr k) (rd arr right) ≤ 0))
    left right (partitionBody cmp (rd arr right)) ⟨left - 1, arr, s⟩ hlr
    ⟨⟨le_refl _, by simp⟩, List.Perm.refl _, rangeStable_refl _ _ _,
      by intro k h1 h2; dsimp only at h2; omega, by intro k h1 h2; dsimp only at h1; omega⟩
    (by
      intro j t h1 h2 ⟨⟨hi1, hi2⟩, hP, hR, hle, hgt⟩
      have hlen : (t.arr.length : Int) = arr.length := by rw [hP.length_eq]
      unfold partitionBody
      dsimp only
      split
      · rename_i hc
        split <;> dsimp only
        · rename_i hne
          refine ⟨⟨by omega, by omega⟩,
            (swap_perm _ _ _ (by omega) (by omega) (by omega) (by omega)).trans hP,
            rangeStable_trans hR (rangeStable_swap _ _ _ _ _ (by omega) (by omega) (by omega)
              (by omega) ⟨by omega, by omega⟩ ⟨by omega, by omega⟩), ?_, ?_⟩
          · intro k hk1 hk2
            rw [rd_swap _ _ _ _ (by omega) (by omega) (by omega) (by omega)]
            have e1 : ¬ k = j := by omega
            simp only [e1, if_false]
            split
            · exact hc
            · exact hle k hk1 (by omega)
          · intro k hk1 hk2
            rw [rd_swap _ _ _ _ (by omega) (by omega) (by omega) (by omega)]
            have e2 : ¬ k = t.i + 1 := by omega
            by_cases e1 : k = j
            · simp only [e1, if_true]
              exact hgt (t.i + 1) (by omega) (by omega)
            · simp only [e1, e2, if_false]
              exact hgt k (by omega) (by omega)
        · rename_i heq
          have heq : t.i + 1 = j := by
            by_contra hcon; exact heq hcon
          refine ⟨⟨by omega, by omega⟩, hP, hR, ?_, ?_⟩
          · intro k hk1 hk2
            by_cases e : k = j
            · subst e; exact hc
            · exact hle k hk1 (by omega)
          · intro k hk1 hk2; omega
      · rename_i hc
        dsimp only
        refine ⟨⟨hi1, by omega⟩, hP, hR, hle, ?_⟩
        intro k hk1 hk2
        by_cases e : k = j
        · subst e; exact hc
        · exact hgt k hk1 (by omega))
  unfold Partition
  dsimp only
  generalize (forRange left right (partitionBody cmp (rd arr right)) ⟨left - 1, arr, s⟩) = st
    at key
  obtain ⟨⟨hi1, hi2⟩, hP, hR, hle, hgt⟩ := key
  have hlen : (st.arr.length : Int) = arr.length := by rw [hP.length_eq]
  have hpiv : rd st.arr right = rd arr right := hR.2.1 right (Or.inr (by omega))
  split <;> dsimp only
  · rename_i hne
    refine ⟨⟨by omega, by omega⟩,
      (swap_perm _ _ _ (by omega) (by omega) (by omega) (by omega)).trans hP,
      rangeStable_trans (rangeStable_widen hR (le_refl _) (by omega))
        (rangeStable_swap _ _ _ _ _ (by omega) (by omega) (by omega)
          (by omega) ⟨by omega, by omega⟩ ⟨by omega, by omega⟩), ?_, ?_, ?_⟩
    · rw [rd_swap _ _ _ _ (by omega) (by omega) (by omega) (by omega)]
      simp only [hne, if_false, if_true]
      exact hpiv
    · intro k hk1 hk2
      rw [rd_swap _ _ _ _ (by omega) (by omega) (by omega) (by omega)]
      have e1 : ¬ k = right := by omega
      have e2 : ¬ k = st.i + 1 := by omega
      simp only [e1, e2, if_false]
      exact hle k hk1 (by omega)
    · intro k hk1 hk2
      rw [rd_swap _ _ _ _ (by omega) (by omega) (by omega) (by omega)]
      have e2 : ¬ k = st.i + 1 := by omega
      by_cases e1 : k = right
      · simp only [e1, if_true]
        exact hgt (st.i + 1) (by omega) (by omega)
      · simp only [e1, e2, if_false]
        exact hgt k (by omega) (by omega)
  · rename_i heq
    have heq : st.i + 1 = right := by
      by_contra hcon; exact heq hcon
    refine ⟨⟨by omega, by omega⟩, hP, rangeStable_widen hR (le_refl _) (by omega), ?_, ?_, ?_⟩
    · rw [heq]; exact hpiv
    · intro k hk1 hk2
      exact hle k hk1 (by omega)
    · intro k hk1 hk2; omega

/-- Total correctness of `QuickSortRecursive` on a range inside the array: with
fuel at least `right - left` the recursion returns, whatever the comparator, a
permutation that only rearranges the range; under a sign-antisymmetric comparator
neighbouring cells of the range are in order. -/
theorem quickSortRecursive_spec {α : Type} (cmp : FCompareAccounts α) (S : List (Ptr α)) :
    ∀ (fuel : Nat) (st : SortState α) (left right : Int),
      0 ≤ left → right < st.arr.length → right - left ≤ fuel →
      ∃ st', QuickSortRecursive cmp fuel st left right = some st' ∧
        st'.arr.Perm st.arr ∧ RangeStable st.arr st'.arr left right ∧
        (SignAntisymmOn cmp S → (∀ x ∈ st.arr, x ∈ S) →
          ∀ k : Int, left ≤ k → k < right → cmp (rd st'.arr k) (rd st'.arr (k + 1)) ≤ 0)
  | 0, st, left, right, _, _, hf => by
    have hge : left ≥ right := by
      have : right - left ≤ 0 := by exact_mod_cast hf
      omega
    exact ⟨st, by simp [QuickSortRecursive, hge], List.Perm.refl _, rangeStable_refl _ _ _,
      by intro _ _ k h1 h2; omega⟩
  | fuel + 1, st, left, right, hl, hr, hf => by
    by_cases hge : left ≥ right
    · exact ⟨st, by simp [QuickSortRecursive, hge], List.Perm.refl _, rangeStable_refl _ _ _,
        by intro _ _ k h1 h2; omega⟩
    · have hps := partition_spec cmp st.arr left right st.summary hl (by omega) hr
      simp only [QuickSortRecursive, hge, if_false]
      generalize (Partition cmp st.arr left right st.summary) = pr at hps
      obtain ⟨⟨hp1, hp2⟩, hP1, hR1, hpiv, hle, hgt⟩ := hps
      have hlen1 : (pr.2.arr.length : Int) = st.arr.length := by rw [hP1.length_eq]
      obtain ⟨st2, e2, hP2, hR2, hS2⟩ := quickSortRecursive_spec cmp S fuel pr.2 left (pr.1 - 1)
        hl (by omega) (by push_cast at hf; omega)
      have hlen2 : (st2.arr.length : Int) = st.arr.length := by rw [hP2.length_eq, hlen1]
      obtain ⟨st3, e3, hP3, hR3, hS3⟩ := quickSortRecursive_spec cmp S fuel st2 (pr.1 + 1) right
        (by omega) (by omega) (by push_cast at hf; omega)
      refine ⟨st3, by simp only [e2, e3], (hP3.trans hP2).trans hP1, ?_, ?_⟩
      · exact rangeStable_trans hR1 (rangeStable_trans
          (rangeStable_widen hR2 (le_refl _) (by omega))
          (rangeStable_widen hR3 (by omega) (le_refl _)))
      · intro hanti hmem k hk1 hk2
        have hmem1 : ∀ x ∈ pr.2.arr, x ∈ S := fun x hx => hmem x (hP1.mem_iff.1 hx)
        have hmem2 : ∀ x ∈ st2.arr, x ∈ S := fun x hx => hmem1 x (hP2.mem_iff.1 hx)
        have hmem3 : ∀ x ∈ st3.arr, x ∈ S := fun x hx => hmem2 x (hP3.mem_iff.1 hx)
        have hlen3 : (st3.arr.length : Int) = st.arr.length := by rw [hP3.length_eq, hlen2]
        have hpiv3 : rd st3.arr pr.1 = rd st.arr right := by
          rw [hR3.2.1 pr.1 (Or.inl (by omega)), hR2.2.1 pr.1 (Or.inr (by omega)), hpiv]
        have hleft : ∀ q : Int, left ≤ q → q ≤ pr.1 - 1 →
            cmp (rd st3.arr q) (rd st.arr right) ≤ 0 := by
          intro q hq1 hq2
          rw [hR3.2.1 q (Or.inl (by omega))]
          exact hR2.2.2 (fun x => cmp x (rd st.arr right) ≤ 0)
            (fun k h1 h2 => hle k h1 (by omega)) q hq1 hq2
        have hright : ∀ q : Int, pr.1 + 1 ≤ q → q ≤ right →
            ¬ cmp (rd st3.arr q) (rd st.arr right) ≤ 0 := by
          intro q hq1 hq2
          exact hR3.2.2 (fun x => ¬ cmp x (rd st.arr right) ≤ 0)
            (fun k h1 h2 => by
              rw [hR2.2.1 k (Or.inr (by omega))]
              exact hgt k (by omega) h2) q hq1 hq2
        by_cases c1 : k + 1 < pr.1
        · rw [hR3.2.1 k (Or.inl (by omega)), hR3.2.1 (k + 1) (Or.inl (by omega))]
          exact hS2 hanti hmem1 k hk1 (by omega)
        · by_cases c2 : k + 1 = pr.1
          · rw [c2, hpiv3]
            exact hleft k hk1 (by omega)
          · by_cases c3 : k = pr.1
            · rw [c3, hpiv3]
              have hx : rd st3.arr (pr.1 + 1) ∈ S :=
                hmem3 _ (rd_mem _ _ (by omega) (by omega))
              have hv : rd st.arr right ∈ S := hmem _ (rd_mem _ _ (by omega) (by omega))
              have hn := hright (pr.1 + 1) (le_refl _) (by omega)
              have := (hanti.neg_iff hv hx).2 (by omega)
              omega
            · exact hS3 hanti hmem2 k (by omega) hk2

/-! ## Cells of an appended list -/

theorem rd_append_left {α : Type} (a b : List (Ptr α)) (q : Int) (h0 : 0 ≤ q)
    (h : q < a.length) : rd (a ++ b) q = rd a q := by
  unfold rd
  simp only [h0, if_true]
  rw [List.getD_eq_getElem?_getD, List.getD_eq_getElem?_getD,
    List.getElem?_append_left (by omega)]

theorem rd_append_right {α : Type} (a b : List (Ptr α)) (q : Int)
    (h : (a.length : Int) ≤ q) : rd (a ++ b) q = rd b (q - a.length) := by
  unfold rd
  have h0 : 0 ≤ q := by omega
  have h1 : 0 ≤ q - a.length := by omega
  simp only [h0, h1, if_true]
  rw [List.getD_eq_getElem?_getD, List.getD_eq_getElem?_getD,
    List.getElem?_append_right (by omega)]
  congr 2
  omega

theorem rd_cons_zero {α : Type} (x : Ptr α) (l : List (Ptr α)) : rd (x :: l) 0 = x := by
  simp [rd]

theorem wr_append_cons {α : Type} (a b : List (Ptr α)) (x v : Ptr α) (k : Int)
    (hk : k = a.length) : wr (a ++ x :: b) k v = a ++ v :: b := by
  unfold wr
  have h0 : 0 ≤ k := by omega
  have e : k.toNat = a.length := by omega
  simp only [h0, if_true, e]
  rw [List.set_append_right _ _ (le_refl _)]
  simp

/-! ## The list merge -/

theorem mergeLists_nil_right {α : Type} (cmp : FCompareAccounts α) (L : List (Ptr α)) :
    mergeLists cmp L [] = L := by
  cases L <;> simp [mergeLists]

theorem mergeLists_perm {α : Type} (cmp : FCompareAccounts α) :
    ∀ (L R : List (Ptr α)), (mergeLists cmp L R).Perm (L ++ R) := by
  intro L
  induction L with
  | nil => intro R; simp [mergeLists]
  | cons l L ihL =>
    intro R
    induction R with
    | nil => simp [mergeLists]
    | cons r R ihR =>
      rw [mergeLists]
      split
      · exact (ihL (r :: R)).cons l
      · exact (ihR.cons r).trans (List.perm_middle.symm)

theorem mergeLists_pairwise {α : Type} (cmp : FCompareAccounts α) (S : List (Ptr α))
    (hpre : TotalPreorderOn cmp S) :
    ∀ (L R : List (Ptr α)), (∀ x ∈ L, x ∈ S) → (∀ x ∈ R, x ∈ S) →
      L.Pairwise (fun x y => cmp x y ≤ 0) → R.Pairwise (fun x y => cmp x y ≤ 0) →
      (mergeLists cmp L R).Pairwise (fun x y => cmp x y ≤ 0) := by
  intro L
  induction L with
  | nil => intro R _ _ _ hR; simpa [mergeLists] using hR
  | cons l L ihL =>
    intro R
    induction R with
    | nil => intro _ _ hL _; simpa [mergeLists] using hL
    | cons r R ihR =>
      intro hLS hRS hL hR
      have hl : l ∈ S := hLS l (List.mem_cons_self _ _)
      have hr : r ∈ S := hRS r (List.mem_cons_self _ _)
      rw [mergeLists]
      split
      · rename_i hc
        refine List.Pairwise.cons ?_ (ihL (r :: R)
          (fun x hx => hLS x (List.mem_cons_of_mem _ hx)) hRS (List.Pairwise.of_cons hL) hR)
        intro y hy
        rcases List.mem_append.1 ((mergeLists_perm cmp L (r :: R)).mem_iff.1 hy) with hy | hy
        · exact List.rel_of_pairwise_cons hL hy
        · rcases List.mem_cons.1 hy with hy | hy
          · subst hy; exact hc
          · exact hpre.2 _ hl _ hr _ (hRS y (List.mem_cons_of_mem _ hy)) hc
              (List.rel_of_pairwise_cons hR hy)
      · rename_i hc
        have hrl : cmp r l ≤ 0 := by
          have := (hpre.1.neg_iff hr hl).2 (by omega)
          omega
        refine List.Pairwise.cons ?_ (ihR hLS
          (fun x hx => hRS x (List.mem_cons_of_mem _ hx)) hL (List.Pairwise.of_cons hR))
        intro y hy
        rcases List.mem_append.1 ((mergeLists_perm cmp (l :: L) R).mem_iff.1 hy) with hy | hy
        · rcases List.mem_cons.1 hy with hy | hy
          · subst hy; exact hrl
          · exact hpre.2 _ hr _ hl _ (hLS y (List.mem_cons_of_mem _ hy)) hrl
              (List.rel_of_pairwise_cons hL hy)
        · exact List.rel_of_pairwise_cons hR hy

theorem mergeLists_sublist_left {α : Type} (cmp : FCompareAccounts α) :
    ∀ (L R : List (Ptr α)), L.Sublist (mergeLists cmp L R) := by
  intro L
  induction L with
  | nil => intro R; exact List.nil_sublist _
  | cons l L ihL =>
    intro R
    induction R with
    | nil => simp [mergeLists]
    | cons r R ihR =>
      rw [mergeLists]
      split
      · exact (ihL (r :: R)).cons₂ l
      · exact ihR.cons r

theorem mergeLists_sublist_right {α : Type} (cmp : FCompareAccounts α) :
    ∀ (L R : List (Ptr α)), R.Sublist (mergeLists cmp L R) := by
  intro L
  induction L with
  | nil => intro R; simp [mergeLists]
  | cons l L ihL =>
    intro R
    induction R with
    | nil => exact List.nil_sublist _
    | cons r R ihR =>
      rw [mergeLists]
      split
      · exact (ihL (r :: R)).cons l
      · exact ihR.cons₂ r

/-- In the merge of two ordered runs an element of the left run stays in front of
every element of the right run it does not exceed. -/
theorem mergeLists_cross {α : Type} (cmp : FCompareAccounts α) (S : List (Ptr α))
    (hpre : TotalPreorderOn cmp S) (a b : Ptr α) (hab : cmp a b ≤ 0) :
    ∀ (L R : List (Ptr α)), (∀ x ∈ L, x ∈ S) → (∀ x ∈ R, x ∈ S) →
      L.Pairwise (fun x y => cmp x y ≤ 0) → a ∈ L → b ∈ R →
      [a, b].Sublist (mergeLists cmp L R) := by
  intro L
  induction L with
  | nil => intro R _ _ _ ha; simp at ha
  | cons l L ihL =>
    intro R
    induction R with
    | nil => intro _ _ _ _ hb; simp at hb
    | cons r R ihR =>
      intro hLS hRS hL ha hb
      have hl : l ∈ S := hLS l (List.mem_cons_self _ _)
      have hr : r ∈ S := hRS r (List.mem_cons_self _ _)
      rw [mergeLists]
      split
      · rcases List.mem_cons.1 ha with ha | ha
        · subst ha
          apply List.Sublist.cons₂
          rw [List.singleton_sublist]
          exact (mergeLists_perm cmp L (r :: R)).mem_iff.2 (List.mem_append_right _ hb)
        · exact (ihL (r :: R) (fun x hx => hLS x (List.mem_cons_of_mem _ hx)) hRS
            (List.Pairwise.of_cons hL) ha hb).cons l
      · rename_i hc
        rcases List.mem_cons.1 hb with hb | hb
        · subst hb
          exfalso
          apply hc
          rcases List.mem_cons.1 ha with ha | ha
          · subst ha; exact hab
          · exact hpre.2 _ hl _ (hLS a (List.mem_cons_of_mem _ ha)) _ hr
              (List.rel_of_pairwise_cons hL ha) hab
        · exact (ihR hLS (fun x hx => hRS x (List.mem_cons_of_mem _ hx)) hL ha hb).cons r

/-! ## Merge -/

/-- The copy loops of `Merge`: a fresh vector of `n` cells receives `vec[off..off+n)`. -/
theorem copySlice_spec {α : Type} (vec : List (Ptr α)) (off n : Int) (h0 : 0 ≤ n) :
    (forRange 0 n (fun i L => wr L i (rd vec (off + i))) (List.replicate n.toNat none)).length
        = n.toNat ∧
    ∀ q : Int, 0 ≤ q → q < n →
      rd (forRange 0 n (fun i L => wr L i (rd vec (off + i))) (List.replicate n.toNat none)) q
        = rd vec (off + q) := by
  have key := forRange_inv
    (fun (j : Int) (dst : List (Ptr α)) => dst.length = n.toNat ∧
      ∀ q : Int, 0 ≤ q → q < j → rd dst q = rd vec (off + q))
    0 n (fun i L => wr L i (rd vec (off + i))) (List.replicate n.toNat none) h0
    ⟨by simp, by intro q h1 h2; omega⟩
    (by
      intro k t h1 h2 ⟨hl, hr⟩
      refine ⟨by rw [length_wr]; exact hl, ?_⟩
      intro q hq1 hq2
      rw [rd_wr _ _ _ _ h1 (by omega)]
      by_cases e : q = k
      · simp [e]
      · simp only [e, if_false]; exact hr q hq1 (by omega))
  exact key

theorem copySlice_eq {α : Type} (pre A post : List (Ptr α)) (off n : Int)
    (hoff : off = pre.length) (hn : n = A.length) :
    forRange 0 n (fun i L => wr L i (rd (pre ++ (A ++ post)) (off + i)))
      (List.replicate n.toNat none) = A := by
  obtain ⟨hl, hr⟩ := copySlice_spec (pre ++ (A ++ post)) off n (by omega)
  apply ext_rd _ _ (by rw [hl]; omega)
  intro k h1 h2
  rw [hr k h1 (by omega), rd_append_right _ _ _ (by omega),
    rd_append_left _ _ _ (by omega) (by omega)]
  congr 1
  omega

theorem mergeInv_weaken {α : Type} {cmp : FCompareAccounts α} {pre A B post : List (Ptr α)}
    {s0 : OperationSummary} {C D : List (Ptr α) → List (Ptr α) → Prop} {st : MergeState α}
    (h : MergeInv cmp pre A B post s0 C st)
    (hCD : ∀ Au Ad Bu Bd : List (Ptr α), A = Au ++ Ad → B = Bu ++ Bd →
      st.i = Au.length → st.j = Bu.length → C Ad Bd → D Ad Bd) :
    MergeInv cmp pre A B post s0 D st := by
  obtain ⟨Au, Ad, Bu, Bd, acc, rest, h1, h2, h3, h4, h5, h6, h7, h8, h9, h10, h11⟩ := h
  exact ⟨Au, Ad, Bu, Bd, acc, rest, h1, h2, h3, h4, h5, h6, h7, h8, h9, h10,
    hCD Au Ad Bu Bd h1 h2 h3 h4 h11⟩

/-- Step of `while (i < n1 && j < n2)`. -/
theorem mergeBody_inv {α : Type} (cmp : FCompareAccounts α) (pre A B post : List (Ptr α))
    (s0 : OperationSummary) (st : MergeState α)
    (h : MergeInv cmp pre A B post s0 (fun _ _ => True) st)
    (hi : st.i < A.length) (hj : st.j < B.length) :
    MergeInv cmp pre A B post s0 (fun _ _ => True) (mergeBody cmp A B st) ∧
    ((A.length : Int) - (mergeBody cmp A B st).i).toNat +
        ((B.length : Int) - (mergeBody cmp A B st).j).toNat
      < ((A.length : Int) - st.i).toNat + ((B.length : Int) - st.j).toNat := by
  obtain ⟨Au, Ad, Bu, Bd, acc, rest, h1, h2, h3, h4, h5, h6, h7, h8, h9, h10, _⟩ := h
  have hAl : A.length = Au.length + Ad.length := by rw [h1]; simp
  have hBl : B.length = Bu.length + Bd.length := by rw [h2]; simp
  cases Ad with
  | nil => simp at hAl; omega
  | cons a Ad =>
  cases Bd with
  | nil => simp at hBl; omega
  | cons b Bd =>
  cases rest with
  | nil => simp only [List.length_nil, List.length_cons] at h7; omega
  | cons x rest =>
  have hL : rd A st.i = a := by
    rw [h1, rd_append_right _ _ _ (by omega), h3]; simp [rd_cons_zero]
  have hR : rd B st.j = b := by
    rw [h2, rd_append_right _ _ _ (by omega), h4]; simp [rd_cons_zero]
  have hw : ∀ v : Ptr α, wr st.vec st.k v = pre ++ ((acc ++ [v]) ++ (rest ++ post)) := by
    intro v
    rw [h6]
    have e : pre ++ (acc ++ (x :: rest ++ post)) = (pre ++ acc) ++ x :: (rest ++ post) := by
      simp
    rw [e, wr_append_cons _ _ _ _ _ (by rw [h5]; simp)]
    simp
  simp only [List.length_cons] at h7 hAl hBl
  unfold mergeBody
  dsimp only
  rw [hL, hR, hw, hw]
  split
  · rename_i hc
    dsimp only
    constructor
    · refine ⟨Au ++ [a], Ad, Bu, b :: Bd, acc ++ [a], rest, by simp [h1], h2, by simp [h3],
        h4, by simp [h5]; omega, rfl, by simp; omega, ?_, ?_, ?_, trivial⟩
      · rw [← h8, mergeLists, if_pos hc]; simp
      · simp [OperationSummary.incComparisons, h9]
      · simp [OperationSummary.incComparisons]; omega
    · omega
  · rename_i hc
    dsimp only
    constructor
    · refine ⟨Au, a :: Ad, Bu ++ [b], Bd, acc ++ [b], rest, h1, by simp [h2], h3,
        by simp [h4], by simp [h5]; omega, rfl, by simp; omega, ?_, ?_, ?_, trivial⟩
      · rw [← h8, mergeLists, if_neg hc]; simp
      · simp [OperationSummary.incComparisons, h9]
      · simp [OperationSummary.incComparisons]; omega
    · omega

/-- Step of `while (i < n1) vec[k++] = L[i++];`, entered with the right run used up. -/
theorem drainLeftBody_inv {α : Type} (cmp : FCompareAccounts α) (pre A B post : List (Ptr α))
    (s0 : OperationSummary) (st : MergeState α)
    (h : MergeInv cmp pre A B post s0 (fun Ad Bd => Ad = [] ∨ Bd = []) st)
    (hi : st.i < A.length) :
    MergeInv cmp pre A B post s0 (fun Ad Bd => Ad = [] ∨ Bd = []) (drainLeftBody A st) ∧
    ((A.length : Int) - (drainLeftBody A st).i).toNat
      < ((A.length : Int) - st.i).toNat := by
  obtain ⟨Au, Ad, Bu, Bd, acc, rest, h1, h2, h3, h4, h5, h6, h7, h8, h9, h10, h11⟩ := h
  have hAl : A.length = Au.length + Ad.length := by rw [h1]; simp
  cases Ad with
  | nil => simp at hAl; omega
  | cons a Ad =>
  have hBd : Bd = [] := by
    rcases h11 with h | h
    · cases h
    · exact h
  subst hBd
  cases rest with
  | nil => simp only [List.length_nil, List.length_cons] at h7; omega
  | cons x rest =>
  have hL : rd A st.i = a := by
    rw [h1, rd_append_right _ _ _ (by omega), h3]; simp [rd_cons_zero]
  have hw : ∀ v : Ptr α, wr st.vec st.k v = pre ++ ((acc ++ [v]) ++ (rest ++ post)) := by
    intro v
    rw [h6]
    have e : pre ++ (acc ++ (x :: rest ++ post)) = (pre ++ acc) ++ x :: (rest ++ post) := by
      simp
    rw [e, wr_append_cons _ _ _ _ _ (by rw [h5]; simp)]
    simp
  simp only [List.length_cons, List.length_nil] at h7 hAl
  unfold drainLeftBody
  dsimp only
  rw [hL, hw]
  constructor
  · refine ⟨Au ++ [a], Ad, Bu, [], acc ++ [a], rest, by simp [h1], h2, by simp [h3],
      h4, by simp [h5]; omega, rfl, by simp; omega, ?_, h9, ?_, Or.inr rfl⟩
    · rw [← h8, mergeLists_nil_right, mergeLists_nil_right]; simp
    · simp; omega
  · omega

/-- Step of `while (j < n2) vec[k++] = R[j++];`, entered with the left run used up. -/
theorem drainRightBody_inv {α : Type} (cmp : FCompareAccounts α) (pre A B post : List (Ptr α))
    (s0 : OperationSummary) (st : MergeState α)
    (h : MergeInv cmp pre A B post s0 (fun Ad _ => Ad = []) st)
    (hj : st.j < B.length) :
    MergeInv cmp pre A B post s0 (fun Ad _ => Ad = []) (drainRightBody B st) ∧
    ((B.length : Int) - (drainRightBody B st).j).toNat
      < ((B.length : Int) - st.j).toNat := by
  obtain ⟨Au, Ad, Bu, Bd, acc, rest, h1, h2, h3, h4, h5, h6, h7, h8, h9, h10, h11⟩ := h
  have hBl : B.length = Bu.length + Bd.length := by rw [h2]; simp
  subst h11
  cases Bd with
  | nil => simp at hBl; omega
  | cons b Bd =>
  cases rest with
  | nil => simp only [List.length_nil, List.length_cons] at h7; omega
  | cons x rest =>
  have hR : rd B st.j = b := by
    rw [h2, rd_append_right _ _ _ (by omega), h4]; simp [rd_cons_zero]
  have hw : ∀ v : Ptr α, wr st.vec st.k v = pre ++ ((acc ++ [v]) ++ (rest ++ post)) := by
    intro v
    rw [h6]
    have e : pre ++ (acc ++ (x :: rest ++ post)) = (pre ++ acc) ++ x :: (rest ++ post) := by
      simp
    rw [e, wr_append_cons _ _ _ _ _ (by rw [h5]; simp)]
    simp
  simp only [List.length_cons, List.length_nil] at h7 hBl
  unfold drainRightBody
  dsimp only
  rw [hR, hw]
  constructor
  · refine ⟨Au, [], Bu ++ [b], Bd, acc ++ [b], rest, h1, by simp [h2], h3,
      by simp [h4], by simp [h5]; omega, rfl, by simp; omega, ?_, h9, ?_, rfl⟩
    · rw [← h8]; simp [mergeLists]
    · simp; omega
  · omega

/-- Total correctness of `Merge` for any comparator: on `vec = pre ++ A ++ B ++ post`
with `left`, `mid`, `right` delimiting the runs `A` and `B`, it returns and leaves
`pre ++ mergeLists cmp A B ++ post`; it counts no swap and at most one comparison
per cell of the range. -/
theorem merge_spec {α : Type} (cmp : FCompareAccounts α) (pre A B post : List (Ptr α))
    (s : OperationSummary) (left mid right : Int)
    (hl : left = pre.length) (hm : mid = left + A.length - 1) (hr : right = mid + B.length) :
    ∃ s' : OperationSummary,
      Merge cmp ⟨pre ++ (A ++ (B ++ post)), s⟩ left mid right
        = some ⟨pre ++ (mergeLists cmp A B ++ post), s'⟩ ∧
      s'.swaps = s.swaps ∧ s'.comparisons ≤ s.comparisons + A.length + B.length := by
  have hn1 : mid - left + 1 = (A.length : Int) := by omega
  have hn2 : right - mid = (B.length : Int) := by omega
  have eL := copySlice_eq pre A (B ++ post) left A.length hl rfl
  have eR := copySlice_eq (pre ++ A) B post (mid + 1) B.length (by simp; omega) rfl
  rw [List.append_assoc] at eR
  unfold Merge
  dsimp only
  rw [hn1, hn2, eL, eR]
  -- first loop
  obtain ⟨s1, e1, hI1, hc1⟩ := whileLoop_spec
    (fun st : MergeState α => decide (st.i < (A.length : Int)) && decide (st.j < (B.length : Int)))
    (mergeBody cmp A B) (MergeInv cmp pre A B post s (fun _ _ => True))
    (fun st => ((A.length : Int) - st.i).toNat + ((B.length : Int) - st.j).toNat)
    (by
      intro st hI hc
      simp only [Bool.and_eq_true, decide_eq_true_eq] at hc
      exact mergeBody_inv cmp pre A B post s st hI hc.1 hc.2)
    ((A.length : Int) + B.length).toNat ⟨0, 0, left, pre ++ (A ++ (B ++ post)), s⟩
    ⟨[], A, [], B, [], A ++ B, by simp, by simp, by simp, by simp, by simp [hl], by simp,
      by simp, by simp, rfl, by simp, trivial⟩
    (by dsimp only; omega)
  rw [e1]
  dsimp only
  have hI1' : MergeInv cmp pre A B post s (fun Ad Bd => Ad = [] ∨ Bd = []) s1 := by
    apply mergeInv_weaken hI1
    intro Au Ad Bu Bd h1 h2 h3 h4 _
    simp only [Bool.and_eq_false_imp, decide_eq_true_eq, decide_eq_false_iff_not] at hc1
    have hAl : A.length = Au.length + Ad.length := by rw [h1]; simp
    have hBl : B.length = Bu.length + Bd.length := by rw [h2]; simp
    by_cases hA : Ad.length = 0
    · exact Or.inl (List.length_eq_zero.1 hA)
    · have := hc1 (by omega)
      exact Or.inr (List.length_eq_zero.1 (by omega))
  have hi1 : 0 ≤ s1.i := by
    obtain ⟨Au, _, _, _, _, _, _, _, h3, _⟩ := hI1
    omega
  -- second loop
  obtain ⟨s2, e2, hI2, hc2⟩ := whileLoop_spec
    (fun st : MergeState α => decide (st.i < (A.length : Int)))
    (drainLeftBody A) (MergeInv cmp pre A B post s (fun Ad Bd => Ad = [] ∨ Bd = []))
    (fun st => ((A.length : Int) - st.i).toNat)
    (by
      intro st hI hc
      simp only [decide_eq_true_eq] at hc
      exact drainLeftBody_inv cmp pre A B post s st hI hc)
    ((A.length : Int) + B.length).toNat s1 hI1' (by dsimp only; omega)
  rw [e2]
  dsimp only
  have hI2' : MergeInv cmp pre A B post s (fun Ad _ => Ad = []) s2 := by
    apply mergeInv_weaken hI2
    intro Au Ad Bu Bd h1 h2 h3 h4 _
    simp only [decide_eq_false_iff_not] at hc2
    have hAl : A.length = Au.length + Ad.length := by rw [h1]; simp
    exact List.length_eq_zero.1 (by omega)
  have hj2 : 0 ≤ s2.j := by
    obtain ⟨_, _, Bu, _, _, _, _, _, _, h4, _⟩ := hI2
    omega
  -- third loop
  obtain ⟨s3, e3, hI3, hc3⟩ := whileLoop_spec
    (fun st : MergeState α => decide (st.j < (B.length : Int)))
    (drainRightBody B) (MergeInv cmp pre A B post s (fun Ad _ => Ad = []))
    (fun st => ((B.length : Int) - st.j).toNat)
    (by
      intro st hI hc
      simp only [decide_eq_true_eq] at hc
      exact drainRightBody_inv cmp pre A B post s st hI hc)
    ((A.length : Int) + B.length).toNat s2 hI2' (by dsimp only; omega)
  rw [e3]
  dsimp only
  obtain ⟨Au, Ad, Bu, Bd, acc, rest, h1, h2, h3, h4, h5, h6, h7, h8, h9, h10, h11⟩ := hI3
  simp only [decide_eq_false_iff_not] at hc3
  have hBl : B.length = Bu.length + Bd.length := by rw [h2]; simp
  have hAl : A.length = Au.length + Ad.length := by rw [h1]; simp
  subst h11
  have hBd : Bd = [] := List.length_eq_zero.1 (by omega)
  subst hBd
  have hrest : rest = [] := List.length_eq_zero.1 (by simpa using h7)
  subst hrest
  have hacc : acc = mergeLists cmp A B := by simpa [mergeLists] using h8
  have hlen : acc.length = A.length + B.length := by
    rw [hacc, (mergeLists_perm cmp A B).length_eq]; simp
  refine ⟨s3.summary, ?_, h9, by omega⟩
  rw [h6, hacc]
  simp

/-! ## Merge sort -/

theorem cdiv_two {a : Int} (h : 0 ≤ a) : cdiv a 2 = a / 2 := by
  unfold cdiv
  exact Int.tdiv_eq_ediv h (by decide)

theorem pairwise_of_length_le_one {α : Type} (R : α → α → Prop) (l : List α)
    (h : l.length ≤ 1) : l.Pairwise R := by
  cases l with
  | nil => exact List.Pairwise.nil
  | cons x t =>
    cases t with
    | nil => simp
    | cons y t => simp at h

/-- Stability of one merge step: a pair in source order with `cmp a b = 0` stays in
that order when the two halves have been sorted stably and are merged. -/
theorem merge_stable_step {α : Type} (cmp : FCompareAccounts α) (S : List (Ptr α))
    (hpre : TotalPreorderOn cmp S) (A B A' B' : List (Ptr α))
    (hA : A'.Perm A) (hB : B'.Perm B) (hAS : ∀ x ∈ A, x ∈ S) (hBS : ∀ x ∈ B, x ∈ S)
    (hsA : A'.Pairwise (fun x y => cmp x y ≤ 0))
    (hstA : ∀ a b : Ptr α, cmp a b = 0 → [a, b].Sublist A → [a, b].Sublist A')
    (hstB : ∀ a b : Ptr α, cmp a b = 0 → [a, b].Sublist B → [a, b].Sublist B')
    (a b : Ptr α) (hab : cmp a b = 0) (hsub : [a, b].Sublist (A ++ B)) :
    [a, b].Sublist (mergeLists cmp A' B') := by
  obtain ⟨l1, l2, e, h1, h2⟩ := List.sublist_append_iff.1 hsub
  cases l1 with
  | nil =>
    simp only [List.nil_append] at e
    subst e
    exact (hstB a b hab h2).trans (mergeLists_sublist_right cmp A' B')
  | cons x l1 =>
    cases l1 with
    | nil =>
      simp only [List.cons_append, List.nil_append, List.cons.injEq] at e
      obtain ⟨rfl, rfl⟩ := e
      have ha : a ∈ A' := hA.mem_iff.2 (List.singleton_sublist.1 h1)
      have hb : b ∈ B' := hB.mem_iff.2 (List.singleton_sublist.1 h2)
      exact mergeLists_cross cmp S hpre a b (le_of_eq hab) A' B'
        (fun x hx => hAS x (hA.mem_iff.1 hx)) (fun x hx => hBS x (hB.mem_iff.1 hx)) hsA ha hb
    | cons y l1 =>
      simp only [List.cons_append, List.cons.injEq] at e
      obtain ⟨rfl, rfl, e⟩ := e
      have : l1 = [] ∧ l2 = [] := by
        cases l1 with
        | nil => exact ⟨rfl, by simpa using e.symm⟩
        | cons z l1 => simp at e
      obtain ⟨rfl, rfl⟩ := this
      exact (hstA a b hab h1).trans (mergeLists_sublist_left cmp A' B')

/-- Total correctness of `MergeSortRecursive` on the range holding `X` inside
`vec = pre ++ X ++ post`: with fuel at least `|X| - 1` the recursion returns, for
any comparator, `pre ++ X' ++ post` with `X'` a permutation of `X`, and counts no
swap; under a total preorder `X'` is ordered and equal references keep their
source order. -/
theorem mergeSortRecursive_spec {α : Type} (cmp : FCompareAccounts α) :
    ∀ (fuel : Nat) (pre X post : List (Ptr α)) (s : OperationSummary) (left right : Int),
      left = pre.length → right = left + X.length - 1 → X.length ≤ fuel + 1 →
      ∃ (X' : List (Ptr α)) (s' : OperationSummary),
        MergeSortRecursive cmp fuel ⟨pre ++ (X ++ post), s⟩ left right
          = some ⟨pre ++ (X' ++ post), s'⟩ ∧
        X'.Perm X ∧ s'.swaps = s.swaps ∧
        ∀ S : List (Ptr α), TotalPreorderOn cmp S → (∀ x ∈ X, x ∈ S) →
          X'.Pairwise (fun x y => cmp x y ≤ 0) ∧
          ∀ a b : Ptr α, cmp a b = 0 → [a, b].Sublist X → [a, b].Sublist X'
  | 0, pre, X, post, s, left, right, hl, hr, hf => by
    have hge : left ≥ right := by omega
    exact ⟨X, s, by simp [MergeSortRecursive, hge], List.Perm.refl _, rfl,
      fun S _ _ => ⟨pairwise_of_length_le_one _ _ (by omega), fun _ _ _ h => h⟩⟩
  | fuel + 1, pre, X, post, s, left, right, hl, hr, hf => by
    by_cases hge : left ≥ right
    · exact ⟨X, s, by simp [MergeSortRecursive, hge], List.Perm.refl _, rfl,
        fun S _ _ => ⟨pairwise_of_length_le_one _ _ (by omega), fun _ _ _ h => h⟩⟩
    · have hX : 2 ≤ X.length := by omega
      simp only [MergeSortRecursive, hge, if_false]
      rw [cdiv_two (by omega)]
      generalize hmid : left + (right - left) / 2 = mid
      have hA : ((X.take (mid - left + 1).toNat).length : Int) = mid - left + 1 := by
        rw [List.length_take]; omega
      have hB : ((X.drop (mid - left + 1).toNat).length : Int) = right - mid := by
        rw [List.length_drop]; omega
      have hXe : X = X.take (mid - left + 1).toNat ++ X.drop (mid - left + 1).toNat :=
        (List.take_append_drop _ _).symm
      generalize X.take (mid - left + 1).toNat = A at hA hXe
      generalize X.drop (mid - left + 1).toNat = B at hB hXe
      subst hXe
      rw [List.append_assoc]
      obtain ⟨A', s1, e1, hP1, hs1, hO1⟩ := mergeSortRecursive_spec cmp fuel pre A (B ++ post) s
        left mid hl (by omega) (by simp at hf; omega)
      have hlA : A'.length = A.length := hP1.length_eq
      rw [e1]
      dsimp only
      rw [← List.append_assoc pre A' (B ++ post)]
      obtain ⟨B', s2, e2, hP2, hs2, hO2⟩ := mergeSortRecursive_spec cmp fuel (pre ++ A') B post s1
        (mid + 1) right (by simp; omega) (by omega) (by simp at hf; omega)
      have hlB : B'.length = B.length := hP2.length_eq
      rw [e2]
      dsimp only
      rw [List.append_assoc pre A' (B' ++ post)]
      obtain ⟨s3, e3, hs3, _⟩ := merge_spec cmp pre A' B' post s2 left mid right hl
        (by omega) (by omega)
      refine ⟨mergeLists cmp A' B', s3, e3,
        (mergeLists_perm cmp A' B').trans (hP1.append hP2), by rw [hs3, hs2, hs1], ?_⟩
      intro S hpre hXS
      have hAS : ∀ x ∈ A, x ∈ S := fun x hx => hXS x (List.mem_append_left _ hx)
      have hBS : ∀ x ∈ B, x ∈ S := fun x hx => hXS x (List.mem_append_right _ hx)
      obtain ⟨hsA, hstA⟩ := hO1 S hpre hAS
      obtain ⟨hsB, hstB⟩ := hO2 S hpre hBS
      refine ⟨mergeLists_pairwise cmp S hpre A' B' (fun x hx => hAS x (hP1.mem_iff.1 hx))
        (fun x hx => hBS x (hP2.mem_iff.1 hx)) hsA hsB, ?_⟩
      intro a b hab hsub
      exact merge_stable_step cmp S hpre A B A' B' hP1 hP2 hAS hBS hsA hstA hstB a b hab hsub

/-! ## Binary search -/

theorem rd_mem_of_ne_none {α : Type} (arr : List (Ptr α)) (k : Int) (h : rd arr k ≠ none) :
    0 ≤ k ∧ k < arr.length := by
  unfold rd at h
  by_cases h0 : 0 ≤ k
  · simp only [h0, if_true] at h
    refine ⟨h0, ?_⟩
    by_contra hc
    apply h
    rw [List.getD_eq_getElem?_getD, List.getElem?_eq_none (by omega)]
    rfl
  · simp [h0] at h

/-- Adjacent order and transitivity give the order of every pair of cells. -/
theorem ordered_of_nonDecreasing {α : Type} (cmp : FCompareAccounts α) (A S : List (Ptr α))
    (htr : TransOn cmp S) (hmem : ∀ x ∈ A, x ∈ S) (h : NonDecreasing cmp A) :
    ∀ (d : Nat) (a : Int), 0 ≤ a → a + 1 + d < A.length →
      cmp (rd A a) (rd A (a + 1 + d)) ≤ 0
  | 0, a, h0, h1 => by simpa using h a h0 (by omega)
  | d + 1, a, h0, h1 => by
    have ih := ordered_of_nonDecreasing cmp A S htr hmem h d a h0 (by push_cast at h1; omega)
    have hs := h (a + 1 + d) (by omega) (by push_cast at h1; omega)
    have e : a + 1 + ((d + 1 : Nat) : Int) = a + 1 + d + 1 := by push_cast; omega
    rw [e]
    exact htr _ (hmem _ (rd_mem _ _ h0 (by omega)))
      _ (hmem _ (rd_mem _ _ (by omega) (by push_cast at h1; omega)))
      _ (hmem _ (rd_mem _ _ (by omega) (by push_cast at h1; omega))) ih hs

/-- Total correctness of `BinarySearchRecursive` for any comparator: with fuel at
least the size of the range the recursion returns; the result is either `nullptr`
or a cell of the range that compares equal to the key; the summary grows by at
most `ceil(log2(size + 1))` comparisons and by no swap. -/
theorem binarySearchRecursive_spec {α : Type} (A : List (Ptr α)) (key : Ptr α)
    (cmp : FCompareAccounts α) :
    ∀ (fuel : Nat) (left right : Int) (s : OperationSummary),
      right - left + 1 ≤ fuel →
      ∃ (r : Ptr α) (s' : OperationSummary),
        BinarySearchRecursive A key cmp fuel left right s = some (r, s') ∧
        (r = none ∨ ∃ mid : Int, left ≤ mid ∧ mid ≤ right ∧ r = rd A mid ∧ cmp r key = 0) ∧
        s'.swaps = s.swaps ∧
        s'.comparisons ≤ s.comparisons + Nat.clog 2 ((right - left + 1).toNat + 1)
  | 0, left, right, s, hf => by
    have hgt : left > right := by
      have : right - left + 1 ≤ 0 := by exact_mod_cast hf
      omega
    exact ⟨none, s, by simp [BinarySearchRecursive, hgt], Or.inl rfl, rfl, by omega⟩
  | fuel + 1, left, right, s, hf => by
    by_cases hgt : left > right
    · exact ⟨none, s, by simp [BinarySearchRecursive, hgt], Or.inl rfl, rfl, by omega⟩
    · simp only [BinarySearchRecursive, hgt, if_false]
      rw [cdiv_two (by omega)]
      generalize hmid : left + (right - left) / 2 = mid
      have hclog : Nat.clog 2 ((right - left + 1).toNat + 1)
          = Nat.clog 2 ((right - left + 1).toNat / 2 + 1) + 1 := by
        rw [Nat.clog_of_two_le (by decide) (by omega)]
        congr 2
        omega
      by_cases hc0 : cmp (rd A mid) key = 0
      · simp only [hc0, if_true]
        exact ⟨rd A mid, s.incComparisons, rfl,
          Or.inr ⟨mid, by omega, by omega, rfl, hc0⟩, rfl,
          by simp only [OperationSummary.incComparisons]; omega⟩
      · simp only [hc0, if_false]
        by_cases hlt : cmp (rd A mid) key < 0
        · simp only [hlt, if_true]
          obtain ⟨r, s', e, hr, hsw, hcnt⟩ := binarySearchRecursive_spec A key cmp fuel
            (mid + 1) right s.incComparisons (by push_cast at hf; omega)
          refine ⟨r, s', e, ?_, by rw [hsw]; rfl, ?_⟩
          · rcases hr with hr | ⟨m, h1, h2, h3, h4⟩
            · exact Or.inl hr
            · exact Or.inr ⟨m, by omega, h2, h3, h4⟩
          · have hmono : Nat.clog 2 ((right - (mid + 1) + 1).toNat + 1)
                ≤ Nat.clog 2 ((right - left + 1).toNat / 2 + 1) :=
              Nat.clog_mono_right 2 (by omega)
            simp only [OperationSummary.incComparisons] at hcnt
            omega
        · simp only [hlt, if_false]
          obtain ⟨r, s', e, hr, hsw, hcnt⟩ := binarySearchRecursive_spec A key cmp fuel
            left (mid - 1) s.incComparisons (by push_cast at hf; omega)
          refine ⟨r, s', e, ?_, by rw [hsw]; rfl, ?_⟩
          · rcases hr with hr | ⟨m, h1, h2, h3, h4⟩
            · exact Or.inl hr
            · exact Or.inr ⟨m, h1, by omega, h3, h4⟩
          · have hmono : Nat.clog 2 ((mid - 1 - left + 1).toNat + 1)
                ≤ Nat.clog 2 ((right - left + 1).toNat / 2 + 1) :=
              Nat.clog_mono_right 2 (by omega)
            simp only [OperationSummary.incComparisons] at hcnt
            omega

/-- Completeness of `BinarySearchRecursive` on an ordered buffer under a total
preorder: when some cell of the range compares equal to the key, the search
returns a cell of the range that compares equal to the key. -/
theorem binarySearchRecursive_finds {α : Type} (A S : List (Ptr α)) (key : Ptr α)
    (cmp : FCompareAccounts α) (hpre : TotalPreorderOn cmp S)
    (hmem : ∀ x ∈ A, x ∈ S) (hkey : key ∈ S) (hsorted : NonDecreasing cmp A) :
    ∀ (fuel : Nat) (left right : Int) (s : OperationSummary),
      0 ≤ left → right < A.length → right - left + 1 ≤ fuel →
      (∃ idx : Int, left ≤ idx ∧ idx ≤ right ∧ cmp (rd A idx) key = 0) →
      ∃ (mid : Int) (s' : OperationSummary),
        BinarySearchRecursive A key cmp fuel left right s = some (rd A mid, s') ∧
        left ≤ mid ∧ mid ≤ right ∧ cmp (rd A mid) key = 0
  | 0, left, right, s, _, _, hf, ⟨idx, h1, h2, _⟩ => by
    have : right - left + 1 ≤ 0 := by exact_mod_cast hf
    omega
  | fuel + 1, left, right, s, hl, hr, hf, ⟨idx, h1, h2, h3⟩ => by
    have hgt : ¬ left > right := by omega
    simp only [BinarySearchRecursive, hgt, if_false]
    rw [cdiv_two (by omega)]
    generalize hmid : left + (right - left) / 2 = mid
    have hS : ∀ k : Int, 0 ≤ k → k < A.length → rd A k ∈ S :=
      fun k hk1 hk2 => hmem _ (rd_mem _ _ hk1 hk2)
    have hord : ∀ a b : Int, 0 ≤ a → a < b → b < A.length → cmp (rd A a) (rd A b) ≤ 0 := by
      intro a b ha hab hb
      have := ordered_of_nonDecreasing cmp A S hpre.2 hmem hsorted (b - a - 1).toNat a ha
        (by omega)
      have e : a + 1 + ((b - a - 1).toNat : Int) = b := by omega
      rwa [e] at this
    have hm : rd A mid ∈ S := hS mid (by omega) (by omega)
    have hi : rd A idx ∈ S := hS idx (by omega) (by omega)
    by_cases hc0 : cmp (rd A mid) key = 0
    · simp only [hc0, if_true]
      exact ⟨mid, s.incComparisons, rfl, by omega, by omega, hc0⟩
    · simp only [hc0, if_false]
      by_cases hlt : cmp (rd A mid) key < 0
      · simp only [hlt, if_true]
        have hidx : mid < idx := by
          by_contra hcon
          have hne : idx ≠ mid := fun e => hc0 (e ▸ h3)
          have h4 : cmp (rd A idx) (rd A mid) ≤ 0 := hord idx mid (by omega) (by omega) (by omega)
          have h5 : cmp key (rd A idx) ≤ 0 := le_of_eq (hpre.1.eq_zero_symm hi hkey h3)
          have h6 : cmp key (rd A mid) ≤ 0 := hpre.2 _ hkey _ hi _ hm h5 h4
          have h7 := (hpre.1.neg_iff hm hkey).1 hlt
          omega
        obtain ⟨m, s', e, g1, g2, g3⟩ := binarySearchRecursive_finds A S key cmp hpre hmem hkey
          hsorted fuel (mid + 1) right s.incComparisons (by omega) hr
          (by push_cast at hf; omega) ⟨idx, by omega, h2, h3⟩
        exact ⟨m, s', e, by omega, g2, g3⟩
      · simp only [hlt, if_false]
        have hidx : idx < mid := by
          by_contra hcon
          have hne : idx ≠ mid := fun e => hc0 (e ▸ h3)
          have h4 : cmp (rd A mid) (rd A idx) ≤ 0 := hord mid idx (by omega) (by omega) (by omega)
          have h6 : cmp (rd A mid) key ≤ 0 := hpre.2 _ hm _ hi _ hkey h4 (le_of_eq h3)
          omega
        obtain ⟨m, s', e, g1, g2, g3⟩ := binarySearchRecursive_finds A S key cmp hpre hmem hkey
          hsorted fuel left (mid - 1) s.incComparisons hl (by omega)
          (by push_cast at hf; omega) ⟨idx, h1, by omega, h3⟩
        exact ⟨m, s', e, g1, by omega, g3⟩

/-! ## The engine: results of the sort methods -/

theorem selectionSortArray_spec {α : Type} (self : TSort α) (cmp : FCompareAccounts α)
    (summary : OperationSummary) :
    (self.SelectionSortArray cmp summary).self
        = self.refreshCache (self.SelectionSortArray cmp summary).arr ∧
    (self.SelectionSortArray cmp summary).arr.Perm self.originalArray ∧
    (TotalPreorderOn cmp self.originalArray →
      NonDecreasing cmp (self.SelectionSortArray cmp summary).arr) := by
  simp only [TSort.SelectionSortArray, TSort.originalArraySize, copyArray_eq]
  have hP := selectionLoops_perm cmp ⟨self.originalArray, OperationSummary.new⟩
  refine ⟨trivial, hP, fun hpre => ?_⟩
  exact nonDecreasing_of_pairwise cmp _ (pairwise_of_rd cmp _ (by
    rw [hP.length_eq]
    exact selectionLoops_ordered cmp ⟨self.originalArray, OperationSummary.new⟩ hpre))

theorem bubbleSortArray_spec {α : Type} (self : TSort α) (cmp : FCompareAccounts α)
    (summary : OperationSummary) :
    (self.BubbleSortArray cmp summary).self
        = self.refreshCache (self.BubbleSortArray cmp summary).arr ∧
    (self.BubbleSortArray cmp summary).arr.Perm self.originalArray ∧
    (TotalPreorderOn cmp self.originalArray →
      NonDecreasing cmp (self.BubbleSortArray cmp summary).arr) := by
  simp only [TSort.BubbleSortArray, TSort.originalArraySize, copyArray_eq]
  exact ⟨trivial, bubbleLoops_perm cmp ⟨self.originalArray, OperationSummary.new⟩,
    fun hpre => bubbleLoops_sorted cmp ⟨self.originalArray, OperationSummary.new⟩ hpre⟩

theorem quickSortArray_spec {α : Type} (self : TSort α) (cmp : FCompareAccounts α)
    (summary : OperationSummary) :
    ∃ st : SortState α,
      self.QuickSortArray cmp summary = some ⟨st.arr, st.summary, self.refreshCache st.arr⟩ ∧
      st.arr.Perm self.originalArray ∧
      (SignAntisymmOn cmp self.originalArray → NonDecreasing cmp st.arr) := by
  obtain ⟨st, e, hP, _, hS⟩ := quickSortRecursive_spec cmp self.originalArray
    self.originalArray.length ⟨self.originalArray, OperationSummary.new⟩ 0
    ((self.originalArray.length : Int) - 1) (le_refl _) (by dsimp only; omega) (by omega)
  refine ⟨st, ?_, hP, ?_⟩
  · simp only [TSort.QuickSortArray, TSort.originalArraySize, copyArray_eq, Int.toNat_ofNat, e]
  · intro hanti i h0 h1
    rw [hP.length_eq] at h1
    dsimp only at h1
    exact hS hanti (fun _ h => h) i h0 (by omega)

theorem mergeSortList_spec {α : Type} (self : TSort α) (cmp : FCompareAccounts α)
    (summary : OperationSummary) :
    ∃ st : SortState α,
      self.MergeSortList cmp summary = some ⟨listOfVec st.arr, st.summary, self⟩ ∧
      st.arr.Perm self.originalList.toVec ∧ st.summary.swaps = 0 ∧
      (TotalPreorderOn cmp self.originalList.toVec →
        st.arr.Pairwise (fun x y => cmp x y ≤ 0) ∧
        ∀ a b : Ptr α, cmp a b = 0 → [a, b].Sublist self.originalList.toVec →
          [a, b].Sublist st.arr) := by
  have h := mergeSortRecursive_spec cmp self.originalList.toVec.length []
    self.originalList.toVec [] OperationSummary.new 0
    ((self.originalList.toVec.length : Int) - 1) rfl (by simp) (by omega)
  simp only [List.nil_append, List.append_nil] at h
  obtain ⟨X', s', e, hP, hsw, hO⟩ := h
  refine ⟨⟨X', s'⟩, ?_, hP, hsw, fun hpre => hO _ hpre (fun _ hx => hx)⟩
  simp only [TSort.MergeSortList, e]

theorem listOfVec_reachable {α : Type} (vec : List (Ptr α)) : (listOfVec vec).Reachable := by
  have key : ∀ (v : List (Ptr α)) (l : TLinkedList α), l.Reachable →
      (v.foldl TLinkedList.add l).Reachable := by
    intro v
    induction v with
    | nil => intro l h; exact h
    | cons p v ih => intro l h; exact ih _ (TLinkedList.Reachable.add p h)
  exact key vec _ (TLinkedList.Reachable.new false)

/-- The sequence built from a rearrangement `out` of the references a source
sequence yields: it yields the non-null references of the source, rearranged; for
a source a program can have built it has the size of the source and yields a
rearrangement of all its references. -/
theorem listOfVec_of_perm {α : Type} (src : TLinkedList α) (out : List (Ptr α))
    (hP : out.Perm src.toVec) :
    (listOfVec out).toVec.Perm (src.toVec.filter (fun p => p.isSome)) ∧
    (src.Reachable → (listOfVec out).getSize = src.getSize ∧
      (listOfVec out).toVec.Perm src.toVec) := by
  refine ⟨?_, ?_⟩
  · rw [listOfVec_toVec]
    exact hP.filter _
  · intro hsrc
    obtain ⟨⟨hsize, _⟩, hnn⟩ := hsrc.inv
    have hnn1 : ∀ p ∈ src.toVec, p ≠ none := by
      rw [TLinkedList.toVec_eq]; exact hnn
    have hlen : src.getSize = src.toVec.length := by
      rw [TLinkedList.toVec_eq]; exact hsize
    have hf : out.filter (fun p => p.isSome) = out :=
      filter_isSome_of_noNull out (fun p hp => hnn1 p (hP.mem_iff.1 hp))
    rw [listOfVec_size, listOfVec_toVec, hf, hlen]
    exact ⟨hP.length_eq, hP⟩

theorem cmpTens_totalPreorder (S : List (Ptr Nat)) : TotalPreorderOn cmpTens S := by
  have h := cmpNat_totalPreorder (S.map (fun a => a.map (fun x => x / 10)))
  constructor
  · intro a ha b hb
    exact h.1 _ (List.mem_map_of_mem _ ha) _ (List.mem_map_of_mem _ hb)
  · intro a ha b hb c hc
    exact h.2 _ (List.mem_map_of_mem _ ha) _ (List.mem_map_of_mem _ hb)
      _ (List.mem_map_of_mem _ hc)

/-! ## C1 - C7 -/

/-- C1. For every source buffer and source sequence and every comparator that is a
total preorder on their references, the buffer returned by `SelectionSortArray`
(which has the length of the source buffer) and the sequence returned by
`SelectionSortList` are in non-decreasing order: `cmp(out[i], out[i+1]) <= 0` for
all adjacent positions.  The returned sequence yields the non-null references of
the source sequence, rearranged; for a source sequence a program can have built (a
new list, then `add` and `clear`) it has the size `n` of the source and yields a
rearrangement of its `n` references. -/
theorem selectionSort_nonDecreasing {α : Type} (self : TSort α) (cmp : FCompareAccounts α)
    (summary : OperationSummary)
    (hA : TotalPreorderOn cmp self.originalArray)
    (hL : TotalPreorderOn cmp self.originalList.toVec) :
    ((self.SelectionSortArray cmp summary).arr.length = self.originalArray.length ∧
      NonDecreasing cmp (self.SelectionSortArray cmp summary).arr) ∧
    NonDecreasing cmp (self.SelectionSortList cmp summary).list.toVec ∧
    (self.SelectionSortList cmp summary).list.toVec.Perm
      (self.originalList.toVec.filter (fun p => p.isSome)) ∧
    (self.originalList.Reachable →
      (self.SelectionSortList cmp summary).list.getSize = self.originalList.getSize ∧
      (self.SelectionSortList cmp summary).list.toVec.length
        = self.originalList.toVec.length ∧
      (self.SelectionSortList cmp summary).list.toVec.Perm self.originalList.toVec) := by
  have hP := selectionLoops_perm cmp ⟨self.originalList.toVec, OperationSummary.new⟩
  have hlist := listOfVec_of_perm self.originalList
    (selectionLoops cmp self.originalList.toVec.length
      ⟨self.originalList.toVec, OperationSummary.new⟩).arr hP
  refine ⟨⟨?_, ?_⟩, ?_, ?_, ?_⟩
  · simp only [TSort.SelectionSortArray, TSort.originalArraySize, copyArray_eq]
    exact (selectionLoops_perm cmp ⟨self.originalArray, OperationSummary.new⟩).length_eq
  · simp only [TSort.SelectionSortArray, TSort.originalArraySize, copyArray_eq]
    exact nonDecreasing_of_pairwise cmp _ (pairwise_of_rd cmp _ (by
      rw [(selectionLoops_perm cmp ⟨self.originalArray, OperationSummary.new⟩).length_eq]
      exact selectionLoops_ordered cmp ⟨self.originalArray, OperationSummary.new⟩ hA))
  · simp only [TSort.SelectionSortList, listOfVec_toVec]
    apply nonDecreasing_of_pairwise
    apply List.Pairwise.filter
    exact pairwise_of_rd cmp _ (by
      rw [(selectionLoops_perm cmp ⟨self.originalList.toVec, OperationSummary.new⟩).length_eq]
      exact selectionLoops_ordered cmp ⟨self.originalList.toVec, OperationSummary.new⟩ hL)
  · exact hlist.1
  · intro hsrc
    exact ⟨(hlist.2 hsrc).1, (hlist.2 hsrc).2.length_eq, (hlist.2 hsrc).2⟩

theorem selectionSort_nonDecreasing_witness :
    TotalPreorderOn cmpNat (exampleEngine [some 3, some 1, some 2]).originalArray ∧
    TotalPreorderOn cmpNat (exampleEngine [some 3, some 1, some 2]).originalList.toVec ∧
    (exampleEngine [some 3, some 1, some 2]).originalList.Reachable ∧
    ((((exampleEngine [some 3, some 1, some 2]).SelectionSortArray cmpNat ⟨0, 0⟩).arr.length
        = (exampleEngine [some 3, some 1, some 2]).originalArray.length ∧
      NonDecreasing cmpNat
        ((exampleEngine [some 3, some 1, some 2]).SelectionSortArray cmpNat ⟨0, 0⟩).arr) ∧
    NonDecreasing cmpNat
      ((exampleEngine [some 3, some 1, some 2]).SelectionSortList cmpNat ⟨0, 0⟩).list.toVec ∧
    ((exampleEngine [some 3, some 1, some 2]).SelectionSortList cmpNat ⟨0, 0⟩).list.getSize
      = (exampleEngine [some 3, some 1, some 2]).originalList.getSize ∧
    ((exampleEngine [some 3, some 1, some 2]).SelectionSortList cmpNat ⟨0, 0⟩).list.toVec.length
      = 3) :=
  have h := selectionSort_nonDecreasing (exampleEngine [some 3, some 1, some 2]) cmpNat
    ⟨0, 0⟩ (cmpNat_totalPreorder _) (cmpNat_totalPreorder _)
  ⟨cmpNat_totalPreorder _, cmpNat_totalPreorder _, listOfVec_reachable _, h.1, h.2.1,
    (h.2.2.2 (listOfVec_reachable _)).1, (h.2.2.2 (listOfVec_reachable _)).2.1⟩



/-- C2. For every source buffer and every comparator that is a total preorder on
its references, `QuickSortArray` returns a buffer (of the length of the source) in
non-decreasing order: `cmp(out[i], out[i+1]) <= 0` for every `0 <= i < n-1`. -/
theorem quickSort_nonDecreasing {α : Type} (self : TSort α) (cmp : FCompareAccounts α)
    (summary : OperationSummary) (hpre : TotalPreorderOn cmp self.originalArray) :
    ∃ res : ArrayResult α, self.QuickSortArray cmp summary = some res ∧
      res.arr.length = self.originalArray.length ∧ NonDecreasing cmp res.arr := by
  obtain ⟨st, e, hP, hS⟩ := quickSortArray_spec self cmp summary
  exact ⟨_, e, hP.length_eq, hS hpre.1⟩

theorem quickSort_nonDecreasing_witness :
    TotalPreorderOn cmpNat (exampleEngine [some 3, some 1, some 2]).originalArray ∧
    ∃ res : ArrayResult Nat,
      (exampleEngine [some 3, some 1, some 2]).QuickSortArray cmpNat ⟨0, 0⟩ = some res ∧
      res.arr.length = (exampleEngine [some 3, some 1, some 2]).originalArray.length ∧
      NonDecreasing cmpNat res.arr :=
  ⟨cmpNat_totalPreorder _,
    quickSort_nonDecreasing (exampleEngine [some 3, some 1, some 2]) cmpNat ⟨0, 0⟩
      (cmpNat_totalPreorder _)⟩

/-- C3. For every source sequence and every comparator that is a total preorder on
its references, `MergeSortList` returns a sequence that yields its references in
non-decreasing order: `cmp(out[i], out[i+1]) <= 0` for all adjacent positions.  The
returned sequence yields the non-null references of the source sequence,
rearranged; for a source sequence a program can have built (a new list, then `add`
and `clear`) it has the size `n` of the source and yields a rearrangement of its
`n` references. -/
theorem mergeSort_nonDecreasing {α : Type} (self : TSort α) (cmp : FCompareAccounts α)
    (summary : OperationSummary) (hpre : TotalPreorderOn cmp self.originalList.toVec) :
    ∃ res : ListResult α, self.MergeSortList cmp summary = some res ∧
      NonDecreasing cmp res.list.toVec ∧
      res.list.toVec.Perm (self.originalList.toVec.filter (fun p => p.isSome)) ∧
      (self.originalList.Reachable →
        res.list.getSize = self.originalList.getSize ∧
        res.list.toVec.length = self.originalList.toVec.length ∧
        res.list.toVec.Perm self.originalList.toVec) := by
  obtain ⟨st, e, hP, _, hO⟩ := mergeSortList_spec self cmp summary
  have hlist := listOfVec_of_perm self.originalList st.arr hP
  refine ⟨_, e, ?_, hlist.1, ?_⟩
  · dsimp only
    rw [listOfVec_toVec]
    exact nonDecreasing_of_pairwise cmp _ (List.Pairwise.filter _ (hO hpre).1)
  · intro hsrc
    exact ⟨(hlist.2 hsrc).1, (hlist.2 hsrc).2.length_eq, (hlist.2 hsrc).2⟩

theorem mergeSort_nonDecreasing_witness :
    TotalPreorderOn cmpNat (exampleEngine [some 3, some 1, some 2]).originalList.toVec ∧
    (exampleEngine [some 3, some 1, some 2]).originalList.Reachable ∧
    ∃ res : ListResult Nat,
      (exampleEngine [some 3, some 1, some 2]).MergeSortList cmpNat ⟨0, 0⟩ = some res ∧
      NonDecreasing cmpNat res.list.toVec ∧
      res.list.getSize = (exampleEngine [some 3, some 1, some 2]).originalList.getSize ∧
      res.list.toVec.length = 3 :=
  ⟨cmpNat_totalPreorder _, listOfVec_reachable _,
    (mergeSort_nonDecreasing (exampleEngine [some 3, some 1, some 2]) cmpNat ⟨0, 0⟩
      (cmpNat_totalPreorder _)).elim
      (fun res h => ⟨res, h.1, h.2.1, (h.2.2.2 (listOfVec_reachable _)).1,
        (h.2.2.2 (listOfVec_reachable _)).2.1⟩)⟩

/-- C4. For every source buffer and every comparator that is a total preorder on
its references, the buffer returned by `BubbleSortArray` (adjacent passes, early
exit after a pass without a swap) has the length of the source and is in
non-decreasing order: `cmp(out[i], out[i+1]) <= 0` for every `0 <= i < n-1`. -/
theorem bubbleSort_nonDecreasing {α : Type} (self : TSort α) (cmp : FCompareAccounts α)
    (summary : OperationSummary) (hpre : TotalPreorderOn cmp self.originalArray) :
    (self.BubbleSortArray cmp summary).arr.length = self.originalArray.length ∧
      NonDecreasing cmp (self.BubbleSortArray cmp summary).arr := by
  simp only [TSort.BubbleSortArray, TSort.originalArraySize, copyArray_eq]
  exact ⟨(bubbleLoops_perm cmp ⟨self.originalArray, OperationSummary.new⟩).length_eq,
    bubbleLoops_sorted cmp ⟨self.originalArray, OperationSummary.new⟩ hpre⟩

theorem bubbleSort_nonDecreasing_witness :
    TotalPreorderOn cmpNat (exampleEngine [some 3, some 1, some 2]).originalArray ∧
    ((exampleEngine [some 3, some 1, some 2]).BubbleSortArray cmpNat ⟨0, 0⟩).arr.length
        = (exampleEngine [some 3, some 1, some 2]).originalArray.length ∧
      NonDecreasing cmpNat
        ((exampleEngine [some 3, some 1, some 2]).BubbleSortArray cmpNat ⟨0, 0⟩).arr :=
  ⟨cmpNat_totalPreorder _,
    bubbleSort_nonDecreasing (exampleEngine [some 3, some 1, some 2]) cmpNat ⟨0, 0⟩
      (cmpNat_totalPreorder _)⟩

/-- C5. For every source buffer and every comparator, with no assumption on the
comparator, each of `SelectionSortArray`, `BubbleSortArray` and `QuickSortArray`
returns a buffer of the length of the source that is a permutation of the source
buffer: the same multiset of references, null entries included. -/
theorem bufferSorts_permutation {α : Type} (self : TSort α) (cmp : FCompareAccounts α)
    (summary : OperationSummary) :
    ((self.SelectionSortArray cmp summary).arr.length = self.originalArray.length ∧
      (self.SelectionSortArray cmp summary).arr.Perm self.originalArray) ∧
    ((self.BubbleSortArray cmp summary).arr.length = self.originalArray.length ∧
      (self.BubbleSortArray cmp summary).arr.Perm self.originalArray) ∧
    ∃ res : ArrayResult α, self.QuickSortArray cmp summary = some res ∧
      res.arr.length = self.originalArray.length ∧ res.arr.Perm self.originalArray := by
  refine ⟨?_, ?_, ?_⟩
  · simp only [TSort.SelectionSortArray, TSort.originalArraySize, copyArray_eq]
    have h := selectionLoops_perm cmp ⟨self.originalArray, OperationSummary.new⟩
    exact ⟨h.length_eq, h⟩
  · simp only [TSort.BubbleSortArray, TSort.originalArraySize, copyArray_eq]
    have h := bubbleLoops_perm cmp ⟨self.originalArray, OperationSummary.new⟩
    exact ⟨h.length_eq, h⟩
  · obtain ⟨st, e, hP, _⟩ := quickSortArray_spec self cmp summary
    exact ⟨_, e, hP.length_eq, hP⟩

/-- C6. For every source sequence a program can have built (a new list, then `add`
and `clear`) and every comparator, with no assumption on the comparator,
`SelectionSortList` and `MergeSortList` each return a sequence whose size equals
the size of the source sequence and whose references are a permutation of those of
the source sequence (the same multiset). -/
theorem listSorts_permutation {α : Type} (self : TSort α) (cmp : FCompareAccounts α)
    (summary : OperationSummary) (hsrc : self.originalList.Reachable) :
    ((self.SelectionSortList cmp summary).list.getSize = self.originalList.getSize ∧
      (self.SelectionSortList cmp summary).list.toVec.Perm self.originalList.toVec) ∧
    ∃ res : ListResult α, self.MergeSortList cmp summary = some res ∧
      res.list.getSize = self.originalList.getSize ∧
      res.list.toVec.Perm self.originalList.toVec := by
  obtain ⟨⟨hsize, _⟩, hnn⟩ := hsrc.inv
  have hnn' : ∀ p ∈ self.originalList.toVec, p ≠ none := by
    rw [TLinkedList.toVec_eq]; exact hnn
  have hlen : self.originalList.getSize = self.originalList.toVec.length := by
    rw [TLinkedList.toVec_eq]; exact hsize
  have key : ∀ out : List (Ptr α), out.Perm self.originalList.toVec →
      (listOfVec out).getSize = self.originalList.getSize ∧
      (listOfVec out).toVec.Perm self.originalList.toVec := by
    intro out hP
    have hf : out.filter (fun p => p.isSome) = out :=
      filter_isSome_of_noNull out (fun p hp => hnn' p (hP.mem_iff.1 hp))
    rw [listOfVec_size, listOfVec_toVec, hf, hlen]
    exact ⟨hP.length_eq, hP⟩
  refine ⟨?_, ?_⟩
  · simp only [TSort.SelectionSortList]
    exact key _ (selectionLoops_perm cmp ⟨self.originalList.toVec, OperationSummary.new⟩)
  · obtain ⟨st, e, hP, _⟩ := mergeSortList_spec self cmp summary
    exact ⟨_, e, key _ hP⟩

theorem listSorts_permutation_witness :
    (exampleEngine [some 3, some 1, some 2]).originalList.Reachable ∧
    ((((exampleEngine [some 3, some 1, some 2]).SelectionSortList cmpNat ⟨0, 0⟩).list.getSize
        = (exampleEngine [some 3, some 1, some 2]).originalList.getSize ∧
      ((exampleEngine [some 3, some 1, some 2]).SelectionSortList cmpNat ⟨0, 0⟩).list.toVec.Perm
        (exampleEngine [some 3, some 1, some 2]).originalList.toVec) ∧
    ∃ res : ListResult Nat,
      (exampleEngine [some 3, some 1, some 2]).MergeSortList cmpNat ⟨0, 0⟩ = some res ∧
      res.list.getSize = (exampleEngine [some 3, some 1, some 2]).originalList.getSize ∧
      res.list.toVec.Perm (exampleEngine [some 3, some 1, some 2]).originalList.toVec) :=
  ⟨listOfVec_reachable _,
    listSorts_permutation (exampleEngine [some 3, some 1, some 2]) cmpNat ⟨0, 0⟩
      (listOfVec_reachable _)⟩

/-- C7. `MergeSortList` is stable: for every source sequence, every comparator that
is a total preorder on its references and every two records `a`, `b` with
`cmp(a, b) == 0`, if `a` occurs before `b` in the source sequence then `a` occurs
before `b` in the returned sequence. -/
theorem mergeSort_stable {α : Type} (self : TSort α) (cmp : FCompareAccounts α)
    (summary : OperationSummary) (hpre : TotalPreorderOn cmp self.originalList.toVec) :
    ∃ res : ListResult α, self.MergeSortList cmp summary = some res ∧
      ∀ a b : α, cmp (some a) (some b) = 0 →
        [some a, some b].Sublist self.originalList.toVec →
        [some a, some b].Sublist res.list.toVec := by
  obtain ⟨st, e, _, _, hO⟩ := mergeSortList_spec self cmp summary
  refine ⟨_, e, ?_⟩
  intro a b hab hsub
  dsimp only
  rw [listOfVec_toVec]
  have h := ((hO hpre).2 (some a) (some b) hab hsub).filter (fun p => p.isSome)
  simpa using h

theorem mergeSort_stable_witness :
    TotalPreorderOn cmpTens
      (exampleEngine [some 21, some 10, some 20, some 11, some 22, some 12]).originalList.toVec ∧
    cmpTens (some 21) (some 20) = 0 ∧ cmpTens (some 20) (some 22) = 0 ∧
    cmpTens (some 10) (some 11) = 0 ∧
    [some 21, some 20].Sublist
      (exampleEngine [some 21, some 10, some 20, some 11, some 22, some 12]).originalList.toVec ∧
    (((exampleEngine [some 21, some 10, some 20, some 11, some 22, some 12]).MergeSortList
        cmpTens ⟨0, 0⟩).map (fun r => r.list.toVec)
      = some [some 10, some 11, some 12, some 21, some 20, some 22]) ∧
    ∃ res : ListResult Nat,
      (exampleEngine [some 21, some 10, some 20, some 11, some 22, some 12]).MergeSortList
        cmpTens ⟨0, 0⟩ = some res ∧
      [some 21, some 20].Sublist res.list.toVec ∧
      [some 20, some 22].Sublist res.list.toVec ∧
      [some 10, some 11].Sublist res.list.toVec :=
  ⟨cmpTens_totalPreorder _, by decide, by decide, by decide, by decide, by decide,
    (mergeSort_stable (exampleEngine [some 21, some 10, some 20, some 11, some 22, some 12])
      cmpTens ⟨0, 0⟩ (cmpTens_totalPreorder _)).elim
      (fun res h => ⟨res, h.1, h.2 21 20 (by decide) (by decide),
        h.2 20 22 (by decide) (by decide), h.2 10 11 (by decide) (by decide)⟩)⟩

/-! ## The engine: search over the cache -/

theorem refreshCache_fields {α : Type} (self : TSort α) (arr : List (Ptr α))
    (h : arr.length = self.originalArray.length) :
    (self.refreshCache arr).isArraySorted = true ∧
    (self.refreshCache arr).sortedArray = some arr ∧
    (self.refreshCache arr).sortedArraySize = arr.length := by
  simp only [TSort.refreshCache, TSort.originalArraySize, ← h, copyArray_eq]
  exact ⟨trivial, trivial, trivial⟩

/-- On a valid cache `BinarySearch` runs the recursion over the whole cache and
hands back what it returns. -/
theorem binarySearch_valid {α : Type} (self : TSort α) (A : List (Ptr α)) (key : Ptr α)
    (cmp : FCompareAccounts α) (summary : OperationSummary)
    (hv : self.isArraySorted = true) (hc : self.sortedArray = some A)
    (r : Ptr α) (s' : OperationSummary)
    (e : BinarySearchRecursive A key cmp self.sortedArraySize.toNat 0
      (self.sortedArraySize - 1) OperationSummary.new = some (r, s')) :
    self.BinarySearch key cmp summary = some ⟨r, s', self⟩ := by
  simp only [TSort.BinarySearch, hv, hc, e]

/-- Search over an ordered valid cache under a total preorder on the cached
references and the key: some cached cell that compares equal to the key is
returned whenever there is one. -/
theorem binarySearch_finds {α : Type} (self : TSort α) (A : List (Ptr α)) (key : Ptr α)
    (cmp : FCompareAccounts α) (summary : OperationSummary)
    (hv : self.isArraySorted = true) (hc : self.sortedArray = some A)
    (hsz : self.sortedArraySize = A.length)
    (hpre : TotalPreorderOn cmp (key :: A)) (hsorted : NonDecreasing cmp A)
    (hex : ∃ e ∈ A, cmp e key = 0) :
    ∃ res : SearchResult α, self.BinarySearch key cmp summary = some res ∧
      res.found ∈ A ∧ cmp res.found key = 0 := by
  obtain ⟨x, hx, hxk⟩ := hex
  obtain ⟨idx, h0, h1, rfl⟩ := exists_rd_of_mem A x hx
  obtain ⟨mid, s', e, g1, g2, g3⟩ := binarySearchRecursive_finds A (key :: A) key cmp hpre
    (fun _ h => List.mem_cons_of_mem _ h) (List.mem_cons_self _ _) hsorted
    self.sortedArraySize.toNat 0 (self.sortedArraySize - 1) OperationSummary.new
    (le_refl _) (by omega) (by omega) ⟨idx, h0, by omega, hxk⟩
  exact ⟨_, binarySearch_valid self A key cmp summary hv hc _ _ e,
    rd_mem _ _ g1 (by omega), g3⟩

theorem binarySearch_after_refresh {α : Type} (self : TSort α) (arr : List (Ptr α))
    (key : Ptr α) (cmp : FCompareAccounts α) (summary : OperationSummary)
    (hP : arr.Perm self.originalArray) (hsorted : NonDecreasing cmp arr)
    (hpre : TotalPreorderOn cmp (key :: self.originalArray))
    (hex : ∃ e ∈ self.originalArray, cmp e key = 0) :
    ∃ res : SearchResult α, (self.refreshCache arr).BinarySearch key cmp summary = some res ∧
      (self.refreshCache arr).sortedArray = some arr ∧
      res.found ∈ arr ∧ cmp res.found key = 0 ∧
      ((none ∈ self.originalArray → cmp none key ≠ 0) → res.found ≠ none) := by
  obtain ⟨hv, hc, hsz⟩ := refreshCache_fields self arr hP.length_eq
  obtain ⟨x, hx, hxk⟩ := hex
  obtain ⟨res, e, hm, hk⟩ := binarySearch_finds (self.refreshCache arr) arr key cmp summary
    hv hc hsz
    (totalPreorderOn_mono hpre (by
      intro y hy
      rcases List.mem_cons.1 hy with hy | hy
      · exact hy ▸ List.mem_cons_self _ _
      · exact List.mem_cons_of_mem _ (hP.mem_iff.1 hy)))
    hsorted ⟨x, hP.mem_iff.2 hx, hxk⟩
  refine ⟨res, e, hc, hm, hk, ?_⟩
  intro hnn hnone
  rw [hnone] at hm hk
  exact hnn (hP.mem_iff.1 hm) hk

/-! ## C8 - C10 -/

/-- C8. Whatever the cache, the comparator and the key, `BinarySearch` returns; if
it returns a (non-null) reference `r`, then `r` is an element of the cached sorted
buffer and `cmp(r, key) == 0`; consequently, when no cached element `e` has
`cmp(e, key) == 0`, it returns not-found (null). -/
theorem binarySearch_sound {α : Type} (self : TSort α) (key : Ptr α)
    (cmp : FCompareAccounts α) (summary : OperationSummary) :
    ∃ res : SearchResult α, self.BinarySearch key cmp summary = some res ∧
      (∀ r : α, res.found = some r →
        ∃ cache, self.sortedArray = some cache ∧ some r ∈ cache ∧ cmp (some r) key = 0) ∧
      ((∀ cache, self.sortedArray = some cache → ∀ e ∈ cache, cmp e key ≠ 0) →
        res.found = none) := by
  rcases hv : self.isArraySorted with _ | _
  · refine ⟨⟨none, OperationSummary.new, self⟩, by simp [TSort.BinarySearch, hv], ?_, ?_⟩
    · intro r h; cases h
    · intro _; rfl
  · rcases hc : self.sortedArray with _ | A
    · refine ⟨⟨none, OperationSummary.new, self⟩, by simp [TSort.BinarySearch, hv, hc],
        ?_, ?_⟩
      · intro r h; cases h
      · intro _; rfl
    · obtain ⟨r, s', e, hr, _, _⟩ := binarySearchRecursive_spec A key cmp
        self.sortedArraySize.toNat 0 (self.sortedArraySize - 1) OperationSummary.new (by omega)
      refine ⟨_, binarySearch_valid self A key cmp summary hv hc _ _ e, ?_, ?_⟩
      · intro x hx
        dsimp only at hx
        rcases hr with hr | ⟨mid, _, _, h3, h4⟩
        · rw [hr] at hx; cases hx
        · refine ⟨A, rfl, ?_, by rw [← hx]; exact h4⟩
          have hne : rd A mid ≠ none := by rw [← h3, hx]; simp
          obtain ⟨b0, b1⟩ := rd_mem_of_ne_none A mid hne
          rw [← hx, h3]
          exact rd_mem A mid b0 b1
      · intro hno
        dsimp only
        rcases hr with hr | ⟨mid, _, _, h3, h4⟩
        · exact hr
        · by_contra hne
          have hne' : rd A mid ≠ none := by rw [← h3]; exact hne
          obtain ⟨b0, b1⟩ := rd_mem_of_ne_none A mid hne'
          exact hno A rfl r (by rw [h3]; exact rd_mem A mid b0 b1) h4

/-- C9, as stated, fails when a null entry of the buffer matches the key: on the
buffer `[nullptr, 1]` sorted by `cmpNat`, the key `nullptr` compares equal to a
cached entry, yet `BinarySearch` returns `nullptr`, which is not-found. -/
theorem binarySearch_nullEntry_notFound :
    TotalPreorderOn cmpNat (none :: (exampleEngine [none, some 1]).originalArray) ∧
    ((exampleEngine [none, some 1]).SelectionSortArray cmpNat ⟨0, 0⟩).self.sortedArray
      = some [none, some 1] ∧
    (∃ e ∈ [none, some 1], cmpNat e none = 0) ∧
    (((exampleEngine [none, some 1]).SelectionSortArray cmpNat ⟨0, 0⟩).self.BinarySearch
      none cmpNat ⟨0, 0⟩).map (fun r => r.found) = some none :=
  ⟨cmpNat_totalPreorder _, by decide, ⟨none, by decide, by decide⟩, by decide⟩

/-- C9 (amended). For every comparator that is a total preorder on the references of
the source buffer together with the key: if the cache was produced by a buffer sort
(`SelectionSortArray`, `BubbleSortArray` or `QuickSortArray`) with that comparator
and some entry `e` of the buffer has `cmp(e, key) == 0`, then `BinarySearch`
returns an entry `r` of the cache with `cmp(r, key) == 0`; that entry is a
non-null reference, so the search does not report not-found, unless the buffer
holds a null entry that itself compares equal to the key. -/
theorem binarySearch_finds_after_sort {α : Type} (self : TSort α) (key : Ptr α)
    (cmp : FCompareAccounts α) (s0 s1 : OperationSummary)
    (hpre : TotalPreorderOn cmp (key :: self.originalArray))
    (hex : ∃ e ∈ self.originalArray, cmp e key = 0) :
    (∃ (res : SearchResult α) (cache : List (Ptr α)),
      (self.SelectionSortArray cmp s0).self.BinarySearch key cmp s1 = some res ∧
      (self.SelectionSortArray cmp s0).self.sortedArray = some cache ∧
      res.found ∈ cache ∧ cmp res.found key = 0 ∧
      ((none ∈ self.originalArray → cmp none key ≠ 0) → res.found ≠ none)) ∧
    (∃ (res : SearchResult α) (cache : List (Ptr α)),
      (self.BubbleSortArray cmp s0).self.BinarySearch key cmp s1 = some res ∧
      (self.BubbleSortArray cmp s0).self.sortedArray = some cache ∧
      res.found ∈ cache ∧ cmp res.found key = 0 ∧
      ((none ∈ self.originalArray → cmp none key ≠ 0) → res.found ≠ none)) ∧
    (∃ (sorted : ArrayResult α) (res : SearchResult α) (cache : List (Ptr α)),
      self.QuickSortArray cmp s0 = some sorted ∧
      sorted.self.BinarySearch key cmp s1 = some res ∧
      sorted.self.sortedArray = some cache ∧
      res.found ∈ cache ∧ cmp res.found key = 0 ∧
      ((none ∈ self.originalArray → cmp none key ≠ 0) → res.found ≠ none)) := by
  have hpre' : TotalPreorderOn cmp self.originalArray :=
    totalPreorderOn_mono hpre (fun _ h => List.mem_cons_of_mem _ h)
  refine ⟨?_, ?_, ?_⟩
  · obtain ⟨hself, hP, hs⟩ := selectionSortArray_spec self cmp s0
    rw [hself]
    obtain ⟨res, e, hc, hm, hk, hn⟩ := binarySearch_after_refresh self
      (self.SelectionSortArray cmp s0).arr key cmp s1 hP (hs hpre') hpre hex
    exact ⟨res, _, e, hc, hm, hk, hn⟩
  · obtain ⟨hself, hP, hs⟩ := bubbleSortArray_spec self cmp s0
    rw [hself]
    obtain ⟨res, e, hc, hm, hk, hn⟩ := binarySearch_after_refresh self
      (self.BubbleSortArray cmp s0).arr key cmp s1 hP (hs hpre') hpre hex
    exact ⟨res, _, e, hc, hm, hk, hn⟩
  · obtain ⟨st, e, hP, hS⟩ := quickSortArray_spec self cmp s0
    obtain ⟨res, e', hc, hm, hk, hn⟩ := binarySearch_after_refresh self st.arr key cmp s1
      hP (hS hpre'.1) hpre hex
    exact ⟨_, res, _, e, e', hc, hm, hk, hn⟩

theorem binarySearch_finds_after_sort_witness :
    TotalPreorderOn cmpNat (some 2 :: (exampleEngine [some 3, some 1, some 2]).originalArray) ∧
    (∃ e ∈ (exampleEngine [some 3, some 1, some 2]).originalArray, cmpNat e (some 2) = 0) ∧
    ((∃ (res : SearchResult Nat) (cache : List (Ptr Nat)),
      ((exampleEngine [some 3, some 1, some 2]).SelectionSortArray cmpNat ⟨0, 0⟩).self.BinarySearch
        (some 2) cmpNat ⟨0, 0⟩ = some res ∧
      ((exampleEngine [some 3, some 1, some 2]).SelectionSortArray cmpNat ⟨0, 0⟩).self.sortedArray
        = some cache ∧
      res.found ∈ cache ∧ cmpNat res.found (some 2) = 0 ∧
      ((none ∈ (exampleEngine [some 3, some 1, some 2]).originalArray →
          cmpNat none (some 2) ≠ 0) → res.found ≠ none)) ∧
    (∃ (res : SearchResult Nat) (cache : List (Ptr Nat)),
      ((exampleEngine [some 3, some 1, some 2]).BubbleSortArray cmpNat ⟨0, 0⟩).self.BinarySearch
        (some 2) cmpNat ⟨0, 0⟩ = some res ∧
      ((exampleEngine [some 3, some 1, some 2]).BubbleSortArray cmpNat ⟨0, 0⟩).self.sortedArray
        = some cache ∧
      res.found ∈ cache ∧ cmpNat res.found (some 2) = 0 ∧
      ((none ∈ (exampleEngine [some 3, some 1, some 2]).originalArray →
          cmpNat none (some 2) ≠ 0) → res.found ≠ none)) ∧
    (∃ (sorted : ArrayResult Nat) (res : SearchResult Nat) (cache : List (Ptr Nat)),
      (exampleEngine [some 3, some 1, some 2]).QuickSortArray cmpNat ⟨0, 0⟩ = some sorted ∧
      sorted.self.BinarySearch (some 2) cmpNat ⟨0, 0⟩ = some res ∧
      sorted.self.sortedArray = some cache ∧
      res.found ∈ cache ∧ cmpNat res.found (some 2) = 0 ∧
      ((none ∈ (exampleEngine [some 3, some 1, some 2]).originalArray →
          cmpNat none (some 2) ≠ 0) → res.found ≠ none))) :=
  ⟨cmpNat_totalPreorder _, ⟨some 2, by decide, by decide⟩,
    binarySearch_finds_after_sort (exampleEngine [some 3, some 1, some 2]) (some 2) cmpNat
      ⟨0, 0⟩ ⟨0, 0⟩ (cmpNat_totalPreorder _) ⟨some 2, by decide, by decide⟩⟩

/-- C10. For every valid cache of size `n >= 0`, every key and every comparator,
`BinarySearch` returns and records at most `ceil(log2(n + 1))` comparisons in its
summary. -/
theorem binarySearch_comparisons_bound {α : Type} (self : TSort α) (cache : List (Ptr α))
    (key : Ptr α) (cmp : FCompareAccounts α) (summary : OperationSummary)
    (hv : self.isArraySorted = true) (hc : self.sortedArray = some cache)
    (hsz : self.sortedArraySize = cache.length) :
    ∃ res : SearchResult α, self.BinarySearch key cmp summary = some res ∧
      res.summary.comparisons ≤ Nat.clog 2 (cache.length + 1) := by
  obtain ⟨r, s', e, _, _, hcnt⟩ := binarySearchRecursive_spec cache key cmp
    self.sortedArraySize.toNat 0 (self.sortedArraySize - 1) OperationSummary.new (by omega)
  refine ⟨_, binarySearch_valid self cache key cmp summary hv hc _ _ e, ?_⟩
  have e1 : (self.sortedArraySize - 1 - 0 + 1).toNat = cache.length := by omega
  rw [e1] at hcnt
  simpa [OperationSummary.new] using hcnt

theorem binarySearch_comparisons_bound_witness :
    ((exampleEngine [some 3, some 1, some 2]).SelectionSortArray cmpNat ⟨0, 0⟩).self.isArraySorted
      = true ∧
    ((exampleEngine [some 3, some 1, some 2]).SelectionSortArray cmpNat ⟨0, 0⟩).self.sortedArray
      = some [some 1, some 2, some 3] ∧
    ((exampleEngine [some 3, some 1, some 2]).SelectionSortArray cmpNat ⟨0, 0⟩).self.sortedArraySize
      = ([some 1, some 2, some 3] : List (Ptr Nat)).length ∧
    ∃ res : SearchResult Nat,
      ((exampleEngine [some 3, some 1, some 2]).SelectionSortArray cmpNat ⟨0, 0⟩).self.BinarySearch
        (some 5) cmpNat ⟨0, 0⟩ = some res ∧
      res.summary.comparisons ≤ Nat.clog 2 (([some 1, some 2, some 3] : List (Ptr Nat)).length + 1) :=
  ⟨by decide, by decide, by decide,
    binarySearch_comparisons_bound
      ((exampleEngine [some 3, some 1, some 2]).SelectionSortArray cmpNat ⟨0, 0⟩).self
      [some 1, some 2, some 3] (some 5) cmpNat ⟨0, 0⟩ (by decide) (by decide) (by decide)⟩

/-! ## Selection sort: counts -/

/-- The scan for the minimum over `[i + 1, n)`, for any comparator: it counts one
comparison per scanned cell and no swap, and it ends on `i` only if no scanned cell
compares `< 0` with cell `i`. -/
theorem selectionScan_counts {α : Type} (cmp : FCompareAccounts α) (arr : List (Ptr α))
    (i n : Int) (s : OperationSummary) (hin : i + 1 ≤ n) :
    ((forRange (i + 1) n (selectionInnerBody cmp arr) ⟨i, s⟩).summary.comparisons : Int)
        = s.comparisons + (n - (i + 1)) ∧
    (forRange (i + 1) n (selectionInnerBody cmp arr) ⟨i, s⟩).summary.swaps = s.swaps ∧
    ((forRange (i + 1) n (selectionInnerBody cmp arr) ⟨i, s⟩).minIdx = i →
      ∀ k : Int, i < k → k < n → ¬ cmp (rd arr k) (rd arr i) < 0) := by
  have key := forRange_inv
    (fun (j : Int) (st : MinScan) =>
      (st.summary.comparisons : Int) = s.comparisons + (j - (i + 1)) ∧
      st.summary.swaps = s.swaps ∧ i ≤ st.minIdx ∧ st.minIdx < j ∧
      (st.minIdx = i → ∀ k : Int, i < k → k < j → ¬ cmp (rd arr k) (rd arr i) < 0))
    (i + 1) n (selectionInnerBody cmp arr) ⟨i, s⟩ hin
    ⟨by simp, rfl, le_refl _, by simp, by intro _ k h1 h2; omega⟩
    (by
      intro j t h1 h2 ⟨hc, hs, ha, hb, hno⟩
      unfold selectionInnerBody
      dsimp only
      split <;> dsimp only
      · refine ⟨by simp only [OperationSummary.incComparisons]; push_cast; omega,
          by simp only [OperationSummary.incComparisons]; exact hs, by omega, by omega, ?_⟩
        intro e; omega
      · rename_i hnlt
        refine ⟨by simp only [OperationSummary.incComparisons]; push_cast; omega,
          by simp only [OperationSummary.incComparisons]; exact hs, ha, by omega, ?_⟩
        intro e k hk1 hk2
        by_cases ek : k = j
        · subst ek; rw [e] at hnlt; exact hnlt
        · exact hno e k hk1 (by omega))
  exact ⟨key.1, key.2.1, key.2.2.2.2⟩

/-- Counts of the selection-sort loop nest on an array of `n` cells, for any
comparator: exactly `n (n - 1) / 2` comparisons are added, at most `n - 1` swaps
are added, and when no swap is added the array is returned as it was and held no
pair of cells `i < j` with `cmp(a[j], a[i]) < 0`. -/
theorem selectionLoops_counts {α : Type} (cmp : FCompareAccounts α) (st : SortState α) :
    (selectionLoops cmp st.arr.length st).summary.comparisons
        = st.summary.comparisons + st.arr.length * (st.arr.length - 1) / 2 ∧
    st.summary.swaps ≤ (selectionLoops cmp st.arr.length st).summary.swaps ∧
    (selectionLoops cmp st.arr.length st).summary.swaps
        ≤ st.summary.swaps + (st.arr.length - 1) ∧
    ((selectionLoops cmp st.arr.length st).summary.swaps = st.summary.swaps →
      (selectionLoops cmp st.arr.length st).arr = st.arr ∧
      ∀ i j : Int, 0 ≤ i → i < j → j < st.arr.length →
        ¬ cmp (rd st.arr j) (rd st.arr i) < 0) := by
  unfold selectionLoops
  by_cases hn : (0 : Int) ≤ (st.arr.length : Int) - 1
  · have key := forRange_inv
      (fun (i : Int) (t : SortState α) =>
        2 * (t.summary.comparisons : Int)
          = 2 * st.summary.comparisons + i * (2 * st.arr.length - i - 1) ∧
        st.summary.swaps ≤ t.summary.swaps ∧ (t.summary.swaps : Int) ≤ st.summary.swaps + i ∧
        (t.summary.swaps = st.summary.swaps → t.arr = st.arr ∧
          ∀ a b : Int, 0 ≤ a → a < i → a < b → b < st.arr.length →
            ¬ cmp (rd st.arr b) (rd st.arr a) < 0))
      0 ((st.arr.length : Int) - 1) (selectionOuterBody cmp st.arr.length) st hn
      ⟨by simp, le_refl _, by simp, fun _ => ⟨rfl, by intro a b h1 h2; omega⟩⟩
      (by
        intro i t h1 h2 ⟨hc, hs1, hs2, hz⟩
        obtain ⟨gc, gs, gm⟩ := selectionScan_counts cmp t.arr i st.arr.length t.summary
          (by omega)
        unfold selectionOuterBody
        dsimp only
        generalize (forRange (i + 1) (st.arr.length : Int) (selectionInnerBody cmp t.arr)
          ⟨i, t.summary⟩) = scan at gc gs gm
        have hcnt : 2 * (scan.summary.comparisons : Int)
            = 2 * st.summary.comparisons + (i + 1) * (2 * st.arr.length - (i + 1) - 1) := by
          rw [gc]; linear_combination hc
        split <;> dsimp only
        · refine ⟨by simpa [OperationSummary.incSwaps] using hcnt,
            by simp only [OperationSummary.incSwaps]; omega,
            by simp only [OperationSummary.incSwaps]; push_cast; omega, ?_⟩
          intro e
          simp only [OperationSummary.incSwaps] at e
          omega
        · rename_i heq
          have heq : scan.minIdx = i := by
            by_contra hcon; exact heq hcon
          refine ⟨hcnt, by omega, by omega, ?_⟩
          intro e
          obtain ⟨e1, hprev⟩ := hz (by omega)
          refine ⟨e1, ?_⟩
          intro a b ha hai hab hb
          by_cases ea : a = i
          · subst ea
            have := gm heq b hab hb
            rwa [e1] at this
          · exact hprev a b ha (by omega) hab hb)
    obtain ⟨hc, hs1, hs2, hz⟩ := key
    refine ⟨?_, hs1, by omega, ?_⟩
    · have h2 : 2 * (forRange 0 ((st.arr.length : Int) - 1)
          (selectionOuterBody cmp st.arr.length) st).summary.comparisons
          = 2 * st.summary.comparisons + st.arr.length * (st.arr.length - 1) := by
        have e : ((st.arr.length : Int) - 1) * (2 * st.arr.length - ((st.arr.length : Int) - 1) - 1)
            = ((st.arr.length * (st.arr.length - 1) : Nat) : Int) := by
          have h1 : 1 ≤ st.arr.length := by omega
          push_cast [Nat.cast_sub h1]
          ring
        rw [e] at hc
        exact_mod_cast hc
      have hev : 2 ∣ st.arr.length * (st.arr.length - 1) := by
        have := Nat.even_mul_pred_self st.arr.length
        exact even_iff_two_dvd.1 this
      omega
    · intro e
      obtain ⟨e1, hprev⟩ := hz e
      exact ⟨e1, fun i j hi hij hj => hprev i j hi (by omega) hij hj⟩
  · rw [forRange_empty _ _ _ _ (by omega)]
    have h0 : st.arr.length = 0 := by omega
    refine ⟨by simp [h0], le_refl _, by omega, fun _ => ⟨rfl, ?_⟩⟩
    intro i j hi hij hj
    omega

/-! ## Bubble sort: the already sorted case -/

/-- A bubble pass over `[0, m]` that meets no inverted neighbours, for any
comparator: nothing moves, `swapped` stays false, `m` comparisons and no swap are
counted. -/
theorem bubblePass_noInversion {α : Type} (cmp : FCompareAccounts α) (arr0 : List (Ptr α))
    (s : OperationSummary) (m : Int) (hm0 : 0 ≤ m)
    (hno : ∀ k : Int, 0 ≤ k → k < m → ¬ cmp (rd arr0 (k + 1)) (rd arr0 k) < 0) :
    (forRange 0 m (bubbleInnerBody cmp) ⟨arr0, s, false⟩).arr = arr0 ∧
    (forRange 0 m (bubbleInnerBody cmp) ⟨arr0, s, false⟩).swapped = false ∧
    ((forRange 0 m (bubbleInnerBody cmp) ⟨arr0, s, false⟩).summary.comparisons : Int)
      = s.comparisons + m ∧
    (forRange 0 m (bubbleInnerBody cmp) ⟨arr0, s, false⟩).summary.swaps = s.swaps := by
  have key := forRange_inv
    (fun (j : Int) (st : BubbleState α) => st.arr = arr0 ∧ st.swapped = false ∧
      (st.summary.comparisons : Int) = s.comparisons + j ∧ st.summary.swaps = s.swaps)
    0 m (bubbleInnerBody cmp) ⟨arr0, s, false⟩ hm0 ⟨rfl, rfl, by simp, rfl⟩
    (by
      intro j t h1 h2 ⟨ha, hsw, hc, hs⟩
      unfold bubbleInnerBody
      dsimp only
      split
      · rename_i hlt
        rw [ha] at hlt
        exact absurd hlt (hno j h1 h2)
      · dsimp only
        exact ⟨ha, hsw, by simp only [OperationSummary.incComparisons]; push_cast; omega,
          by simp only [OperationSummary.incComparisons]; exact hs⟩)
  exact key

/-- Bubble sort on an array of `n >= 1` cells without inverted neighbours, for any
comparator: a single pass, `n - 1` comparisons and no swap are added, the array is
returned as it was. -/
theorem bubbleLoops_noInversion {α : Type} (cmp : FCompareAccounts α) (st : SortState α)
    (hn : 1 ≤ st.arr.length)
    (hno : ∀ k : Int, 0 ≤ k → k < (st.arr.length : Int) - 1 →
      ¬ cmp (rd st.arr (k + 1)) (rd st.arr k) < 0) :
    (bubbleLoops cmp st.arr.length st).arr = st.arr ∧
    ((bubbleLoops cmp st.arr.length st).summary.comparisons : Int)
      = st.summary.comparisons + ((st.arr.length : Int) - 1) ∧
    (bubbleLoops cmp st.arr.length st).summary.swaps = st.summary.swaps := by
  unfold bubbleLoops
  rcases Nat.exists_eq_add_of_le hn with ⟨k, hk⟩
  cases k with
  | zero =>
    have e : ((st.arr.length : Int) - 1 - 0).toNat = 0 := by omega
    rw [e]
    show st.arr = st.arr ∧ (st.summary.comparisons : Int)
        = st.summary.comparisons + ((st.arr.length : Int) - 1) ∧
      st.summary.swaps = st.summary.swaps
    exact ⟨rfl, by omega, rfl⟩
  | succ k =>
    have e : ((st.arr.length : Int) - 1 - 0).toNat = k + 1 := by omega
    rw [e]
    simp only [bubblePasses]
    obtain ⟨h1, h2, h3, h4⟩ := bubblePass_noInversion cmp st.arr st.summary
      ((st.arr.length : Int) - 1 - 0) (by omega) (fun q hq1 hq2 => hno q hq1 (by omega))
    rw [h2]
    simp only [Bool.not_false, if_true]
    exact ⟨h1, by rw [h3]; omega, h4⟩

/-! ## The engine: what the calls leave behind -/

/-- The search always returns and hands the engine back as it was; without a valid
cache it reports not-found and a fresh summary. -/
theorem binarySearch_returns {α : Type} (self : TSort α) (key : Ptr α)
    (cmp : FCompareAccounts α) (summary : OperationSummary) :
    ∃ (r : Ptr α) (s' : OperationSummary),
      self.BinarySearch key cmp summary = some ⟨r, s', self⟩ ∧
      (self.isArraySorted = false ∨ self.sortedArray = none →
        r = none ∧ s' = OperationSummary.new) := by
  rcases hv : self.isArraySorted with _ | _
  · exact ⟨none, OperationSummary.new, by simp [TSort.BinarySearch, hv], fun _ => ⟨rfl, rfl⟩⟩
  · rcases hc : self.sortedArray with _ | A
    · exact ⟨none, OperationSummary.new, by simp [TSort.BinarySearch, hv, hc],
        fun _ => ⟨rfl, rfl⟩⟩
    · obtain ⟨r, s', e, _⟩ := binarySearchRecursive_spec A key cmp
        self.sortedArraySize.toNat 0 (self.sortedArraySize - 1) OperationSummary.new (by omega)
      refine ⟨r, s', binarySearch_valid self A key cmp summary hv hc _ _ e, ?_⟩
      intro h
      rcases h with h | h
      · cases h
      · cases h

theorem noBufferSort_flag {α : Type} {self : TSort α} (h : self.NoBufferSort) :
    self.isArraySorted = false := by
  induction h with
  | new aList aArray => rfl
  | selectionSortList cmp summary _ ih => exact ih
  | @mergeSortList self cmp summary res _ e ih =>
    obtain ⟨st, e', _⟩ := mergeSortList_spec self cmp summary
    rw [e'] at e
    cases e
    exact ih
  | @binarySearch self key cmp summary res _ e ih =>
    obtain ⟨r, s', e', _⟩ := binarySearch_returns self key cmp summary
    rw [e'] at e
    cases e
    exact ih

/-! ## C11 - C13 -/

/-- C11. On an engine on which no buffer sort has run since construction, even if
list sorts or earlier searches have run, `BinarySearch` returns not-found for every
key and comparator and reports `comparisons = 0` and `swaps = 0`. -/
theorem binarySearch_without_bufferSort {α : Type} (self : TSort α)
    (h : self.NoBufferSort) (key : Ptr α) (cmp : FCompareAccounts α)
    (summary : OperationSummary) :
    ∃ res : SearchResult α, self.BinarySearch key cmp summary = some res ∧
      res.found = none ∧ res.summary.comparisons = 0 ∧ res.summary.swaps = 0 := by
  obtain ⟨r, s', e, hn⟩ := binarySearch_returns self key cmp summary
  obtain ⟨h1, h2⟩ := hn (Or.inl (noBufferSort_flag h))
  exact ⟨_, e, h1, by rw [h2]; rfl, by rw [h2]; rfl⟩

theorem binarySearch_without_bufferSort_witness :
    ((exampleEngine [some 3, some 1, some 2]).SelectionSortList cmpNat ⟨0, 0⟩).self.NoBufferSort ∧
    ∃ res : SearchResult Nat,
      ((exampleEngine [some 3, some 1, some 2]).SelectionSortList cmpNat ⟨0, 0⟩).self.BinarySearch
        (some 3) cmpNat ⟨5, 5⟩ = some res ∧
      res.found = none ∧ res.summary.comparisons = 0 ∧ res.summary.swaps = 0 :=
  ⟨TSort.NoBufferSort.selectionSortList cmpNat ⟨0, 0⟩ (TSort.NoBufferSort.new _ _),
    binarySearch_without_bufferSort _
      (TSort.NoBufferSort.selectionSortList cmpNat ⟨0, 0⟩ (TSort.NoBufferSort.new _ _))
      (some 3) cmpNat ⟨5, 5⟩⟩

/-- C12. After any of `SelectionSortArray`, `BubbleSortArray` or `QuickSortArray`
returns, whatever the cache held before, the cache is marked valid, its size is
the size of the source buffer and it holds, element for element, the references of
the buffer just returned. -/
theorem bufferSort_replaces_cache {α : Type} (self : TSort α) (cmp : FCompareAccounts α)
    (summary : OperationSummary) :
    ((self.SelectionSortArray cmp summary).self.isArraySorted = true ∧
      (self.SelectionSortArray cmp summary).self.sortedArraySize = self.originalArray.length ∧
      (self.SelectionSortArray cmp summary).self.sortedArray
        = some (self.SelectionSortArray cmp summary).arr) ∧
    ((self.BubbleSortArray cmp summary).self.isArraySorted = true ∧
      (self.BubbleSortArray cmp summary).self.sortedArraySize = self.originalArray.length ∧
      (self.BubbleSortArray cmp summary).self.sortedArray
        = some (self.BubbleSortArray cmp summary).arr) ∧
    ∃ res : ArrayResult α, self.QuickSortArray cmp summary = some res ∧
      res.self.isArraySorted = true ∧
      res.self.sortedArraySize = self.originalArray.length ∧
      res.self.sortedArray = some res.arr := by
  refine ⟨?_, ?_, ?_⟩
  · obtain ⟨hself, hP, _⟩ := selectionSortArray_spec self cmp summary
    obtain ⟨h1, h2, h3⟩ := refreshCache_fields self _ hP.length_eq
    rw [hself]
    exact ⟨h1, by rw [h3, hP.length_eq], h2⟩
  · obtain ⟨hself, hP, _⟩ := bubbleSortArray_spec self cmp summary
    obtain ⟨h1, h2, h3⟩ := refreshCache_fields self _ hP.length_eq
    rw [hself]
    exact ⟨h1, by rw [h3, hP.length_eq], h2⟩
  · obtain ⟨st, e, hP, _⟩ := quickSortArray_spec self cmp summary
    obtain ⟨h1, h2, h3⟩ := refreshCache_fields self _ hP.length_eq
    exact ⟨_, e, h1, by rw [h3, hP.length_eq], h2⟩

/-- C13. For each of the five sort operations and for `BinarySearch`, with any
comparator, the call returns and leaves the source buffer and the source sequence
as they were: the same reference at every index of the buffer, the same sequence
(the same references in the same order, the same size). -/
theorem sources_unchanged {α : Type} (self : TSort α) (key : Ptr α)
    (cmp : FCompareAccounts α) (summary : OperationSummary) :
    ((self.SelectionSortArray cmp summary).self.originalArray = self.originalArray ∧
      (self.SelectionSortArray cmp summary).self.originalList = self.originalList) ∧
    ((self.BubbleSortArray cmp summary).self.originalArray = self.originalArray ∧
      (self.BubbleSortArray cmp summary).self.originalList = self.originalList) ∧
    (∃ res : ArrayResult α, self.QuickSortArray cmp summary = some res ∧
      res.self.originalArray = self.originalArray ∧
      res.self.originalList = self.originalList) ∧
    ((self.SelectionSortList cmp summary).self.originalArray = self.originalArray ∧
      (self.SelectionSortList cmp summary).self.originalList = self.originalList) ∧
    (∃ res : ListResult α, self.MergeSortList cmp summary = some res ∧
      res.self.originalArray = self.originalArray ∧
      res.self.originalList = self.originalList) ∧
    (∃ res : SearchResult α, self.BinarySearch key cmp summary = some res ∧
      res.self.originalArray = self.originalArray ∧
      res.self.originalList = self.originalList) := by
  refine ⟨⟨rfl, rfl⟩, ⟨rfl, rfl⟩, ?_, ⟨rfl, rfl⟩, ?_, ?_⟩
  · obtain ⟨st, e, _⟩ := quickSortArray_spec self cmp summary
    exact ⟨_, e, rfl, rfl⟩
  · obtain ⟨st, e, _⟩ := mergeSortList_spec self cmp summary
    exact ⟨_, e, rfl, rfl⟩
  · obtain ⟨r, s', e, _⟩ := binarySearch_returns self key cmp summary
    exact ⟨_, e, rfl, rfl⟩

/-! ## C14, C15, C17, C18 -/

/-- C14. For every input of size `n >= 0`, in every order, and for every
comparator, `SelectionSortArray` (on the `n` cells of the source buffer) and
`SelectionSortList` (on the `n` references the source sequence yields) each report
exactly `n (n - 1) / 2` comparisons. -/
theorem selectionSort_comparisons {α : Type} (self : TSort α) (cmp : FCompareAccounts α)
    (summary : OperationSummary) :
    (self.SelectionSortArray cmp summary).summary.comparisons
      = self.originalArray.length * (self.originalArray.length - 1) / 2 ∧
    (self.SelectionSortList cmp summary).summary.comparisons
      = self.originalList.toVec.length * (self.originalList.toVec.length - 1) / 2 := by
  constructor
  · simp only [TSort.SelectionSortArray, TSort.originalArraySize, copyArray_eq]
    have h := (selectionLoops_counts cmp ⟨self.originalArray, OperationSummary.new⟩).1
    simpa [OperationSummary.new] using h
  · simp only [TSort.SelectionSortList]
    have h := (selectionLoops_counts cmp ⟨self.originalList.toVec, OperationSummary.new⟩).1
    simpa [OperationSummary.new] using h

/-- C15. For every buffer of size `n >= 1` that is already in non-decreasing order
under a sign-antisymmetric comparator, `BubbleSortArray` performs a single pass: it
reports exactly `n - 1` comparisons and zero swaps and returns the references in
their original order. -/
theorem bubbleSort_sorted_input {α : Type} (self : TSort α) (cmp : FCompareAccounts α)
    (summary : OperationSummary) (hn : 1 ≤ self.originalArray.length)
    (hanti : SignAntisymmOn cmp self.originalArray)
    (hsorted : NonDecreasing cmp self.originalArray) :
    ((self.BubbleSortArray cmp summary).summary.comparisons : Int)
      = (self.originalArray.length : Int) - 1 ∧
    (self.BubbleSortArray cmp summary).summary.swaps = 0 ∧
    (self.BubbleSortArray cmp summary).arr = self.originalArray := by
  simp only [TSort.BubbleSortArray, TSort.originalArraySize, copyArray_eq]
  obtain ⟨h1, h2, h3⟩ := bubbleLoops_noInversion cmp ⟨self.originalArray, OperationSummary.new⟩
    hn (by
      intro k hk0 hk1 hlt
      have ha : rd self.originalArray k ∈ self.originalArray :=
        rd_mem _ _ hk0 (by dsimp only at hk1; omega)
      have hb : rd self.originalArray (k + 1) ∈ self.originalArray :=
        rd_mem _ _ (by omega) (by dsimp only at hk1; omega)
      have hpos := (hanti.neg_iff hb ha).1 hlt
      have hle := hsorted k hk0 hk1
      omega)
  refine ⟨?_, ?_, h1⟩
  · rw [h2]; simp [OperationSummary.new]
  · rw [h3]; rfl

theorem bubbleSort_sorted_input_witness :
    1 ≤ (exampleEngine [some 1, some 2, some 3]).originalArray.length ∧
    SignAntisymmOn cmpNat (exampleEngine [some 1, some 2, some 3]).originalArray ∧
    NonDecreasing cmpNat (exampleEngine [some 1, some 2, some 3]).originalArray ∧
    (((exampleEngine [some 1, some 2, some 3]).BubbleSortArray cmpNat ⟨0, 0⟩).summary.comparisons
        : Int)
      = ((exampleEngine [some 1, some 2, some 3]).originalArray.length : Int) - 1 ∧
    ((exampleEngine [some 1, some 2, some 3]).BubbleSortArray cmpNat ⟨0, 0⟩).summary.swaps = 0 ∧
    ((exampleEngine [some 1, some 2, some 3]).BubbleSortArray cmpNat ⟨0, 0⟩).arr
      = (exampleEngine [some 1, some 2, some 3]).originalArray :=
  ⟨by decide, (cmpNat_totalPreorder _).1,
    nonDecreasing_of_pairwise cmpNat _ (by decide),
    bubbleSort_sorted_input (exampleEngine [some 1, some 2, some 3]) cmpNat ⟨0, 0⟩ (by decide)
      (cmpNat_totalPreorder _).1 (nonDecreasing_of_pairwise cmpNat _ (by decide))⟩

/-- C17. For every input of size `n` and every comparator, selection sort reports at
most `n - 1` swaps, in `SelectionSortArray` (`n` the size of the source buffer) and
in `SelectionSortList` (`n` the number of references of the source sequence); for
`n = 0` the natural-number difference `n - 1` is `0` and no swap is reported. -/
theorem selectionSort_swaps_bound {α : Type} (self : TSort α) (cmp : FCompareAccounts α)
    (summary : OperationSummary) :
    (self.SelectionSortArray cmp summary).summary.swaps ≤ self.originalArray.length - 1 ∧
    (self.SelectionSortList cmp summary).summary.swaps
      ≤ self.originalList.toVec.length - 1 := by
  constructor
  · simp only [TSort.SelectionSortArray, TSort.originalArraySize, copyArray_eq]
    have h := (selectionLoops_counts cmp ⟨self.originalArray, OperationSummary.new⟩).2.2.1
    simpa [OperationSummary.new] using h
  · simp only [TSort.SelectionSortList]
    have h := (selectionLoops_counts cmp ⟨self.originalList.toVec, OperationSummary.new⟩).2.2.1
    simpa [OperationSummary.new] using h

/-- C18. For every input and every comparator, if selection sort reports zero swaps
then the input was already sorted: the source holds no pair of positions `i < j`
with `cmp(a[j], a[i]) < 0`, and the result is the source order; this holds for
`SelectionSortArray` on the source buffer and for `SelectionSortList` on the
references of a source sequence built through its interface. -/
theorem selectionSort_zero_swaps {α : Type} (self : TSort α) (cmp : FCompareAccounts α)
    (summary : OperationSummary) :
    ((self.SelectionSortArray cmp summary).summary.swaps = 0 →
      (∀ i j : Int, 0 ≤ i → i < j → j < self.originalArray.length →
        ¬ cmp (rd self.originalArray j) (rd self.originalArray i) < 0) ∧
      (self.SelectionSortArray cmp summary).arr = self.originalArray) ∧
    ((self.SelectionSortList cmp summary).summary.swaps = 0 →
      self.originalList.Reachable →
      (∀ i j : Int, 0 ≤ i → i < j → j < self.originalList.toVec.length →
        ¬ cmp (rd self.originalList.toVec j) (rd self.originalList.toVec i) < 0) ∧
      (self.SelectionSortList cmp summary).list.toVec = self.originalList.toVec) := by
  constructor
  · simp only [TSort.SelectionSortArray, TSort.originalArraySize, copyArray_eq]
    intro h0
    obtain ⟨e, hno⟩ := (selectionLoops_counts cmp
      ⟨self.originalArray, OperationSummary.new⟩).2.2.2 (by rw [h0]; rfl)
    exact ⟨hno, e⟩
  · simp only [TSort.SelectionSortList]
    intro h0 hreach
    obtain ⟨e, hno⟩ := (selectionLoops_counts cmp
      ⟨self.originalList.toVec, OperationSummary.new⟩).2.2.2 (by rw [h0]; rfl)
    refine ⟨hno, ?_⟩
    rw [e, listOfVec_toVec]
    exact filter_isSome_of_noNull _ (by
      rw [TLinkedList.toVec_eq]; exact hreach.inv.2)

theorem selectionSort_zero_swaps_witness :
    ((exampleEngine [some 1, some 2, some 3]).SelectionSortArray cmpNat ⟨0, 0⟩).summary.swaps = 0 ∧
    ((exampleEngine [some 1, some 2, some 3]).SelectionSortList cmpNat ⟨0, 0⟩).summary.swaps = 0 ∧
    (exampleEngine [some 1, some 2, some 3]).originalList.Reachable ∧
    ((∀ i j : Int, 0 ≤ i → i < j →
        j < (exampleEngine [some 1, some 2, some 3]).originalArray.length →
        ¬ cmpNat (rd (exampleEngine [some 1, some 2, some 3]).originalArray j)
          (rd (exampleEngine [some 1, some 2, some 3]).originalArray i) < 0) ∧
      ((exampleEngine [some 1, some 2, some 3]).SelectionSortArray cmpNat ⟨0, 0⟩).arr
        = (exampleEngine [some 1, some 2, some 3]).originalArray) ∧
    ((∀ i j : Int, 0 ≤ i → i < j →
        j < (exampleEngine [some 1, some 2, some 3]).originalList.toVec.length →
        ¬ cmpNat (rd (exampleEngine [some 1, some 2, some 3]).originalList.toVec j)
          (rd (exampleEngine [some 1, some 2, some 3]).originalList.toVec i) < 0) ∧
      ((exampleEngine [some 1, some 2, some 3]).SelectionSortList cmpNat ⟨0, 0⟩).list.toVec
        = (exampleEngine [some 1, some 2, some 3]).originalList.toVec) :=
  ⟨by decide, by decide, listOfVec_reachable _,
    (selectionSort_zero_swaps (exampleEngine [some 1, some 2, some 3]) cmpNat ⟨0, 0⟩).1
      (by decide),
    (selectionSort_zero_swaps (exampleEngine [some 1, some 2, some 3]) cmpNat ⟨0, 0⟩).2
      (by decide) (listOfVec_reachable _)⟩

/-! ## The engine: what the summaries depend on -/

theorem quickSortArray_summary {α : Type} (self : TSort α) (cmp : FCompareAccounts α)
    (summary : OperationSummary) :
    (self.QuickSortArray cmp summary).map (fun r => r.summary)
      = (QuickSortRecursive cmp self.originalArray.length
          ⟨self.originalArray, OperationSummary.new⟩ 0
          ((self.originalArray.length : Int) - 1)).map (fun st => st.summary) := by
  simp only [TSort.QuickSortArray, TSort.originalArraySize, copyArray_eq, Int.toNat_ofNat]
  cases QuickSortRecursive cmp self.originalArray.length
    ⟨self.originalArray, OperationSummary.new⟩ 0 ((self.originalArray.length : Int) - 1) <;> rfl

theorem mergeSortList_summary {α : Type} (self : TSort α) (cmp : FCompareAccounts α)
    (summary : OperationSummary) :
    (self.MergeSortList cmp summary).map (fun r => r.summary)
      = (MergeSortRecursive cmp self.originalList.toVec.length
          ⟨self.originalList.toVec, OperationSummary.new⟩ 0
          ((self.originalList.toVec.length : Int) - 1)).map (fun st => st.summary) := by
  simp only [TSort.MergeSortList]
  cases MergeSortRecursive cmp self.originalList.toVec.length
    ⟨self.originalList.toVec, OperationSummary.new⟩ 0
    ((self.originalList.toVec.length : Int) - 1) <;> rfl

theorem binarySearch_summary {α : Type} (self1 self2 : TSort α) (key : Ptr α)
    (cmp : FCompareAccounts α) (s1 s2 : OperationSummary)
    (hv : self1.isArraySorted = self2.isArraySorted)
    (hc : self1.sortedArray = self2.sortedArray)
    (hn : self1.sortedArraySize = self2.sortedArraySize) :
    (self1.BinarySearch key cmp s1).map (fun r => (r.found, r.summary))
      = (self2.BinarySearch key cmp s2).map (fun r => (r.found, r.summary)) := by
  simp only [TSort.BinarySearch, hv, hc, hn]
  rcases self2.isArraySorted with _ | _
  · rfl
  · rcases self2.sortedArray with _ | A
    · rfl
    · dsimp only
      cases BinarySearchRecursive A key cmp self2.sortedArraySize.toNat 0
        (self2.sortedArraySize - 1) OperationSummary.new <;> rfl

/-! ## C19, C20 -/

/-- C19. The comparison and swap counts reported by each sort and by `BinarySearch`
depend on the data and the comparator only: two engines with the same source
buffer (for the buffer sorts), the same source sequence (for the list sorts), the
same cache (for the search, with the same key) report the same summary, whatever
the summary arguments held before the calls and whatever else the engines hold, the
cache before a sort included. -/
theorem counts_depend_on_data_only {α : Type} (self1 self2 : TSort α) (key : Ptr α)
    (cmp : FCompareAccounts α) (s1 s2 : OperationSummary) :
    (self1.originalArray = self2.originalArray →
      (self1.SelectionSortArray cmp s1).summary = (self2.SelectionSortArray cmp s2).summary ∧
      (self1.BubbleSortArray cmp s1).summary = (self2.BubbleSortArray cmp s2).summary ∧
      ∃ r1 r2 : ArrayResult α, self1.QuickSortArray cmp s1 = some r1 ∧
        self2.QuickSortArray cmp s2 = some r2 ∧ r1.summary = r2.summary) ∧
    (self1.originalList.toVec = self2.originalList.toVec →
      (self1.SelectionSortList cmp s1).summary = (self2.SelectionSortList cmp s2).summary ∧
      ∃ r1 r2 : ListResult α, self1.MergeSortList cmp s1 = some r1 ∧
        self2.MergeSortList cmp s2 = some r2 ∧ r1.summary = r2.summary) ∧
    (self1.isArraySorted = self2.isArraySorted → self1.sortedArray = self2.sortedArray →
      self1.sortedArraySize = self2.sortedArraySize →
      ∃ r1 r2 : SearchResult α, self1.BinarySearch key cmp s1 = some r1 ∧
        self2.BinarySearch key cmp s2 = some r2 ∧ r1.summary = r2.summary) := by
  refine ⟨?_, ?_, ?_⟩
  · intro hA
    refine ⟨?_, ?_, ?_⟩
    · simp only [TSort.SelectionSortArray, TSort.originalArraySize, hA]
    · simp only [TSort.BubbleSortArray, TSort.originalArraySize, hA]
    · obtain ⟨st1, e1, _⟩ := quickSortArray_spec self1 cmp s1
      obtain ⟨st2, e2, _⟩ := quickSortArray_spec self2 cmp s2
      refine ⟨_, _, e1, e2, ?_⟩
      have h1 := quickSortArray_summary self1 cmp s1
      have h2 := quickSortArray_summary self2 cmp s2
      rw [hA, ← h2, e1, e2] at h1
      simpa using h1
  · intro hL
    refine ⟨?_, ?_⟩
    · simp only [TSort.SelectionSortList, hL]
    · obtain ⟨st1, e1, _⟩ := mergeSortList_spec self1 cmp s1
      obtain ⟨st2, e2, _⟩ := mergeSortList_spec self2 cmp s2
      refine ⟨_, _, e1, e2, ?_⟩
      have h1 := mergeSortList_summary self1 cmp s1
      have h2 := mergeSortList_summary self2 cmp s2
      rw [hL, ← h2, e1, e2] at h1
      simpa using h1
  · intro hv hc hn
    obtain ⟨r1, t1, e1, _⟩ := binarySearch_returns self1 key cmp s1
    obtain ⟨r2, t2, e2, _⟩ := binarySearch_returns self2 key cmp s2
    refine ⟨_, _, e1, e2, ?_⟩
    have h := binarySearch_summary self1 self2 key cmp s1 s2 hv hc hn
    rw [e1, e2] at h
    simp only [Option.map_some', Option.some.injEq, Prod.mk.injEq] at h
    exact h.2

theorem counts_depend_on_data_only_witness :
    (((exampleEngine [some 3, some 1, some 2]).SelectionSortArray cmpNat ⟨0, 0⟩).self.originalArray
        = ((exampleEngine [some 3, some 1, some 2]).BubbleSortArray cmpNat ⟨0, 0⟩).self.originalArray ∧
      ((exampleEngine [some 3, some 1, some 2]).SelectionSortArray cmpNat ⟨0, 0⟩).self.originalList.toVec
        = ((exampleEngine [some 3, some 1, some 2]).BubbleSortArray cmpNat
            ⟨0, 0⟩).self.originalList.toVec ∧
      ((exampleEngine [some 3, some 1, some 2]).SelectionSortArray cmpNat ⟨0, 0⟩).self.isArraySorted
        = ((exampleEngine [some 3, some 1, some 2]).BubbleSortArray cmpNat ⟨0, 0⟩).self.isArraySorted ∧
      ((exampleEngine [some 3, some 1, some 2]).SelectionSortArray cmpNat ⟨0, 0⟩).self.sortedArray
        = ((exampleEngine [some 3, some 1, some 2]).BubbleSortArray cmpNat ⟨0, 0⟩).self.sortedArray ∧
      ((exampleEngine [some 3, some 1, some 2]).SelectionSortArray cmpNat ⟨0, 0⟩).self.sortedArraySize
        = ((exampleEngine [some 3, some 1, some 2]).BubbleSortArray cmpNat
            ⟨0, 0⟩).self.sortedArraySize) ∧
    (((exampleEngine [some 3, some 1, some 2]).SelectionSortArray cmpNat ⟨0, 0⟩).self.SelectionSortArray
        cmpNat ⟨4, 2⟩).summary
      = (((exampleEngine [some 3, some 1, some 2]).BubbleSortArray cmpNat ⟨0, 0⟩).self.SelectionSortArray
        cmpNat ⟨7, 9⟩).summary ∧
    (((exampleEngine [some 3, some 1, some 2]).SelectionSortArray cmpNat ⟨0, 0⟩).self.SelectionSortList
        cmpNat ⟨4, 2⟩).summary
      = (((exampleEngine [some 3, some 1, some 2]).BubbleSortArray cmpNat ⟨0, 0⟩).self.SelectionSortList
        cmpNat ⟨7, 9⟩).summary ∧
    ∃ r1 r2 : SearchResult Nat,
      ((exampleEngine [some 3, some 1, some 2]).SelectionSortArray cmpNat ⟨0, 0⟩).self.BinarySearch
        (some 2) cmpNat ⟨4, 2⟩ = some r1 ∧
      ((exampleEngine [some 3, some 1, some 2]).BubbleSortArray cmpNat ⟨0, 0⟩).self.BinarySearch
        (some 2) cmpNat ⟨7, 9⟩ = some r2 ∧ r1.summary = r2.summary :=
  ⟨⟨by decide, by decide, by decide, by decide, by decide⟩,
    ((counts_depend_on_data_only
      ((exampleEngine [some 3, some 1, some 2]).SelectionSortArray cmpNat ⟨0, 0⟩).self
      ((exampleEngine [some 3, some 1, some 2]).BubbleSortArray cmpNat ⟨0, 0⟩).self
      (some 2) cmpNat ⟨4, 2⟩ ⟨7, 9⟩).1 (by decide)).1,
    ((counts_depend_on_data_only
      ((exampleEngine [some 3, some 1, some 2]).SelectionSortArray cmpNat ⟨0, 0⟩).self
      ((exampleEngine [some 3, some 1, some 2]).BubbleSortArray cmpNat ⟨0, 0⟩).self
      (some 2) cmpNat ⟨4, 2⟩ ⟨7, 9⟩).2.1 (by decide)).1,
    (counts_depend_on_data_only
      ((exampleEngine [some 3, some 1, some 2]).SelectionSortArray cmpNat ⟨0, 0⟩).self
      ((exampleEngine [some 3, some 1, some 2]).BubbleSortArray cmpNat ⟨0, 0⟩).self
      (some 2) cmpNat ⟨4, 2⟩ ⟨7, 9⟩).2.2 (by decide) (by decide) (by decide)⟩

/-- C20. `SelectionSortList` runs the same algorithm as `SelectionSortArray`:
whenever the source sequence (built through its interface) yields the same
references in the same order as the source buffer holds, the sequence returned by
`SelectionSortList` yields, position by position, exactly the references of the
buffer returned by `SelectionSortArray`, and both report equal comparisons and
equal swaps, for every comparator. -/
theorem selectionSortList_matches_array {α : Type} (self : TSort α)
    (cmp : FCompareAccounts α) (s1 s2 : OperationSummary)
    (hreach : self.originalList.Reachable)
    (hsame : self.originalList.toVec = self.originalArray) :
    (self.SelectionSortList cmp s1).list.toVec = (self.SelectionSortArray cmp s2).arr ∧
    (self.SelectionSortList cmp s1).summary.comparisons
      = (self.SelectionSortArray cmp s2).summary.comparisons ∧
    (self.SelectionSortList cmp s1).summary.swaps
      = (self.SelectionSortArray cmp s2).summary.swaps := by
  simp only [TSort.SelectionSortList, TSort.SelectionSortArray, TSort.originalArraySize,
    copyArray_eq, hsame]
  refine ⟨?_, trivial, trivial⟩
  rw [listOfVec_toVec]
  apply filter_isSome_of_noNull
  intro p hp
  have hP := selectionLoops_perm cmp ⟨self.originalArray, OperationSummary.new⟩
  have hmem : p ∈ self.originalList.toVec := by
    rw [hsame]; exact hP.mem_iff.1 hp
  rw [TLinkedList.toVec_eq] at hmem
  exact hreach.inv.2 p hmem

theorem selectionSortList_matches_array_witness :
    (exampleEngine [some 3, some 1, some 2]).originalList.Reachable ∧
    (exampleEngine [some 3, some 1, some 2]).originalList.toVec
      = (exampleEngine [some 3, some 1, some 2]).originalArray ∧
    ((exampleEngine [some 3, some 1, some 2]).SelectionSortList cmpNat ⟨0, 0⟩).list.toVec
      = ((exampleEngine [some 3, some 1, some 2]).SelectionSortArray cmpNat ⟨1, 1⟩).arr ∧
    ((exampleEngine [some 3, some 1, some 2]).SelectionSortList cmpNat ⟨0, 0⟩).summary.comparisons
      = ((exampleEngine [some 3, some 1, some 2]).SelectionSortArray cmpNat
          ⟨1, 1⟩).summary.comparisons ∧
    ((exampleEngine [some 3, some 1, some 2]).SelectionSortList cmpNat ⟨0, 0⟩).summary.swaps
      = ((exampleEngine [some 3, some 1, some 2]).SelectionSortArray cmpNat ⟨1, 1⟩).summary.swaps :=
  ⟨listOfVec_reachable _, by decide,
    selectionSortList_matches_array (exampleEngine [some 3, some 1, some 2]) cmpNat ⟨0, 0⟩ ⟨1, 1⟩
      (listOfVec_reachable _) (by decide)⟩

theorem rank_signs {α : Type} (cmp : FCompareAccounts α) (r : Fin 6 → α)
    (hord : ∀ x y : Fin 6,
      Int.sign (cmp (some (r x)) (some (r y))) = Int.sign ((x : Int) - (y : Int)))
    (x y : Fin 6) :
    (cmp (some (r x)) (some (r y)) < 0 ↔ x < y) ∧
    (cmp (some (r x)) (some (r y)) = 0 ↔ x = y) := by
  have h := hord x y
  have a1 := @Int.sign_eq_neg_one_iff_neg (cmp (some (r x)) (some (r y)))
  have a2 := @Int.sign_eq_zero_iff_zero (cmp (some (r x)) (some (r y)))
  have b1 := @Int.sign_eq_neg_one_iff_neg ((x : Int) - (y : Int))
  have b2 := @Int.sign_eq_zero_iff_zero ((x : Int) - (y : Int))
  rw [h] at a1 a2
  constructor
  · rw [← a1, b1, Fin.lt_def]; omega
  · rw [← a2, b2, Fin.ext_iff]; omega

/-- C16. Concrete scenario: for six distinct records `r 0 < r 1 < ... < r 5`
(`A, B, C, D, E, F`; the sign of the comparator is the sign of the difference of
the indices) and the source buffer `[C, A, E, B, D]`, `SelectionSortArray` returns
`[A, B, C, D, E]` with `comparisons = 10` and `swaps <= 4` (exactly 4); a following
`BinarySearch` for `C` returns the record `C` using at most 3 comparisons (exactly
1); a following `BinarySearch` for `F`, greater than `E`, returns not-found. -/
theorem concrete_scenario {α : Type} (cmp : FCompareAccounts α) (r : Fin 6 → α)
    (hord : ∀ x y : Fin 6,
      Int.sign (cmp (some (r x)) (some (r y))) = Int.sign ((x : Int) - (y : Int)))
    (aList : TLinkedList α) (s0 s1 s2 : OperationSummary) :
    ((TSort.new aList [some (r 2), some (r 0), some (r 4), some (r 1), some (r 3)]
        ).SelectionSortArray cmp s0).arr
      = [some (r 0), some (r 1), some (r 2), some (r 3), some (r 4)] ∧
    ((TSort.new aList [some (r 2), some (r 0), some (r 4), some (r 1), some (r 3)]
        ).SelectionSortArray cmp s0).summary.comparisons = 10 ∧
    ((TSort.new aList [some (r 2), some (r 0), some (r 4), some (r 1), some (r 3)]
        ).SelectionSortArray cmp s0).summary.swaps ≤ 4 ∧
    (∃ res : SearchResult α,
      ((TSort.new aList [some (r 2), some (r 0), some (r 4), some (r 1), some (r 3)]
        ).SelectionSortArray cmp s0).self.BinarySearch (some (r 2)) cmp s1 = some res ∧
      res.found = some (r 2) ∧ res.summary.comparisons ≤ 3) ∧
    (∃ res : SearchResult α,
      ((TSort.new aList [some (r 2), some (r 0), some (r 4), some (r 1), some (r 3)]
        ).SelectionSortArray cmp s0).self.BinarySearch (some (r 5)) cmp s2 = some res ∧
      res.found = none) := by
  have hlt := fun x y => (rank_signs cmp r hord x y).1
  have heq := fun x y => (rank_signs cmp r hord x y).2
  have hsort : selectionLoops cmp 5
      ⟨[some (r 2), some (r 0), some (r 4), some (r 1), some (r 3)], OperationSummary.new⟩
      = ⟨[some (r 0), some (r 1), some (r 2), some (r 3), some (r 4)], ⟨10, 4⟩⟩ := by
    simp [selectionLoops, forRange, forLoop, selectionOuterBody, selectionInnerBody, rd, wr,
      swap, hlt, OperationSummary.incComparisons, OperationSummary.incSwaps,
      OperationSummary.new]
  have hcopy : ∀ l : List (Ptr α), l.length = 5 → copyArray l 5 = l := by
    intro l hl
    have := copyArray_eq l
    rwa [hl] at this
  have hres : (TSort.new aList [some (r 2), some (r 0), some (r 4), some (r 1), some (r 3)]
      ).SelectionSortArray cmp s0
      = ⟨[some (r 0), some (r 1), some (r 2), some (r 3), some (r 4)], ⟨10, 4⟩,
          ⟨aList, [some (r 2), some (r 0), some (r 4), some (r 1), some (r 3)],
            some [some (r 0), some (r 1), some (r 2), some (r 3), some (r 4)], 5, true⟩⟩ := by
    have e5 : (([some (r 2), some (r 0), some (r 4), some (r 1), some (r 3)] :
        List (Ptr α)).length : Int) = 5 := by simp
    simp only [TSort.SelectionSortArray, TSort.new, TSort.originalArraySize, TSort.refreshCache]
    rw [e5, hcopy _ (by simp), hsort]
    dsimp only
    rw [hcopy _ (by simp)]
  rw [hres]
  refine ⟨rfl, rfl, by simp, ?_, ?_⟩
  · refine ⟨_, binarySearch_valid _ [some (r 0), some (r 1), some (r 2), some (r 3), some (r 4)]
      (some (r 2)) cmp s1 rfl rfl (some (r 2)) ⟨1, 0⟩ ?_, rfl, by simp⟩
    simp [BinarySearchRecursive, cdiv_two, rd, hlt, heq, OperationSummary.incComparisons,
      OperationSummary.new]
  · refine ⟨_, binarySearch_valid _ [some (r 0), some (r 1), some (r 2), some (r 3), some (r 4)]
      (some (r 5)) cmp s2 rfl rfl none ⟨3, 0⟩ ?_, rfl⟩
    simp [BinarySearchRecursive, cdiv_two, rd, hlt, heq, OperationSummary.incComparisons,
      OperationSummary.new]

theorem concrete_scenario_witness :
    (∀ x y : Fin 6, Int.sign (cmpNat (some ((fun i : Fin 6 => i.val) x))
        (some ((fun i : Fin 6 => i.val) y))) = Int.sign ((x : Int) - (y : Int))) ∧
    (((TSort.new (listOfVec []) [some 2, some 0, some 4, some 1, some 3]
        ).SelectionSortArray cmpNat ⟨0, 0⟩).arr
      = [some 0, some 1, some 2, some 3, some 4] ∧
    ((TSort.new (listOfVec []) [some 2, some 0, some 4, some 1, some 3]
        ).SelectionSortArray cmpNat ⟨0, 0⟩).summary.comparisons = 10 ∧
    ((TSort.new (listOfVec []) [some 2, some 0, some 4, some 1, some 3]
        ).SelectionSortArray cmpNat ⟨0, 0⟩).summary.swaps ≤ 4 ∧
    (∃ res : SearchResult Nat,
      ((TSort.new (listOfVec []) [some 2, some 0, some 4, some 1, some 3]
        ).SelectionSortArray cmpNat ⟨0, 0⟩).self.BinarySearch (some 2) cmpNat ⟨0, 0⟩ = some res ∧
      res.found = some 2 ∧ res.summary.comparisons ≤ 3) ∧
    (∃ res : SearchResult Nat,
      ((TSort.new (listOfVec []) [some 2, some 0, some 4, some 1, some 3]
        ).SelectionSortArray cmpNat ⟨0, 0⟩).self.BinarySearch (some 5) cmpNat ⟨0, 0⟩ = some res ∧
      res.found = none)) :=
  ⟨by decide,
    concrete_scenario cmpNat (fun i : Fin 6 => i.val) (by decide) (listOfVec []) ⟨0, 0⟩ ⟨0, 0⟩
      ⟨0, 0⟩⟩

/-! ## TLinkedList: clear and remove -/

theorem clearLoop_eq {α : Type} (owns : Bool) :
    ∀ (chain log : List (Ptr α)),
      clearLoop chain owns log = log ++ (if owns then chain else [])
  | [], log => by cases owns <;> simp [clearLoop]
  | d :: rest, log => by
    rw [clearLoop, clearLoop_eq owns rest]
    cases owns <;> simp

/-- The records `clear()` destroys: those of all links, front to back, when the
list owns its data; none otherwise. -/
theorem clearDestroyed_eq {α : Type} (l : TLinkedList α) :
    l.clearDestroyed = if l.ownsData then l.toVec else [] := by
  simp [TLinkedList.clearDestroyed, clearLoop_eq, TLinkedList.toVec_eq]

theorem removeSearch_absent {α : Type} [DecidableEq α] (p : Ptr α) :
    ∀ (rest : List (Ptr α)) (pos : Nat), p ∉ rest →
      removeSearch p rest pos = pos + rest.length
  | [], pos, _ => by simp [removeSearch]
  | d :: rest, pos, h => by
    have hd : d ≠ p := fun e => h (e ▸ List.mem_cons_self _ _)
    have hr : p ∉ rest := fun e => h (List.mem_cons_of_mem _ e)
    rw [removeSearch, if_pos hd, removeSearch_absent p rest _ hr]
    simp; omega

theorem removeSearch_present {α : Type} [DecidableEq α] (p : Ptr α) :
    ∀ (rest : List (Ptr α)) (pos : Nat), p ∈ rest →
      ∃ pre post : List (Ptr α), rest = pre ++ p :: post ∧ p ∉ pre ∧
        removeSearch p rest pos = pos + pre.length
  | [], pos, h => by simp at h
  | d :: rest, pos, h => by
    by_cases hd : d = p
    · subst hd
      exact ⟨[], rest, rfl, by simp, by simp [removeSearch]⟩
    · have hr : p ∈ rest := by
        rcases List.mem_cons.1 h with e | e
        · exact absurd e.symm hd
        · exact e
      obtain ⟨pre, post, e1, e2, e3⟩ := removeSearch_present p rest (pos + 1) hr
      refine ⟨d :: pre, post, by rw [e1]; rfl, ?_, ?_⟩
      · intro hc
        rcases List.mem_cons.1 hc with e | e
        · exact hd e.symm
        · exact e2 e
      · rw [removeSearch, if_pos hd, e3]; simp; omega

theorem eraseIdx_append_cons {α : Type} (x : α) (post : List α) :
    ∀ pre : List α, (pre ++ x :: post).eraseIdx pre.length = pre ++ post
  | [] => rfl
  | y :: pre => by simp [eraseIdx_append_cons x post pre]

theorem getD_append_cons {α : Type} (x d : α) (post : List α) :
    ∀ pre : List α, (pre ++ x :: post).getD pre.length d = x
  | [] => rfl
  | y :: pre => by
    have ih := getD_append_cons x d post pre
    simpa [List.getD_cons_succ] using ih

/-- What `remove` does on a well-formed list: a null pointer or a reference that
does not occur changes nothing and yields `false`; otherwise the first link that
holds the reference is unlinked, the size drops by one, the list stays well formed,
and the record is destroyed exactly when the list owns its data. -/
theorem remove_spec {α : Type} [DecidableEq α] (l : TLinkedList α) (p : Ptr α)
    (h : l.WellFormed) :
    (p = none ∨ p ∉ l.head → l.remove p = ⟨false, l, []⟩) ∧
    (p ≠ none → p ∈ l.head →
      (l.remove p).removed = true ∧
      (∃ pre post : List (Ptr α), l.head = pre ++ p :: post ∧ p ∉ pre ∧
        (l.remove p).list.head = pre ++ post) ∧
      (l.remove p).list.size + 1 = l.size ∧
      (l.remove p).list.ownsData = l.ownsData ∧
      (l.remove p).list.WellFormed ∧
      (l.remove p).destroyed = if l.ownsData then [p] else []) := by
  obtain ⟨hs, ht⟩ := h
  rcases l with ⟨hd, tl, owns, sz⟩
  dsimp only at hs ht
  cases hd with
  | nil =>
    constructor
    · intro _; simp [TLinkedList.remove]
    · intro _ hm; simp at hm
  | cons d rest =>
    cases p with
    | none =>
      constructor
      · intro _; simp [TLinkedList.remove]
      · intro hn; exact absurd rfl hn
    | some a =>
      simp only [List.length_cons, Nat.add_one_ne_zero, if_false, Nat.add_sub_cancel] at ht
      subst ht hs
      by_cases hda : d = some a
      · subst hda
        constructor
        · intro hc
          rcases hc with hc | hc
          · cases hc
          · exact absurd (List.mem_cons_self _ _) hc
        · intro _ _
          simp only [TLinkedList.remove, if_true, TLinkedList.WellFormed]
          refine ⟨trivial, ⟨[], rest, rfl, by simp, rfl⟩, by simp, trivial, ?_, trivial⟩
          cases rest with
          | nil => simp
          | cons x xs => simp
      · by_cases hm : some a ∈ rest
        · obtain ⟨pre, post, e1, e2, e3⟩ := removeSearch_present (some a) rest 0 hm
          constructor
          · intro hc
            rcases hc with hc | hc
            · cases hc
            · exact absurd (List.mem_cons_of_mem _ hm) hc
          · intro _ _
            have hcur : removeSearch (some a) rest 0 + 1 < (d :: rest).length := by
              rw [e3, e1]; simp
            have hnd : some a ∉ d :: pre := by
              intro hc
              rcases List.mem_cons.1 hc with e | e
              · exact hda e.symm
              · exact e2 e
            simp only [TLinkedList.remove, hda, if_false, hcur, if_true, TLinkedList.WellFormed]
            rw [e3]
            simp only [Nat.zero_add, List.eraseIdx_cons_succ, List.getD_cons_succ]
            rw [e1, eraseIdx_append_cons, getD_append_cons]
            refine ⟨trivial, ⟨d :: pre, post, rfl, hnd, rfl⟩, by simp, trivial,
              ⟨by simp; omega, ?_⟩, rfl⟩
            simp only [List.length_cons, List.length_append, Option.map_some',
              Nat.add_one_ne_zero, if_false, Nat.add_sub_cancel]
            congr 1
            split
            · omega
            · split
              · omega
              · omega
        · constructor
          · intro _
            have hcur : ¬ removeSearch (some a) rest 0 + 1 < (d :: rest).length := by
              rw [removeSearch_absent (some a) rest 0 hm]; simp
            simp only [TLinkedList.remove, hda, if_false, hcur]
          · intro _ hmem
            rcases List.mem_cons.1 hmem with hmem | hmem
            · exact absurd hmem.symm hda
            · exact absurd hmem hm

/-- Every list built with `add`, `remove` and `clear` is well formed and holds no
null reference. -/
theorem reachableWithRemove_inv {α : Type} [DecidableEq α] {l : TLinkedList α}
    (h : l.ReachableWithRemove) : l.WellFormed ∧ ∀ p ∈ l.head, p ≠ none := by
  induction h with
  | new owns => exact ⟨TLinkedList.wellFormed_new owns, by simp [TLinkedList.new]⟩
  | @add l p _ ih =>
    cases p with
    | none => simpa [TLinkedList.add_none] using ih
    | some a =>
      obtain ⟨h1, _, _, h4⟩ := TLinkedList.add_some l a ih.1
      refine ⟨h4, ?_⟩
      rw [h1]
      intro p hp
      rcases List.mem_append.1 hp with hp | hp
      · exact ih.2 p hp
      · simp at hp; simp [hp]
  | @remove l p _ ih =>
    obtain ⟨hno, hyes⟩ := remove_spec l p ih.1
    by_cases hc : p = none ∨ p ∉ l.head
    · rw [hno hc]; exact ih
    · have hn : p ≠ none := fun e => hc (Or.inl e)
      have hm : p ∈ l.head := by
        by_contra hcon; exact hc (Or.inr hcon)
      obtain ⟨_, ⟨pre, post, e1, _, e2⟩, _, _, h5, _⟩ := hyes hn hm
      refine ⟨h5, ?_⟩
      rw [e2]
      intro q hq
      apply ih.2 q
      rw [e1]
      rcases List.mem_append.1 hq with hq | hq
      · exact List.mem_append_left _ hq
      · exact List.mem_append_right _ (List.mem_cons_of_mem _ hq)
  | clear _ _ => simp [TLinkedList.cleared, TLinkedList.WellFormed]

theorem clearRun_borrowed {α : Type} [DecidableEq α] :
    ∀ (chain deleted : List (Ptr α)), clearRun chain false deleted = some ([], deleted)
  | [], _ => rfl
  | _ :: rest, deleted => by
    simp only [clearRun, Bool.false_eq_true, if_false]
    exact clearRun_borrowed rest deleted

/-- The loop of `clear()` on an owning list: it has a result exactly when no
record is deleted twice; the chain is then used up and every reference of it has
been passed to `delete`. -/
theorem clearRun_owning {α : Type} [DecidableEq α] :
    ∀ (chain deleted : List (Ptr α)), (deleted.filter (fun p => p.isSome)).Nodup →
      clearRun chain true deleted
        = if ((deleted ++ chain).filter (fun p => p.isSome)).Nodup
          then some ([], deleted ++ chain) else none
  | [], deleted, h => by
    simp only [clearRun, List.append_nil, h, if_true]
  | d :: rest, deleted, h => by
    simp only [clearRun, if_true]
    by_cases hd : d ≠ none ∧ d ∈ deleted
    · rw [if_pos hd, if_neg]
      intro hn
      rw [List.filter_append, List.nodup_append] at hn
      have hs : d.isSome = true := Option.isSome_iff_ne_none.2 hd.1
      exact hn.2.2 (List.mem_filter.2 ⟨hd.2, hs⟩)
        (List.mem_filter.2 ⟨List.mem_cons_self _ _, hs⟩)
    · rw [if_neg hd]
      have h1 : ((deleted ++ [d]).filter (fun p => p.isSome)).Nodup := by
        rw [List.filter_append, List.nodup_append]
        refine ⟨h, (List.nodup_singleton d).sublist (List.filter_sublist _), ?_⟩
        intro x hx1 hx2
        have e : x = d := List.mem_singleton.1 (List.mem_filter.1 hx2).1
        subst e
        exact hd ⟨Option.isSome_iff_ne_none.1 (List.mem_filter.1 hx1).2,
          (List.mem_filter.1 hx1).1⟩
      rw [clearRun_owning rest (deleted ++ [d]) h1]
      simp only [List.append_assoc, List.singleton_append]

/-- `clear()` returns exactly when the list is not owning or its non-null
references are pairwise distinct, and it then leaves the emptied list. -/
theorem clear_eq {α : Type} [DecidableEq α] (l : TLinkedList α) :
    l.clear = if (l.ownsData = true → (l.toVec.filter (fun p => p.isSome)).Nodup)
      then some l.cleared else none := by
  have key : ∀ o : Bool, clearRun l.head o []
      = if (o = true → (l.head.filter (fun p => p.isSome)).Nodup)
        then some ([], if o then l.head else []) else none := by
    intro o
    cases o
    · rw [clearRun_borrowed]; simp
    · rw [clearRun_owning l.head [] (by simp)]; simp
  unfold TLinkedList.clear
  rw [TLinkedList.toVec_eq, key]
  by_cases h : (l.ownsData = true → (l.head.filter (fun p => p.isSome)).Nodup)
  · simp only [if_pos h]
    rfl
  · simp only [if_neg h]

/-! ## C21 - C25, C29 -/

/-- C21. For every sequence state (built by `add` and `clear` from a new list) and
every non-null reference `r`, `add(r)` increases `getSize()` by exactly one, and
iterating from `begin()` to `end()` afterwards yields the previously contained
references in their previous order followed by `r`. -/
theorem add_appends {α : Type} (l : TLinkedList α) (h : l.Reachable) (r : α) :
    (l.add (some r)).getSize = l.getSize + 1 ∧
    (l.add (some r)).toVec = l.toVec ++ [some r] := by
  obtain ⟨h1, h2, _, _⟩ := TLinkedList.add_some l r h.inv.1
  exact ⟨h2, by rw [TLinkedList.toVec_eq, TLinkedList.toVec_eq, h1]⟩

theorem add_appends_witness :
    (listOfVec [some 1, some 2] : TLinkedList Nat).Reachable ∧
    ((listOfVec [some 1, some 2] : TLinkedList Nat).add (some 3)).getSize
      = (listOfVec [some 1, some 2] : TLinkedList Nat).getSize + 1 ∧
    ((listOfVec [some 1, some 2] : TLinkedList Nat).add (some 3)).toVec
      = (listOfVec [some 1, some 2] : TLinkedList Nat).toVec ++ [some 3] :=
  ⟨listOfVec_reachable _, add_appends (listOfVec [some 1, some 2]) (listOfVec_reachable _) 3⟩

/-- C22. Invariant of the sequence: after any finite series of `add`, `remove` and
`clear` operations starting from a newly constructed sequence, `getSize()` equals
the number of links reachable from `head`, `isEmpty()` is true exactly when that
number is 0, and `tail` designates the last link (it is null when the sequence is
empty). -/
theorem sequence_invariant {α : Type} [DecidableEq α] (l : TLinkedList α)
    (h : l.ReachableWithRemove) :
    l.getSize = l.head.length ∧
    (l.isEmpty = true ↔ l.head.length = 0) ∧
    l.tail = (if l.head.length = 0 then none else some (l.head.length - 1)) := by
  obtain ⟨⟨h1, h2⟩, _⟩ := reachableWithRemove_inv h
  refine ⟨h1, ?_, h2⟩
  simp [TLinkedList.isEmpty, List.isEmpty_iff]

theorem sequence_invariant_witness :
    ((((TLinkedList.new true : TLinkedList Nat).add (some 1)).add (some 2)).remove
      (some 1)).list.ReachableWithRemove ∧
    ((((TLinkedList.new true : TLinkedList Nat).add (some 1)).add (some 2)).remove
        (some 1)).list.getSize
      = ((((TLinkedList.new true : TLinkedList Nat).add (some 1)).add (some 2)).remove
        (some 1)).list.head.length ∧
    (((((TLinkedList.new true : TLinkedList Nat).add (some 1)).add (some 2)).remove
        (some 1)).list.isEmpty = true
      ↔ ((((TLinkedList.new true : TLinkedList Nat).add (some 1)).add (some 2)).remove
        (some 1)).list.head.length = 0) ∧
    ((((TLinkedList.new true : TLinkedList Nat).add (some 1)).add (some 2)).remove
        (some 1)).list.tail
      = (if ((((TLinkedList.new true : TLinkedList Nat).add (some 1)).add (some 2)).remove
          (some 1)).list.head.length = 0 then none
        else some (((((TLinkedList.new true : TLinkedList Nat).add (some 1)).add (some 2)).remove
          (some 1)).list.head.length - 1)) :=
  ⟨TLinkedList.ReachableWithRemove.remove _ (TLinkedList.ReachableWithRemove.add _
      (TLinkedList.ReachableWithRemove.add _ (TLinkedList.ReachableWithRemove.new true))),
    sequence_invariant _ (TLinkedList.ReachableWithRemove.remove _
      (TLinkedList.ReachableWithRemove.add _
        (TLinkedList.ReachableWithRemove.add _ (TLinkedList.ReachableWithRemove.new true))))⟩

/-- C23, as stated, fails on an owning sequence that holds one reference twice:
the list built by `add(1); add(1)` on a new owning list is a state of the program,
and `clear()` on it deletes the record `1` a second time, which is undefined
behaviour: the call has no result. -/
theorem clear_undefined_on_repeated_reference :
    ([some 1, some 1].foldl TLinkedList.add (TLinkedList.new true) :
      TLinkedList Nat).Reachable ∧
    ([some 1, some 1].foldl TLinkedList.add (TLinkedList.new true) :
      TLinkedList Nat).ownsData = true ∧
    ([some 1, some 1].foldl TLinkedList.add (TLinkedList.new true) :
      TLinkedList Nat).toVec = [some 1, some 1] ∧
    ([some 1, some 1].foldl TLinkedList.add (TLinkedList.new true) :
      TLinkedList Nat).clear.isNone = true :=
  ⟨show (((TLinkedList.new true).add (some 1)).add (some 1) : TLinkedList Nat).Reachable from
      TLinkedList.Reachable.add (some 1)
        (TLinkedList.Reachable.add (some 1) (TLinkedList.Reachable.new true)),
    by decide, by decide, by decide⟩

/-- C23 (amended). For every sequence that is not owning, and for every owning
sequence that holds pairwise distinct references (to records that are alive),
`clear()` returns and leaves it empty: `getSize() == 0`, `isEmpty()` is true and
iteration yields no reference; a following `add(r)` with non-null `r` yields a
sequence containing exactly `r`. -/
theorem clear_empties {α : Type} [DecidableEq α] (l : TLinkedList α) (r : α)
    (h : l.ownsData = true → (l.toVec.filter (fun p => p.isSome)).Nodup) :
    ∃ l1 : TLinkedList α, l.clear = some l1 ∧
      l1.getSize = 0 ∧ l1.isEmpty = true ∧ l1.toVec = [] ∧
      (l1.add (some r)).toVec = [some r] ∧ (l1.add (some r)).getSize = 1 := by
  refine ⟨l.cleared, (clear_eq l).trans (if_pos h), ?_⟩
  simp [TLinkedList.cleared, TLinkedList.getSize, TLinkedList.isEmpty, TLinkedList.toVec_eq,
    TLinkedList.add]

theorem clear_empties_witness :
    ((([some 1, some 2].foldl TLinkedList.add (TLinkedList.new true) :
        TLinkedList Nat).ownsData = true →
      (([some 1, some 2].foldl TLinkedList.add (TLinkedList.new true) :
        TLinkedList Nat).toVec.filter (fun p => p.isSome)).Nodup)) ∧
    ∃ l1 : TLinkedList Nat,
      ([some 1, some 2].foldl TLinkedList.add (TLinkedList.new true) :
        TLinkedList Nat).clear = some l1 ∧
      l1.getSize = 0 ∧ l1.isEmpty = true ∧ l1.toVec = [] ∧
      (l1.add (some 3)).toVec = [some 3] ∧ (l1.add (some 3)).getSize = 1 :=
  ⟨fun _ => by decide,
    clear_empties ([some 1, some 2].foldl TLinkedList.add (TLinkedList.new true)) 3
      (fun _ => by decide)⟩

/-- C24, as stated, fails when a reference is added twice: the owning list built
by `add(1); add(1)` destroys the record `1` twice in `clear()`. -/
theorem clear_destroys_twice :
    (([some 1, some 1].foldl TLinkedList.add (TLinkedList.new true) :
        TLinkedList Nat).clearDestroyed = [some 1, some 1]) ∧
    ¬ ([some 1, some 1].foldl TLinkedList.add (TLinkedList.new true) :
        TLinkedList Nat).clearDestroyed.Nodup := by
  decide

/-- C24 (amended). For every owning sequence reached by a series of `add` calls,
`clear()` (and teardown, which calls `clear()`) destroys the record of every link
exactly once, front to back: the log of destroyed references is the sequence of
references held, so every reference that was in the sequence appears in it; no
reference appears in the log more than once when the non-null references added
were pairwise distinct. -/
theorem clear_destroys_each_link_once {α : Type} (refs : List (Ptr α)) :
    (refs.foldl TLinkedList.add (TLinkedList.new true)).clearDestroyed
      = (refs.foldl TLinkedList.add (TLinkedList.new true)).toVec ∧
    (refs.foldl TLinkedList.add (TLinkedList.new true)).teardownDestroyed
      = (refs.foldl TLinkedList.add (TLinkedList.new true)).toVec ∧
    (∀ p ∈ (refs.foldl TLinkedList.add (TLinkedList.new true)).toVec,
      p ∈ (refs.foldl TLinkedList.add (TLinkedList.new true)).clearDestroyed) ∧
    ((refs.filter (fun p => p.isSome)).Nodup →
      (refs.foldl TLinkedList.add (TLinkedList.new true)).clearDestroyed.Nodup) := by
  obtain ⟨h1, _, h3, _⟩ := TLinkedList.foldl_add refs (TLinkedList.new true)
    (TLinkedList.wellFormed_new true)
  have hown : (refs.foldl TLinkedList.add (TLinkedList.new true)).ownsData = true := by
    rw [h3]; rfl
  have he : (refs.foldl TLinkedList.add (TLinkedList.new true)).clearDestroyed
      = (refs.foldl TLinkedList.add (TLinkedList.new true)).toVec := by
    rw [clearDestroyed_eq, hown]; rfl
  refine ⟨he, he, fun p hp => by rw [he]; exact hp, ?_⟩
  intro hnd
  rw [he, TLinkedList.toVec_eq, h1]
  simpa [TLinkedList.new] using hnd

theorem clear_destroys_each_link_once_witness :
    (([some 1, none, some 2] : List (Ptr Nat)).filter (fun p => p.isSome)).Nodup ∧
    (([some 1, none, some 2].foldl TLinkedList.add (TLinkedList.new true) :
      TLinkedList Nat).clearDestroyed.Nodup) :=
  ⟨by decide, (clear_destroys_each_link_once [some 1, none, some 2]).2.2.2 (by decide)⟩

/-- C25. Every sequence returned by `SelectionSortList` and `MergeSortList` is
constructed with ownership disabled, and `clear()`, `remove()` and teardown of a
sequence with ownership disabled destroy no referenced record, so every record
borrowed by a result remains alive after the result is destroyed. -/
theorem results_do_not_own {α : Type} [DecidableEq α] (self : TSort α)
    (cmp : FCompareAccounts α) (summary : OperationSummary) :
    ((self.SelectionSortList cmp summary).list.ownsData = false ∧
      (self.SelectionSortList cmp summary).list.teardownDestroyed = []) ∧
    (∃ res : ListResult α, self.MergeSortList cmp summary = some res ∧
      res.list.ownsData = false ∧ res.list.teardownDestroyed = []) ∧
    (∀ (head : List (Ptr α)) (tail : Option Nat) (size : Nat) (p : Ptr α),
      (TLinkedList.mk head tail false size).clearDestroyed = [] ∧
      (TLinkedList.mk head tail false size).teardownDestroyed = [] ∧
      ((TLinkedList.mk head tail false size).remove p).destroyed = []) := by
  have hown : ∀ vec : List (Ptr α), (listOfVec vec).ownsData = false := by
    intro vec
    exact (TLinkedList.foldl_add vec (TLinkedList.new false)
      (TLinkedList.wellFormed_new false)).2.2.1
  have hclear : ∀ l : TLinkedList α, l.ownsData = false → l.teardownDestroyed = [] := by
    intro l hl
    rw [TLinkedList.teardownDestroyed, clearDestroyed_eq, hl]; rfl
  refine ⟨⟨hown _, hclear _ (hown _)⟩, ?_, ?_⟩
  · obtain ⟨st, e, _⟩ := mergeSortList_spec self cmp summary
    exact ⟨_, e, hown _, hclear _ (hown _)⟩
  · intro head tail size p
    refine ⟨hclear _ rfl, hclear _ rfl, ?_⟩
    cases head with
    | nil => simp [TLinkedList.remove]
    | cons d rest =>
      cases p with
      | none => simp [TLinkedList.remove]
      | some a =>
        simp only [TLinkedList.remove]
        split
        · simp
        · split <;> simp

theorem lexCompare_sign : ∀ s t : List Nat,
    Int.sign (lexCompare s t) = - Int.sign (lexCompare t s)
  | [], [] => by simp [lexCompare]
  | [], _ :: _ => by simp [lexCompare]
  | _ :: _, [] => by simp [lexCompare]
  | a :: s, b :: t => by
    rcases lt_trichotomy a b with h | h | h
    · have : ¬ b < a := by omega
      simp [lexCompare, h, this]
    · subst h; simpa [lexCompare] using lexCompare_sign s t
    · have : ¬ a < b := by omega
      simp [lexCompare, h, this]

theorem lexCompare_eq_zero : ∀ s t : List Nat, lexCompare s t = 0 ↔ s = t
  | [], [] => by simp [lexCompare]
  | [], _ :: _ => by simp [lexCompare]
  | _ :: _, [] => by simp [lexCompare]
  | a :: s, b :: t => by
    rcases lt_trichotomy a b with h | h | h
    · have : ¬ b < a := by omega
      have hne : a ≠ b := by omega
      simp [lexCompare, h, hne]
    · subst h; simpa [lexCompare] using lexCompare_eq_zero s t
    · have : ¬ a < b := by omega
      have hne : a ≠ b := by omega
      simp [lexCompare, h, this, hne]

theorem lexCompare_trans : ∀ s t u : List Nat,
    lexCompare s t ≤ 0 → lexCompare t u ≤ 0 → lexCompare s u ≤ 0
  | [], _, [] => by intro _ _; simp [lexCompare]
  | [], _, _ :: _ => by intro _ _; simp [lexCompare]
  | _ :: _, [], _ => by intro h; simp [lexCompare] at h
  | _ :: _, _ :: _, [] => by intro _ h; simp [lexCompare] at h
  | a :: s, b :: t, c :: u => by
    intro h1 h2
    simp only [lexCompare] at h1 h2 ⊢
    rcases lt_trichotomy a b with hab | hab | hab
    · have nba : ¬ b < a := by omega
      rcases lt_trichotomy b c with hbc | hbc | hbc
      · have : a < c := by omega
        simp [this]
      · subst hbc; simp [hab]
      · have nbc : ¬ b < c := by omega
        simp [nbc, hbc] at h2
    · subst hab
      simp only [lt_irrefl, if_false] at h1
      rcases lt_trichotomy a c with hac | hac | hac
      · simp [hac]
      · subst hac
        simp only [lt_irrefl, if_false] at h2 ⊢
        exact lexCompare_trans s t u h1 h2
      · have nac : ¬ a < c := by omega
        simp [nac, hac] at h2
    · have nab : ¬ a < b := by omega
      simp [nab, hab] at h1

theorem lexCompare_contract : StringCompareContract lexCompare :=
  ⟨lexCompare_sign, lexCompare_eq_zero, lexCompare_trans⟩

/-- Consequences of the string contract: a strict step in front of or behind a
non-strict one is strict. -/
theorem stringContract_strict {S : Type} {strCompare : S → S → Int}
    (hc : StringCompareContract strCompare) (a b c : S) :
    (strCompare a b < 0 → strCompare b c ≤ 0 → strCompare a c < 0) ∧
    (strCompare a b ≤ 0 → strCompare b c < 0 → strCompare a c < 0) := by
  obtain ⟨hs, hz, ht⟩ := hc
  constructor
  · intro h1 h2
    have h3 := ht a b c (le_of_lt h1) h2
    rcases lt_or_eq_of_le h3 with h | h
    · exact h
    · have e : a = c := (hz a c).1 h
      subst e
      have := (sign_flip (hs a b)).1.1 h1
      omega
  · intro h1 h2
    have h3 := ht a b c h1 (le_of_lt h2)
    rcases lt_or_eq_of_le h3 with h | h
    · exact h
    · have e : a = c := (hz a c).1 h
      subst e
      have := (sign_flip (hs b a)).1.1 h2
      omega

theorem compareByLastName_records {S B : Type} (strCompare : S → S → Int)
    (x y : TBankAccount S B) :
    CompareByLastName strCompare (some x) (some y)
      = if strCompare x.ownerLastName y.ownerLastName ≠ 0
        then strCompare x.ownerLastName y.ownerLastName
        else strCompare x.ownerFirstName y.ownerFirstName := rfl

/-! ## C26, C27 -/

/-- C26. `CompareByLastName` and `CompareByBalance` handle absent operands
deterministically: for every non-null record `x`, `cmp(null, null) == 0`,
`cmp(null, x) < 0` and `cmp(x, null) > 0`, so a missing reference orders before
every record, and the sign of `cmp(a, b)` is the opposite of the sign of
`cmp(b, a)` also when an operand is null. -/
theorem comparators_null_operands {S B : Type} (strCompare : S → S → Int)
    (lt : B → B → Bool) (x : TBankAccount S B) :
    (CompareByLastName strCompare (none : Ptr (TBankAccount S B)) none = 0 ∧
      CompareByLastName strCompare none (some x) < 0 ∧
      CompareByLastName strCompare (some x) none > 0 ∧
      Int.sign (CompareByLastName strCompare none (some x))
        = - Int.sign (CompareByLastName strCompare (some x) none) ∧
      Int.sign (CompareByLastName strCompare (some x) none)
        = - Int.sign (CompareByLastName strCompare none (some x)) ∧
      Int.sign (CompareByLastName strCompare (none : Ptr (TBankAccount S B)) none)
        = - Int.sign (CompareByLastName strCompare (none : Ptr (TBankAccount S B)) none)) ∧
    (CompareByBalance lt (none : Ptr (TBankAccount S B)) none = 0 ∧
      CompareByBalance lt none (some x) < 0 ∧
      CompareByBalance lt (some x) none > 0 ∧
      Int.sign (CompareByBalance lt none (some x))
        = - Int.sign (CompareByBalance lt (some x) none) ∧
      Int.sign (CompareByBalance lt (some x) none)
        = - Int.sign (CompareByBalance lt none (some x)) ∧
      Int.sign (CompareByBalance lt (none : Ptr (TBankAccount S B)) none)
        = - Int.sign (CompareByBalance lt (none : Ptr (TBankAccount S B)) none)) := by
  simp [CompareByLastName, CompareByBalance]

/-- C27. `CompareByLastName` is a consistent three-way order on records, for every
`std::string::compare` within its contract: it returns a negative, zero or positive
value according to the lexicographic order of the pair (last name, first name), it
returns zero exactly when both names are equal, `sign(cmp(a,b)) == -sign(cmp(b,a))`
for all `a`, `b`, and `cmp(a,b) <= 0` and `cmp(b,c) <= 0` imply `cmp(a,c) <= 0`
(both also when operands are null). -/
theorem compareByLastName_order {S B : Type} (strCompare : S → S → Int)
    (hc : StringCompareContract strCompare) :
    (∀ x y : TBankAccount S B,
      (CompareByLastName strCompare (some x) (some y) < 0 ↔
        strCompare x.ownerLastName y.ownerLastName < 0 ∨
        (x.ownerLastName = y.ownerLastName ∧
          strCompare x.ownerFirstName y.ownerFirstName < 0)) ∧
      (CompareByLastName strCompare (some x) (some y) > 0 ↔
        strCompare x.ownerLastName y.ownerLastName > 0 ∨
        (x.ownerLastName = y.ownerLastName ∧
          strCompare x.ownerFirstName y.ownerFirstName > 0)) ∧
      (CompareByLastName strCompare (some x) (some y) = 0 ↔
        x.ownerLastName = y.ownerLastName ∧ x.ownerFirstName = y.ownerFirstName)) ∧
    (∀ a b : Ptr (TBankAccount S B),
      Int.sign (CompareByLastName strCompare a b)
        = - Int.sign (CompareByLastName strCompare b a)) ∧
    (∀ a b c : Ptr (TBankAccount S B),
      CompareByLastName strCompare a b ≤ 0 → CompareByLastName strCompare b c ≤ 0 →
      CompareByLastName strCompare a c ≤ 0) := by
  have hs := hc.1
  have hz := hc.2.1
  have ht := hc.2.2
  refine ⟨?_, ?_, ?_⟩
  · intro x y
    rw [compareByLastName_records]
    by_cases hL : strCompare x.ownerLastName y.ownerLastName = 0
    · have e := (hz _ _).1 hL
      rw [if_neg (not_not.mpr hL)]
      refine ⟨⟨fun h => Or.inr ⟨e, h⟩, fun h => h.elim (fun h1 => by omega) (fun h1 => h1.2)⟩,
        ⟨fun h => Or.inr ⟨e, h⟩, fun h => h.elim (fun h1 => by omega) (fun h1 => h1.2)⟩,
        ⟨fun h => ⟨e, (hz _ _).1 h⟩, fun h => (hz _ _).2 h.2⟩⟩
    · have ne : ¬ x.ownerLastName = y.ownerLastName := fun e => hL ((hz _ _).2 e)
      rw [if_pos hL]
      refine ⟨⟨Or.inl, fun h => h.elim id (fun h1 => absurd h1.1 ne)⟩,
        ⟨Or.inl, fun h => h.elim id (fun h1 => absurd h1.1 ne)⟩,
        ⟨fun h => absurd h hL, fun h => absurd h.1 ne⟩⟩
  · intro a b
    cases a with
    | none => cases b <;> simp [CompareByLastName]
    | some x =>
      cases b with
      | none => simp [CompareByLastName]
      | some y =>
        rw [compareByLastName_records, compareByLastName_records]
        by_cases hL : strCompare x.ownerLastName y.ownerLastName = 0
        · have e := (hz _ _).1 hL
          have hL' : strCompare y.ownerLastName x.ownerLastName = 0 := (hz _ _).2 e.symm
          simp only [hL, hL', ne_eq, not_true_eq_false, if_false]
          exact hs _ _
        · have hL' : ¬ strCompare y.ownerLastName x.ownerLastName = 0 :=
            fun h => hL ((hz _ _).2 ((hz _ _).1 h).symm)
          simp only [ne_eq, hL, hL', not_false_eq_true, if_true]
          exact hs _ _
  · intro a b c h1 h2
    cases a with
    | none => cases c <;> simp [CompareByLastName]
    | some x =>
      cases b with
      | none => simp [CompareByLastName] at h1
      | some y =>
        cases c with
        | none => simp [CompareByLastName] at h2
        | some z =>
          rw [compareByLastName_records] at h1 h2 ⊢
          by_cases hxy : strCompare x.ownerLastName y.ownerLastName = 0
          · have exy := (hz _ _).1 hxy
            simp only [hxy, ne_eq, not_true_eq_false, if_false] at h1
            by_cases hyz : strCompare y.ownerLastName z.ownerLastName = 0
            · have eyz := (hz _ _).1 hyz
              simp only [hyz, ne_eq, not_true_eq_false, if_false] at h2
              have hxz : strCompare x.ownerLastName z.ownerLastName = 0 :=
                (hz _ _).2 (exy.trans eyz)
              simp only [hxz, ne_eq, not_true_eq_false, if_false]
              exact ht _ _ _ h1 h2
            · simp only [ne_eq, hyz, not_false_eq_true, if_true] at h2
              rw [exy]
              simp only [ne_eq, hyz, not_false_eq_true, if_true]
              exact h2
          · simp only [ne_eq, hxy, not_false_eq_true, if_true] at h1
            have hlt : strCompare x.ownerLastName y.ownerLastName < 0 :=
              lt_of_le_of_ne h1 hxy
            by_cases hyz : strCompare y.ownerLastName z.ownerLastName = 0
            · have eyz := (hz _ _).1 hyz
              rw [← eyz]
              simp only [ne_eq, hxy, not_false_eq_true, if_true]
              exact h1
            · simp only [ne_eq, hyz, not_false_eq_true, if_true] at h2
              have hxz := (stringContract_strict hc _ _ _).1 hlt h2
              have hne : ¬ strCompare x.ownerLastName z.ownerLastName = 0 := by omega
              simp only [ne_eq, hne, not_false_eq_true, if_true]
              omega

theorem compareByLastName_order_witness :
    StringCompareContract lexCompare ∧
    (∀ a b : Ptr (TBankAccount (List Nat) Nat),
      Int.sign (CompareByLastName lexCompare a b)
        = - Int.sign (CompareByLastName lexCompare b a)) :=
  ⟨lexCompare_contract, (compareByLastName_order lexCompare lexCompare_contract).2.1⟩

/-! ## C28: a search with another comparator than the one of the sort -/

theorem cmpNatDesc_totalPreorder (S : List (Ptr Nat)) : TotalPreorderOn cmpNatDesc S := by
  have h := cmpNat_totalPreorder S
  constructor
  · intro a ha b hb
    exact h.1 b hb a ha
  · intro a ha b hb c hc h1 h2
    exact h.2 c hc b hb a ha h2 h1

/-- C28. The cache is used whatever comparator is passed to search: there exist a
dataset, a comparator `c1` used for a buffer sort, a different comparator `c2` (itself
a total preorder) and a key such that some cached element `e` has `c2(e, key) == 0`,
yet `BinarySearch(key, c2)` returns normally with not-found (`nullptr`), the engine
and its cache untouched. -/
theorem binarySearch_other_comparator_misses :
    ∃ (src : List (Ptr Nat)) (c1 c2 : FCompareAccounts Nat) (key : Ptr Nat)
      (cache : List (Ptr Nat)),
      c1 ≠ c2 ∧
      TotalPreorderOn c1 (key :: src) ∧ TotalPreorderOn c2 (key :: src) ∧
      ((exampleEngine src).SelectionSortArray c1 ⟨0, 0⟩).self.sortedArray = some cache ∧
      (∀ e ∈ cache, e ≠ none) ∧
      (∃ e ∈ cache, c2 e key = 0) ∧
      (((exampleEngine src).SelectionSortArray c1 ⟨0, 0⟩).self.BinarySearch key c2 ⟨0, 0⟩).map
        (fun r => r.found) = some none ∧
      (((exampleEngine src).SelectionSortArray c1 ⟨0, 0⟩).self.BinarySearch key c2 ⟨0, 0⟩).map
        (fun r => r.self.sortedArray) = some (some cache) :=
  ⟨[some 3, some 1, some 2], cmpNat, cmpNatDesc, some 1, [some 1, some 2, some 3],
    fun h => absurd (congrFun (congrFun h (some 1)) (some 2)) (by decide),
    cmpNat_totalPreorder _, cmpNatDesc_totalPreorder _, by decide, by decide,
    ⟨some 1, by decide, by decide⟩, by decide, by decide⟩

/-! ## C30: the postcondition of `Partition` -/

theorem length_slice {α : Type} (arr : List (Ptr α)) (left right : Int)
    (hl : 0 ≤ left) (hlr : left ≤ right) (hr : right < arr.length) :
    (slice arr left right).length = (right - left + 1).toNat := by
  unfold slice
  simp only [List.length_take, List.length_drop]
  omega

theorem rd_slice {α : Type} (arr : List (Ptr α)) (left right k : Int)
    (hl : 0 ≤ left) (hk0 : 0 ≤ k) (hk : k ≤ right - left) :
    rd (slice arr left right) k = rd arr (left + k) := by
  unfold rd slice
  have h1 : 0 ≤ left + k := by omega
  simp only [hk0, h1, if_true]
  have e : (left + k).toNat = left.toNat + k.toNat := by omega
  have h2 : k.toNat < (right - left + 1).toNat := by omega
  rw [e]
  simp only [List.getD_eq_getElem?_getD, List.getElem?_take, h2, if_true, List.getElem?_drop]

/-- A rearrangement that leaves the cells outside `left .. right` alone rearranges
the cells `left .. right` among themselves. -/
theorem slice_perm_of_frame {α : Type} (arr arr' : List (Ptr α)) (left right : Int)
    (hl : 0 ≤ left) (hlr : left ≤ right) (hr : right < arr.length)
    (hP : arr'.Perm arr) (hlen : arr'.length = arr.length)
    (hout : ∀ k : Int, (k < left ∨ right < k) → rd arr' k = rd arr k) :
    (slice arr' left right).Perm (slice arr left right) := by
  have dec : ∀ a : List (Ptr α),
      a = a.take left.toNat ++ (slice a left right
        ++ (a.drop left.toNat).drop (right - left + 1).toNat) := by
    intro a
    unfold slice
    rw [List.take_append_drop, List.take_append_drop]
  have e1 : arr'.take left.toNat = arr.take left.toNat := by
    apply List.ext_getElem
    · simp only [List.length_take, hlen]
    · intro n h1 h2
      simp only [List.length_take] at h1 h2
      simp only [List.getElem_take]
      have := hout (n : Int) (Or.inl (by omega))
      rw [rd_natCast arr' n (by omega), rd_natCast arr n (by omega)] at this
      exact this
  have e2 : (arr'.drop left.toNat).drop (right - left + 1).toNat
      = (arr.drop left.toNat).drop (right - left + 1).toNat := by
    apply List.ext_getElem
    · simp only [List.length_drop, hlen]
    · intro n h1 h2
      simp only [List.length_drop] at h1 h2
      simp only [List.getElem_drop]
      have := hout ((left.toNat + ((right - left + 1).toNat + n) : Nat) : Int)
        (Or.inr (by omega))
      rw [rd_natCast arr' _ (by omega), rd_natCast arr _ (by omega)] at this
      exact this
  have h := hP
  rw [dec arr', dec arr, e1, e2] at h
  exact (List.perm_append_right_iff _).1 ((List.perm_append_left_iff _).1 h)

/-- C30. Partition postcondition: for every buffer, every range
`0 <= left <= right < n` and every comparator, `Partition(left, right)` returns an
index `p` with `left <= p <= right` such that afterwards `arr[p]` is the element that
was at `arr[right]` (the pivot), every element at an index in `[left, p)` has
`cmp(element, pivot) <= 0`, every element at an index in `(p, right]` has
`cmp(element, pivot) > 0`, the range `[left, right]` holds a permutation of its
previous contents, and positions outside `[left, right]` are unchanged (the buffer
keeps its length). -/
theorem partition_postcondition {α : Type} (cmp : FCompareAccounts α)
    (arr : List (Ptr α)) (left right : Int) (s : OperationSummary)
    (hl : 0 ≤ left) (hlr : left ≤ right) (hr : right < arr.length) :
    left ≤ (Partition cmp arr left right s).1 ∧ (Partition cmp arr left right s).1 ≤ right ∧
    rd (Partition cmp arr left right s).2.arr (Partition cmp arr left right s).1
      = rd arr right ∧
    (∀ k : Int, left ≤ k → k < (Partition cmp arr left right s).1 →
      cmp (rd (Partition cmp arr left right s).2.arr k) (rd arr right) ≤ 0) ∧
    (∀ k : Int, (Partition cmp arr left right s).1 < k → k ≤ right →
      cmp (rd (Partition cmp arr left right s).2.arr k) (rd arr right) > 0) ∧
    (slice (Partition cmp arr left right s).2.arr left right).Perm (slice arr left right) ∧
    (Partition cmp arr left right s).2.arr.length = arr.length ∧
    (∀ k : Int, (k < left ∨ right < k) →
      rd (Partition cmp arr left right s).2.arr k = rd arr k) := by
  obtain ⟨⟨h1, h2⟩, hP, hS, h3, h4, h5⟩ := partition_spec cmp arr left right s hl hlr hr
  refine ⟨h1, h2, h3, h4, ?_, ?_, hS.1, hS.2.1⟩
  · intro k a b
    have := h5 k a b
    omega
  · exact slice_perm_of_frame arr _ left right hl hlr hr hP hS.1 hS.2.1

theorem partition_postcondition_witness :
    (Partition cmpNat [some 9, some 4, some 1, some 3, some 2, some 0] 1 4 ⟨0, 0⟩).1 = 2 ∧
    (Partition cmpNat [some 9, some 4, some 1, some 3, some 2, some 0] 1 4 ⟨0, 0⟩).2.arr
      = [some 9, some 1, some 2, some 3, some 4, some 0] ∧
    (slice (Partition cmpNat [some 9, some 4, some 1, some 3, some 2, some 0] 1 4 ⟨0, 0⟩).2.arr
      1 4).Perm (slice [some 9, some 4, some 1, some 3, some 2, some 0] 1 4) :=
  ⟨by decide, by decide,
    (partition_postcondition cmpNat [some 9, some 4, some 1, some 3, some 2, some 0] 1 4 ⟨0, 0⟩
      (by decide) (by decide) (by decide)).2.2.2.2.2.1⟩

/-! ## C33, C37, C38 -/

/-- C33. The cache is mutated only by buffer sorts: `SelectionSortList`,
`MergeSortList` and `BinarySearch` return, and leave the cached buffer, its size
and its validity flag exactly as they were (the engine is handed back unchanged),
so a search after a list sort gives what the same search gave before it: it still
queries the result of the most recent buffer sort, or reports not-found when the
validity flag is not set. -/
theorem cache_untouched_by_list_sorts_and_search {α : Type} (self : TSort α)
    (cmp : FCompareAccounts α) (summary : OperationSummary) (key : Ptr α)
    (cmp2 : FCompareAccounts α) (summary2 : OperationSummary) :
    ((self.SelectionSortList cmp summary).self.sortedArray = self.sortedArray ∧
      (self.SelectionSortList cmp summary).self.sortedArraySize = self.sortedArraySize ∧
      (self.SelectionSortList cmp summary).self.isArraySorted = self.isArraySorted) ∧
    (∃ res : ListResult α, self.MergeSortList cmp summary = some res ∧
      res.self.sortedArray = self.sortedArray ∧
      res.self.sortedArraySize = self.sortedArraySize ∧
      res.self.isArraySorted = self.isArraySorted ∧
      res.self.BinarySearch key cmp2 summary2 = self.BinarySearch key cmp2 summary2) ∧
    (∃ res : SearchResult α, self.BinarySearch key cmp2 summary2 = some res ∧
      res.self.sortedArray = self.sortedArray ∧
      res.self.sortedArraySize = self.sortedArraySize ∧
      res.self.isArraySorted = self.isArraySorted) ∧
    (self.SelectionSortList cmp summary).self.BinarySearch key cmp2 summary2
      = self.BinarySearch key cmp2 summary2 ∧
    (self.isArraySorted = false →
      ((self.SelectionSortList cmp summary).self.BinarySearch key cmp2 summary2).map
        (fun r => r.found) = some none) := by
  refine ⟨⟨rfl, rfl, rfl⟩, ?_, ?_, rfl, ?_⟩
  · obtain ⟨st, e, _⟩ := mergeSortList_spec self cmp summary
    exact ⟨_, e, rfl, rfl, rfl, rfl⟩
  · obtain ⟨r, s', e, _⟩ := binarySearch_returns self key cmp2 summary2
    exact ⟨_, e, rfl, rfl, rfl⟩
  · intro hf
    obtain ⟨r, s', e, h⟩ := binarySearch_returns self key cmp2 summary2
    have : (self.SelectionSortList cmp summary).self = self := rfl
    rw [this, e, (h (Or.inl hf)).1]
    rfl

/-- C37. Selection sort is not stable: on the three records `20, 21, 10` and the
total-preorder comparator that compares the tens only, `20` and `21` compare equal
and `20` comes before `21` in the source, yet `SelectionSortArray` and
`SelectionSortList` both return `10, 21, 20`, with `21` before `20`. -/
theorem selectionSort_not_stable :
    ∃ (src : List (Ptr Nat)) (cmp : FCompareAccounts Nat) (a b : Nat),
      src.length = 3 ∧ (∀ S, TotalPreorderOn cmp S) ∧ a ≠ b ∧
      cmp (some a) (some b) = 0 ∧ [some a, some b].Sublist src ∧
      [some b, some a].Sublist ((exampleEngine src).SelectionSortArray cmp ⟨0, 0⟩).arr ∧
      ¬ [some a, some b].Sublist ((exampleEngine src).SelectionSortArray cmp ⟨0, 0⟩).arr ∧
      [some b, some a].Sublist
        ((exampleEngine src).SelectionSortList cmp ⟨0, 0⟩).list.toVec ∧
      ¬ [some a, some b].Sublist
        ((exampleEngine src).SelectionSortList cmp ⟨0, 0⟩).list.toVec :=
  ⟨[some 20, some 21, some 10], cmpTens, 20, 21, rfl, cmpTens_totalPreorder, by decide,
    by decide, by decide, by decide, by decide, by decide, by decide⟩

/-- C38. `add(null)` is silently ignored: for every sequence state, `add` with a
null reference leaves the sequence (its size, the contained references and their
order) unchanged; hence no sequence built by `add`, `remove` and `clear` from a new
one ever contains a null reference, and the sequences returned by the list sorts
never contain one. -/
theorem add_null_ignored {α : Type} [DecidableEq α] :
    (∀ l : TLinkedList α, l.add none = l ∧ (l.add none).getSize = l.getSize ∧
      (l.add none).toVec = l.toVec) ∧
    (∀ l : TLinkedList α, l.Reachable → ∀ p ∈ l.toVec, p ≠ none) ∧
    (∀ l : TLinkedList α, l.ReachableWithRemove → ∀ p ∈ l.toVec, p ≠ none) ∧
    (∀ (self : TSort α) (cmp : FCompareAccounts α) (summary : OperationSummary),
      (∀ p ∈ (self.SelectionSortList cmp summary).list.toVec, p ≠ none) ∧
      ∃ res : ListResult α, self.MergeSortList cmp summary = some res ∧
        ∀ p ∈ res.list.toVec, p ≠ none) := by
  have hvec : ∀ vec : List (Ptr α), ∀ p ∈ (listOfVec vec).toVec, p ≠ none := by
    intro vec p hp
    rw [listOfVec_toVec] at hp
    intro e
    subst e
    simpa using (List.mem_filter.1 hp).2
  refine ⟨fun l => ⟨rfl, rfl, rfl⟩, ?_, ?_, ?_⟩
  · intro l h p hp
    rw [TLinkedList.toVec_eq] at hp
    exact h.inv.2 p hp
  · intro l h p hp
    rw [TLinkedList.toVec_eq] at hp
    exact (reachableWithRemove_inv h).2 p hp
  · intro self cmp summary
    refine ⟨hvec _, ?_⟩
    obtain ⟨st, e, _⟩ := mergeSortList_spec self cmp summary
    exact ⟨_, e, hvec _⟩

/-! ## C31: quick sort on ordered input -/

/-- `Partition` on a range whose cells all compare `<= 0` with the pivot: every
cell passes the test with `i + 1 == j`, so nothing is swapped, `right - left`
comparisons are counted and the pivot index is `right`. -/
theorem partition_ordered {α : Type} (cmp : FCompareAccounts α) (arr : List (Ptr α))
    (left right : Int) (s : OperationSummary) (hlr : left ≤ right)
    (hle : ∀ k : Int, left ≤ k → k < right → cmp (rd arr k) (rd arr right) ≤ 0) :
    Partition cmp arr left right s
      = (right, ⟨arr, ⟨s.comparisons + (right - left).toNat, s.swaps⟩⟩) := by
  have hloop := forRange_inv
    (fun (j : Int) (st : PartState α) => st.i = j - 1 ∧ st.arr = arr ∧
      st.summary = ⟨s.comparisons + (j - left).toNat, s.swaps⟩)
    left right (partitionBody cmp (rd arr right)) ⟨left - 1, arr, s⟩ hlr
    ⟨rfl, rfl, by simp⟩
    (by
      intro k t hk1 hk2 ⟨h1, h2, h3⟩
      have hc := hle k hk1 hk2
      have hi : ¬ t.i + 1 ≠ k := by omega
      simp only [partitionBody, h2, hc, if_true, hi, if_false, h3,
        OperationSummary.incComparisons]
      refine ⟨by omega, trivial, ?_⟩
      have e : (k + 1 - left).toNat = (k - left).toNat + 1 := by omega
      rw [e, Nat.add_assoc])
  obtain ⟨h1, h2, h3⟩ := hloop
  unfold Partition
  dsimp only
  have hi : ¬ (forRange left right (partitionBody cmp (rd arr right))
      ⟨left - 1, arr, s⟩).i + 1 ≠ right := by omega
  rw [if_neg hi, h2, h3]
  congr 1
  omega

theorem triangle_step (m : Nat) (h : 2 ≤ m) :
    (m - 1) + (m - 1) * (m - 1 - 1) / 2 = m * (m - 1) / 2 := by
  obtain ⟨k, rfl⟩ : ∃ k, m = k + 2 := ⟨m - 2, by omega⟩
  have e2 : k + 2 - 1 - 1 = k := by omega
  have e3 : k + 2 - 1 = k + 1 := by omega
  have e : (k + 2) * (k + 1) = 2 * (k + 1) + (k + 1) * k := by ring
  rw [e2, e3, e, Nat.mul_add_div (by decide)]

/-- `QuickSortRecursive` on a range that is already in order (every earlier cell
compares `<= 0` with every later one): it returns the array as it was, having added
`m (m - 1) / 2` comparisons for a range of `m` cells, and no swap. -/
theorem quickSortRecursive_ordered {α : Type} (cmp : FCompareAccounts α) :
    ∀ (fuel : Nat) (st : SortState α) (left right : Int),
      right - left ≤ fuel →
      (∀ a b : Int, left ≤ a → a < b → b ≤ right → cmp (rd st.arr a) (rd st.arr b) ≤ 0) →
      QuickSortRecursive cmp fuel st left right
        = some ⟨st.arr, ⟨st.summary.comparisons
            + (right - left + 1).toNat * ((right - left + 1).toNat - 1) / 2,
          st.summary.swaps⟩⟩
  | 0, st, left, right, hf, _ => by
    have hge : left ≥ right := by omega
    have hm : (right - left + 1).toNat * ((right - left + 1).toNat - 1) = 0 := by
      have : (right - left + 1).toNat ≤ 1 := by omega
      interval_cases (right - left + 1).toNat <;> simp
    simp [QuickSortRecursive, hge, hm]
  | fuel + 1, st, left, right, hf, hord => by
    by_cases hge : left ≥ right
    · have hm : (right - left + 1).toNat * ((right - left + 1).toNat - 1) = 0 := by
        have : (right - left + 1).toNat ≤ 1 := by omega
        interval_cases (right - left + 1).toNat <;> simp
      simp [QuickSortRecursive, hge, hm]
    · have hlt : left < right := by omega
      have hp := partition_ordered cmp st.arr left right st.summary (by omega)
        (fun k h1 h2 => hord k right h1 h2 (le_refl _))
      simp only [QuickSortRecursive, hge, if_false, hp]
      rw [quickSortRecursive_ordered cmp fuel
        ⟨st.arr, ⟨st.summary.comparisons + (right - left).toNat, st.summary.swaps⟩⟩
        left (right - 1) (by push_cast at hf; omega)
        (fun a b h1 h2 h3 => hord a b h1 h2 (by omega))]
      dsimp only
      have hge2 : right + 1 ≥ right := by omega
      have e0 : ∀ st0 : SortState α, QuickSortRecursive cmp fuel st0 (right + 1) right
          = some st0 := by
        intro st0
        cases fuel <;> simp [QuickSortRecursive]
      rw [e0]
      have e1 : (right - 1 - left + 1).toNat = (right - left + 1).toNat - 1 := by omega
      have e2 : (right - left).toNat = (right - left + 1).toNat - 1 := by omega
      rw [e1, e2, Nat.add_assoc, triangle_step _ (by omega)]

/-- C31. Quick sort's quadratic degradation on ordered input: for every buffer of
size `n >= 0` that is already in non-decreasing order under a total-preorder
comparator, `QuickSortArray` returns and reports exactly `n (n - 1) / 2`
comparisons and zero swaps. -/
theorem quickSort_ordered_input {α : Type} (self : TSort α) (cmp : FCompareAccounts α)
    (summary : OperationSummary) (hpre : TotalPreorderOn cmp self.originalArray)
    (hsorted : NonDecreasing cmp self.originalArray) :
    ∃ res : ArrayResult α, self.QuickSortArray cmp summary = some res ∧
      res.summary.comparisons
        = self.originalArray.length * (self.originalArray.length - 1) / 2 ∧
      res.summary.swaps = 0 := by
  have hord : ∀ a b : Int, 0 ≤ a → a < b → b ≤ (self.originalArray.length : Int) - 1 →
      cmp (rd self.originalArray a) (rd self.originalArray b) ≤ 0 := by
    intro a b h0 hab hb
    have h := ordered_of_nonDecreasing cmp self.originalArray self.originalArray hpre.2
      (fun _ h => h) hsorted (b - a - 1).toNat a h0 (by omega)
    have e : a + 1 + ((b - a - 1).toNat : Int) = b := by omega
    rwa [e] at h
  have h := quickSortRecursive_ordered cmp self.originalArray.length
    ⟨self.originalArray, OperationSummary.new⟩ 0 ((self.originalArray.length : Int) - 1)
    (by omega) hord
  have e : ((self.originalArray.length : Int) - 1 - 0 + 1).toNat
      = self.originalArray.length := by omega
  rw [e] at h
  refine ⟨⟨self.originalArray,
    ⟨0 + self.originalArray.length * (self.originalArray.length - 1) / 2, 0⟩,
    self.refreshCache self.originalArray⟩, ?_, by simp, rfl⟩
  simp only [TSort.QuickSortArray, TSort.originalArraySize, copyArray_eq, Int.toNat_ofNat, h]
  rfl

theorem quickSort_ordered_input_witness :
    TotalPreorderOn cmpNat (exampleEngine [some 1, some 2, some 2, some 5]).originalArray ∧
    NonDecreasing cmpNat (exampleEngine [some 1, some 2, some 2, some 5]).originalArray ∧
    ∃ res : ArrayResult Nat,
      (exampleEngine [some 1, some 2, some 2, some 5]).QuickSortArray cmpNat ⟨0, 0⟩
        = some res ∧
      res.summary.comparisons
        = (exampleEngine [some 1, some 2, some 2, some 5]).originalArray.length
          * ((exampleEngine [some 1, some 2, some 2, some 5]).originalArray.length - 1) / 2 ∧
      res.summary.swaps = 0 :=
  have hs : NonDecreasing cmpNat (exampleEngine [some 1, some 2, some 2, some 5]).originalArray :=
    nonDecreasing_of_pairwise _ _ (by decide)
  ⟨cmpNat_totalPreorder _, hs,
    quickSort_ordered_input (exampleEngine [some 1, some 2, some 2, some 5]) cmpNat ⟨0, 0⟩
      (cmpNat_totalPreorder _) hs⟩

/-! ## C32: comparisons of merge sort -/

theorem clog_halves (a b : Nat) (h2 : 2 ≤ a + b) (ha : a = (a + b + 1) / 2) :
    a * Nat.clog 2 a + b * Nat.clog 2 b + a + b ≤ (a + b) * Nat.clog 2 (a + b) := by
  have hc : Nat.clog 2 (a + b) = Nat.clog 2 a + 1 := by
    rw [Nat.clog_of_two_le (by decide) h2]
    have e : (a + b + 2 - 1) / 2 = a := by
      have : a + b + 2 - 1 = a + b + 1 := by omega
      rw [this]; exact ha.symm
    rw [e]
  have hba : b ≤ a := by omega
  have hcb : Nat.clog 2 b ≤ Nat.clog 2 a := Nat.clog_mono_right 2 hba
  have h1 : b * Nat.clog 2 b ≤ b * Nat.clog 2 a := Nat.mul_le_mul_left b hcb
  rw [hc]
  have e : (a + b) * (Nat.clog 2 a + 1)
      = a * Nat.clog 2 a + b * Nat.clog 2 a + a + b := by ring
  rw [e]
  omega

/-- Counts of `MergeSortRecursive` on the range holding `X` inside
`vec = pre ++ X ++ post`, for any comparator: the recursion returns, keeps the
size of the range, counts no swap and at most `|X| * ceil(log2 |X|)` comparisons. -/
theorem mergeSortRecursive_counts {α : Type} (cmp : FCompareAccounts α) :
    ∀ (fuel : Nat) (pre X post : List (Ptr α)) (s : OperationSummary) (left right : Int),
      left = pre.length → right = left + X.length - 1 → X.length ≤ fuel + 1 →
      ∃ (X' : List (Ptr α)) (s' : OperationSummary),
        MergeSortRecursive cmp fuel ⟨pre ++ (X ++ post), s⟩ left right
          = some ⟨pre ++ (X' ++ post), s'⟩ ∧
        X'.length = X.length ∧ s'.swaps = s.swaps ∧
        s'.comparisons ≤ s.comparisons + X.length * Nat.clog 2 X.length
  | 0, pre, X, post, s, left, right, hl, hr, hf => by
    have hge : left ≥ right := by omega
    exact ⟨X, s, by simp [MergeSortRecursive, hge], rfl, rfl, Nat.le_add_right _ _⟩
  | fuel + 1, pre, X, post, s, left, right, hl, hr, hf => by
    by_cases hge : left ≥ right
    · exact ⟨X, s, by simp [MergeSortRecursive, hge], rfl, rfl, Nat.le_add_right _ _⟩
    · have hX : 2 ≤ X.length := by omega
      simp only [MergeSortRecursive, hge, if_false]
      rw [cdiv_two (by omega)]
      generalize hmid : left + (right - left) / 2 = mid
      have hA : ((X.take (mid - left + 1).toNat).length : Int) = mid - left + 1 := by
        rw [List.length_take]; omega
      have hB : ((X.drop (mid - left + 1).toNat).length : Int) = right - mid := by
        rw [List.length_drop]; omega
      have hXe : X = X.take (mid - left + 1).toNat ++ X.drop (mid - left + 1).toNat :=
        (List.take_append_drop _ _).symm
      generalize X.take (mid - left + 1).toNat = A at hA hXe
      generalize X.drop (mid - left + 1).toNat = B at hB hXe
      subst hXe
      rw [List.append_assoc]
      obtain ⟨A', s1, e1, hlA, hs1, hc1⟩ := mergeSortRecursive_counts cmp fuel pre A
        (B ++ post) s left mid hl (by omega) (by simp at hf; omega)
      rw [e1]
      dsimp only
      rw [← List.append_assoc pre A' (B ++ post)]
      obtain ⟨B', s2, e2, hlB, hs2, hc2⟩ := mergeSortRecursive_counts cmp fuel (pre ++ A') B
        post s1 (mid + 1) right (by simp; omega) (by omega) (by simp at hf; omega)
      rw [e2]
      dsimp only
      rw [List.append_assoc pre A' (B' ++ post)]
      obtain ⟨s3, e3, hs3, hc3⟩ := merge_spec cmp pre A' B' post s2 left mid right hl
        (by omega) (by omega)
      have hlen : (mergeLists cmp A' B').length = (A ++ B).length := by
        rw [(mergeLists_perm cmp A' B').length_eq, List.length_append, List.length_append,
          hlA, hlB]
      refine ⟨mergeLists cmp A' B', s3, e3, hlen, by rw [hs3, hs2, hs1], ?_⟩
      rw [List.length_append] at hr hX ⊢
      have hh := clog_halves A.length B.length hX (by omega)
      rw [hlA, hlB] at hc3
      omega

/-- C32. For every source sequence of `n >= 1` references (and for the empty one
as well), in every order, and every comparator (consistent or not), `MergeSortList`
returns and reports at most `n * ceil(log2 n)` comparisons and zero swaps. -/
theorem mergeSort_comparisons_bound {α : Type} (self : TSort α) (cmp : FCompareAccounts α)
    (summary : OperationSummary) :
    ∃ res : ListResult α, self.MergeSortList cmp summary = some res ∧
      res.summary.comparisons
        ≤ self.originalList.toVec.length * Nat.clog 2 self.originalList.toVec.length ∧
      res.summary.swaps = 0 := by
  obtain ⟨X', s', e, _, hs, hc⟩ := mergeSortRecursive_counts cmp
    self.originalList.toVec.length [] self.originalList.toVec [] OperationSummary.new 0
    ((self.originalList.toVec.length : Int) - 1) rfl (by omega) (by omega)
  simp only [List.nil_append, List.append_nil] at e
  refine ⟨⟨listOfVec X', s', self⟩, ?_, ?_, ?_⟩
  · simp only [TSort.MergeSortList, e]
  · simpa [OperationSummary.new] using hc
  · simpa [OperationSummary.new] using hs

/-! ## Bubble sort as a series of exchanges of inverted neighbours -/

/-- An exchange of two neighbouring cells, seen on the list. -/
theorem swap_adjacent {α : Type} (arr : List (Ptr α)) (j : Int) (h0 : 0 ≤ j)
    (h1 : j + 1 < arr.length) :
    ∃ (pre : List (Ptr α)) (x y : Ptr α) (post : List (Ptr α)),
      arr = pre ++ x :: y :: post ∧ rd arr j = x ∧ rd arr (j + 1) = y ∧
      swap arr j (j + 1) = pre ++ y :: x :: post := by
  have hsplit : arr = arr.take j.toNat ++ arr.drop j.toNat := (List.take_append_drop _ _).symm
  have hpl : (arr.take j.toNat).length = j.toNat := by
    rw [List.length_take]; omega
  have hdl : 2 ≤ (arr.drop j.toNat).length := by
    rw [List.length_drop]; omega
  generalize arr.take j.toNat = pre at hsplit hpl
  generalize arr.drop j.toNat = rest at hsplit hdl
  match rest, hdl with
  | x :: y :: post, _ =>
    subst hsplit
    have hj : j = (pre.length : Int) := by omega
    have e1 : rd (pre ++ x :: y :: post) j = x := by
      rw [rd_append_right _ _ _ (by omega), hj]; simp [rd]
    have e2 : rd (pre ++ x :: y :: post) (j + 1) = y := by
      rw [rd_append_right _ _ _ (by omega), hj]; simp [rd]
    refine ⟨pre, x, y, post, rfl, e1, e2, ?_⟩
    unfold swap
    rw [e1, e2, wr_append_cons _ _ _ _ _ hj]
    have e3 : pre ++ y :: y :: post = (pre ++ [y]) ++ y :: post := by simp
    rw [e3, wr_append_cons _ _ _ _ _ (by simp; omega)]
    simp

/-- Invariant rule for one bubble pass: a property of the working array and the
swap counter that survives every exchange of two inverted neighbours survives the
pass. -/
theorem bubblePass_preserves {α : Type} (cmp : FCompareAccounts α)
    (Φ : List (Ptr α) → Nat → Prop)
    (hΦ : ∀ (pre : List (Ptr α)) (x y : Ptr α) (post : List (Ptr α)) (s : Nat),
      Φ (pre ++ x :: y :: post) s → cmp y x < 0 → Φ (pre ++ y :: x :: post) (s + 1))
    (arr0 : List (Ptr α)) (s0 : OperationSummary) (m : Int) (hm0 : 0 ≤ m)
    (hml : m < arr0.length) (h : Φ arr0 s0.swaps) :
    Φ (forRange 0 m (bubbleInnerBody cmp) ⟨arr0, s0, false⟩).arr
        (forRange 0 m (bubbleInnerBody cmp) ⟨arr0, s0, false⟩).summary.swaps ∧
    (forRange 0 m (bubbleInnerBody cmp) ⟨arr0, s0, false⟩).arr.length = arr0.length := by
  refine forRange_inv
    (fun (_ : Int) (st : BubbleState α) => Φ st.arr st.summary.swaps ∧
      st.arr.length = arr0.length)
    0 m (bubbleInnerBody cmp) ⟨arr0, s0, false⟩ hm0 ⟨h, rfl⟩ ?_
  intro k t hk0 hkm ⟨h1, h2⟩
  unfold bubbleInnerBody
  dsimp only
  split
  · rename_i hc
    obtain ⟨pre, x, y, post, e, ex, ey, es⟩ := swap_adjacent t.arr k hk0 (by omega)
    dsimp only
    refine ⟨?_, by rw [length_swap]; exact h2⟩
    rw [es]
    rw [ex, ey] at hc
    have := hΦ pre x y post t.summary.swaps (by rw [← e]; exact h1) hc
    simpa [OperationSummary.incSwaps, OperationSummary.incComparisons] using this
  · exact ⟨by simpa [OperationSummary.incComparisons] using h1, h2⟩

theorem bubblePasses_preserves {α : Type} (cmp : FCompareAccounts α)
    (Φ : List (Ptr α) → Nat → Prop)
    (hΦ : ∀ (pre : List (Ptr α)) (x y : Ptr α) (post : List (Ptr α)) (s : Nat),
      Φ (pre ++ x :: y :: post) s → cmp y x < 0 → Φ (pre ++ y :: x :: post) (s + 1))
    (n : Int) :
    ∀ (count : Nat) (pass : Int) (st : SortState α), 0 ≤ pass →
      pass + count ≤ max (n - 1) pass → (st.arr.length : Int) = n →
      Φ st.arr st.summary.swaps →
      Φ (bubblePasses cmp n count pass st).arr (bubblePasses cmp n count pass st).summary.swaps
  | 0, _, st, _, _, _, h => by simpa [bubblePasses] using h
  | c + 1, pass, st, h0, hc, hl, h => by
    have hpn : pass < n - 1 := by push_cast at hc; omega
    have hs := bubblePass_preserves cmp Φ hΦ st.arr st.summary (n - 1 - pass) (by omega)
      (by omega) h
    simp only [bubblePasses]
    split
    · exact hs.1
    · exact bubblePasses_preserves cmp Φ hΦ n c (pass + 1) _ (by omega)
        (by push_cast at hc; omega) (by dsimp only; rw [hs.2]; exact hl) hs.1

/-- Invariant rule for bubble sort, for any comparator: what survives every
exchange of two inverted neighbours (together with the increment of the swap
counter) survives the sort. -/
theorem bubbleLoops_preserves {α : Type} (cmp : FCompareAccounts α)
    (Φ : List (Ptr α) → Nat → Prop)
    (hΦ : ∀ (pre : List (Ptr α)) (x y : Ptr α) (post : List (Ptr α)) (s : Nat),
      Φ (pre ++ x :: y :: post) s → cmp y x < 0 → Φ (pre ++ y :: x :: post) (s + 1))
    (st : SortState α) (h : Φ st.arr st.summary.swaps) :
    Φ (bubbleLoops cmp st.arr.length st).arr (bubbleLoops cmp st.arr.length st).summary.swaps := by
  unfold bubbleLoops
  exact bubblePasses_preserves cmp Φ hΦ (st.arr.length : Int)
    ((st.arr.length : Int) - 1 - 0).toNat 0 st (le_refl _) (by omega) rfl h

/-! ## Inversions -/

/-- Exchanging two inverted neighbours removes exactly one inversion. -/
theorem inversions_adjacent {α : Type} (cmp : FCompareAccounts α) (x y : Ptr α)
    (post : List (Ptr α)) (h1 : cmp y x < 0) (h2 : ¬ cmp x y < 0) :
    ∀ pre : List (Ptr α),
      inversions cmp (pre ++ y :: x :: post) + 1 = inversions cmp (pre ++ x :: y :: post)
  | [] => by
    simp only [List.nil_append, inversions, List.countP_cons, h1, h2, decide_True,
      decide_False, if_true]
    simp
    omega
  | p :: pre => by
    have hP : (pre ++ y :: x :: post).Perm (pre ++ x :: y :: post) :=
      List.Perm.append_left _ (List.Perm.swap _ _ _)
    have e : ∀ (z : Ptr α) (l : List (Ptr α)), inversions cmp (z :: l)
        = l.countP (fun y => decide (cmp y z < 0)) + inversions cmp l := fun _ _ => rfl
    rw [List.cons_append, List.cons_append, e, e, hP.countP_eq, Nat.add_assoc,
      inversions_adjacent cmp x y post h1 h2 pre]

theorem inversions_of_pairwise {α : Type} (cmp : FCompareAccounts α) (S : List (Ptr α))
    (hanti : SignAntisymmOn cmp S) :
    ∀ l : List (Ptr α), (∀ z ∈ l, z ∈ S) → l.Pairwise (fun x y => cmp x y ≤ 0) →
      inversions cmp l = 0
  | [], _, _ => rfl
  | x :: l, hm, hp => by
    rw [List.pairwise_cons] at hp
    simp only [inversions]
    rw [inversions_of_pairwise cmp S hanti l (fun z hz => hm z (List.mem_cons_of_mem _ hz)) hp.2]
    rw [Nat.add_zero, List.countP_eq_zero]
    intro y hy
    have hxy := hp.1 y hy
    have hs := sign_flip (hanti x (hm x (List.mem_cons_self _ _)) y
      (hm y (List.mem_cons_of_mem _ hy)))
    have : ¬ cmp y x < 0 := by
      intro hlt
      have := hs.2.2 hlt
      omega
    simpa using this

theorem rd_cons_succ {α : Type} (x : Ptr α) (l : List (Ptr α)) (n : Nat) :
    rd (x :: l) ((n + 1 : Nat) : Int) = rd l (n : Int) := by
  unfold rd
  have h1 : (0 : Int) ≤ ((n + 1 : Nat) : Int) := by omega
  have h2 : (0 : Int) ≤ (n : Int) := by omega
  simp only [h1, h2, if_true, Int.toNat_ofNat, List.getD_cons_succ]

theorem countP_range_rd {α : Type} (p : Ptr α → Bool) (l : List (Ptr α)) :
    (List.range l.length).countP (fun (j : Nat) => p (rd l (j : Int))) = l.countP p := by
  have e : l = (List.range l.length).map (fun (j : Nat) => rd l (j : Int)) := by
    apply List.ext_getElem
    · simp
    · intro n h1 h2
      simp only [List.getElem_map, List.getElem_range]
      exact (rd_natCast l n h1).symm
  conv_rhs => rw [e]
  rw [List.countP_map]
  rfl

/-- The cell-by-cell count is the number of inverted index pairs. -/
theorem inversionCount_eq_inversions {α : Type} (cmp : FCompareAccounts α) :
    ∀ a : List (Ptr α), inversionCount cmp a = inversions cmp a
  | [] => rfl
  | x :: l => by
    have ih := inversionCount_eq_inversions cmp l
    unfold inversionCount at ih ⊢
    rw [List.length_cons, List.range_succ_eq_map, List.map_cons, List.sum_cons, List.map_map]
    have e : inversions cmp (x :: l)
        = l.countP (fun y => decide (cmp y x < 0)) + inversions cmp l := rfl
    rw [e]
    congr 1
    · rw [List.countP_cons, List.countP_map, if_neg (by simp), Nat.add_zero,
        ← countP_range_rd (fun y => decide (cmp y x < 0)) l]
      congr 1
      funext j
      simp only [Function.comp, Nat.succ_eq_add_one, rd_cons_succ]
      simp [rd]
    · rw [← ih]
      congr 1
      apply List.map_congr_left
      intro i _
      simp only [Function.comp]
      rw [List.countP_cons, List.countP_map, if_neg (by simp), Nat.add_zero]
      congr 1
      funext j
      simp only [Function.comp, Nat.succ_eq_add_one, rd_cons_succ, Nat.add_lt_add_iff_right]

/-- A pair that occurs in order keeps its order when two neighbours other than the
pair itself are exchanged. -/
theorem pair_sublist_swap {α : Type} (a b x y : Ptr α) (post : List (Ptr α))
    (hne : ¬ (a = x ∧ b = y)) :
    ∀ pre : List (Ptr α), [a, b].Sublist (pre ++ x :: y :: post) →
      [a, b].Sublist (pre ++ y :: x :: post)
  | [], h => by
    simp only [List.nil_append] at h ⊢
    rcases List.sublist_cons_iff.1 h with h1 | ⟨r, e, h1⟩
    · rcases List.sublist_cons_iff.1 h1 with h2 | ⟨r, e, h2⟩
      · exact (h2.cons _).cons _
      · simp only [List.cons.injEq] at e
        obtain ⟨rfl, rfl⟩ := e
        exact (h2.cons _).cons₂ _
    · simp only [List.cons.injEq] at e
      obtain ⟨rfl, rfl⟩ := e
      have hb : b ∈ y :: post := List.singleton_sublist.1 h1
      rcases List.mem_cons.1 hb with rfl | hb
      · exact absurd ⟨rfl, rfl⟩ hne
      · exact ((List.singleton_sublist.2 hb).cons₂ _).cons _
  | p :: pre, h => by
    simp only [List.cons_append] at h ⊢
    rcases List.sublist_cons_iff.1 h with h1 | ⟨r, e, h1⟩
    · exact (pair_sublist_swap a b x y post hne pre h1).cons _
    · simp only [List.cons.injEq] at e
      obtain ⟨rfl, rfl⟩ := e
      have hb : b ∈ pre ++ x :: y :: post := List.singleton_sublist.1 h1
      have hP : (pre ++ x :: y :: post).Perm (pre ++ y :: x :: post) :=
        List.Perm.append_left _ (List.Perm.swap _ _ _)
      exact (List.singleton_sublist.2 (hP.mem_iff.1 hb)).cons₂ _

theorem bubbleLoops_pairwise {α : Type} (cmp : FCompareAccounts α) (st : SortState α)
    (hpre : TotalPreorderOn cmp st.arr) :
    (bubbleLoops cmp st.arr.length st).arr.Pairwise (fun x y => cmp x y ≤ 0) := by
  have hP := bubbleLoops_perm cmp st
  have hS := bubbleLoops_sorted cmp st hpre
  apply pairwise_of_rd
  intro a b h0 hab hb
  have h := ordered_of_nonDecreasing cmp _ st.arr hpre.2 (fun x hx => hP.mem_iff.1 hx) hS
    (b - a - 1).toNat a h0 (by omega)
  have e : a + 1 + ((b - a - 1).toNat : Int) = b := by omega
  rwa [e] at h

/-! ## C35, C36 -/

/-- C35. For every buffer and every total-preorder comparator, the number of swaps
reported by `BubbleSortArray` equals the number of inversions of the source buffer,
i.e. the number of index pairs `i < j` with `cmp(a[j], a[i]) < 0`. -/
theorem bubbleSort_swaps_eq_inversions {α : Type} (self : TSort α) (cmp : FCompareAccounts α)
    (summary : OperationSummary) (hpre : TotalPreorderOn cmp self.originalArray) :
    (self.BubbleSortArray cmp summary).summary.swaps
      = inversionCount cmp self.originalArray := by
  have hinv := bubbleLoops_preserves cmp
    (fun arr s => arr.Perm self.originalArray ∧
      inversions cmp arr + s = inversions cmp self.originalArray)
    (by
      intro pre x y post s ⟨hP, hc⟩ hlt
      have hP2 : (pre ++ y :: x :: post).Perm (pre ++ x :: y :: post) :=
        List.Perm.append_left _ (List.Perm.swap _ _ _)
      have hx : x ∈ self.originalArray := hP.mem_iff.1 (by simp)
      have hy : y ∈ self.originalArray := hP.mem_iff.1 (by simp)
      have hxy : ¬ cmp x y < 0 := by
        have := (sign_flip (hpre.1 x hx y hy)).2.2 hlt
        omega
      have := inversions_adjacent cmp x y post hlt hxy pre
      exact ⟨hP2.trans hP, by omega⟩)
    ⟨self.originalArray, OperationSummary.new⟩ ⟨List.Perm.refl _, rfl⟩
  have hsorted := bubbleLoops_pairwise cmp ⟨self.originalArray, OperationSummary.new⟩ hpre
  have hzero := inversions_of_pairwise cmp self.originalArray hpre.1 _
    (fun z hz => hinv.1.mem_iff.1 hz) hsorted
  rw [inversionCount_eq_inversions]
  simp only [TSort.BubbleSortArray, TSort.originalArraySize, copyArray_eq]
  have := hinv.2
  dsimp only at this hzero
  omega

theorem bubbleSort_swaps_eq_inversions_witness :
    TotalPreorderOn cmpNat (exampleEngine [some 3, some 1, some 2]).originalArray ∧
    ((exampleEngine [some 3, some 1, some 2]).BubbleSortArray cmpNat ⟨0, 0⟩).summary.swaps
      = inversionCount cmpNat (exampleEngine [some 3, some 1, some 2]).originalArray ∧
    inversionCount cmpNat (exampleEngine [some 3, some 1, some 2]).originalArray = 2 :=
  ⟨cmpNat_totalPreorder _,
    bubbleSort_swaps_eq_inversions (exampleEngine [some 3, some 1, some 2]) cmpNat ⟨0, 0⟩
      (cmpNat_totalPreorder _), by decide⟩

/-- C36. `BubbleSortArray` is stable: for every buffer, every total-preorder
comparator and every two entries `a`, `b` with `cmp(a,b) == 0` where `a` is at a
lower index than `b` in the source buffer, `a` is at a lower index than `b` in the
returned buffer. -/
theorem bubbleSort_stable {α : Type} (self : TSort α) (cmp : FCompareAccounts α)
    (summary : OperationSummary) (hpre : TotalPreorderOn cmp self.originalArray)
    (a b : Ptr α) (hab : cmp a b = 0) (hsrc : [a, b].Sublist self.originalArray) :
    [a, b].Sublist (self.BubbleSortArray cmp summary).arr := by
  have ha : a ∈ self.originalArray := hsrc.subset (by simp)
  have hb : b ∈ self.originalArray := hsrc.subset (by simp)
  have hba : ¬ cmp b a < 0 := by
    intro hlt
    have := (sign_flip (hpre.1 a ha b hb)).2.2 hlt
    omega
  have hinv := bubbleLoops_preserves cmp (fun arr _ => [a, b].Sublist arr)
    (by
      intro pre x y post _ h hlt
      apply pair_sublist_swap a b x y post _ pre h
      rintro ⟨rfl, rfl⟩
      exact hba hlt)
    ⟨self.originalArray, OperationSummary.new⟩ hsrc
  simpa only [TSort.BubbleSortArray, TSort.originalArraySize, copyArray_eq] using hinv

theorem bubbleSort_stable_witness :
    TotalPreorderOn cmpTens (exampleEngine [some 21, some 10, some 20]).originalArray ∧
    cmpTens (some 21) (some 20) = 0 ∧
    [some 21, some 20].Sublist (exampleEngine [some 21, some 10, some 20]).originalArray ∧
    [some 21, some 20].Sublist
      ((exampleEngine [some 21, some 10, some 20]).BubbleSortArray cmpTens ⟨0, 0⟩).arr :=
  ⟨cmpTens_totalPreorder _, by decide, by decide,
    bubbleSort_stable (exampleEngine [some 21, some 10, some 20]) cmpTens ⟨0, 0⟩
      (cmpTens_totalPreorder _) (some 21) (some 20) (by decide) (by decide)⟩

/-! ## The logs: what the recursive helpers touch -/

theorem forLoop_fst {σ τ : Type} (body : Int → σ → σ) (g : Int → σ × τ → τ) :
    ∀ (count : Nat) (j : Int) (s : σ) (t : τ),
      (forLoop (fun j (p : σ × τ) => (body j p.1, g j p)) count j (s, t)).1
        = forLoop body count j s
  | 0, _, _, _ => rfl
  | c + 1, j, s, t => by
    simp only [forLoop]
    exact forLoop_fst body g c (j + 1) (body j s) (g j (s, t))

theorem forRange_fst {σ τ : Type} (body : Int → σ → σ) (g : Int → σ × τ → τ)
    (lo hi : Int) (s : σ) (t : τ) :
    (forRange lo hi (fun j (p : σ × τ) => (body j p.1, g j p)) (s, t)).1
      = forRange lo hi body s :=
  forLoop_fst body g _ lo s t

theorem whileLoop_fst {σ τ : Type} (cond : σ → Bool) (body : σ → σ) (g : σ × τ → τ) :
    ∀ (fuel : Nat) (s : σ) (t : τ),
      (whileLoop (fun p : σ × τ => cond p.1) (fun p => (body p.1, g p)) fuel (s, t)).map
          Prod.fst
        = whileLoop cond body fuel s
  | 0, s, t => by
    simp only [whileLoop]
    split <;> rfl
  | f + 1, s, t => by
    simp only [whileLoop]
    split
    · exact whileLoop_fst cond body g f (body s) (g (s, t))
    · rfl

/-- The loop of `Partition` with the log: `i` stays in `[left - 1, j)`, and only
cells of `[left, right]` are added to the log. -/
theorem partitionLoopLog_inv {α : Type} (cmp : FCompareAccounts α) (pivot : Ptr α)
    (arr : List (Ptr α)) (left right : Int) (s : OperationSummary) (log : List Int)
    (hlr : left ≤ right) :
    left - 1 ≤ (forRange left right (partitionBodyLog cmp pivot)
      (⟨left - 1, arr, s⟩, log ++ [right])).1.i ∧
    (forRange left right (partitionBodyLog cmp pivot)
      (⟨left - 1, arr, s⟩, log ++ [right])).1.i < right ∧
    ∀ k ∈ (forRange left right (partitionBodyLog cmp pivot)
      (⟨left - 1, arr, s⟩, log ++ [right])).2, k ∈ log ∨ (left ≤ k ∧ k ≤ right) := by
  refine forRange_inv
    (fun (j : Int) (p : PartState α × List Int) => left - 1 ≤ p.1.i ∧ p.1.i < j ∧
      ∀ k ∈ p.2, k ∈ log ∨ (left ≤ k ∧ k ≤ right))
    left right (partitionBodyLog cmp pivot) (⟨left - 1, arr, s⟩, log ++ [right]) hlr
    ⟨le_refl _, by dsimp only; omega, ?_⟩ ?_
  · intro k hk
    rcases List.mem_append.1 hk with h | h
    · exact Or.inl h
    · simp only [List.mem_singleton] at h
      exact Or.inr (by omega)
  · intro j p hj1 hj2 ⟨h1, h2, h3⟩
    unfold partitionBodyLog partitionBody
    dsimp only
    refine ⟨?_, ?_, ?_⟩
    · split
      · split <;> dsimp only <;> omega
      · exact h1
    · split
      · split <;> dsimp only <;> omega
      · dsimp only; omega
    · intro k hk
      rcases List.mem_append.1 hk with h | h
      · exact h3 k h
      · right
        rcases List.mem_cons.1 h with h | h
        · omega
        · split at h
          · simp only [List.mem_cons, List.mem_singleton, List.not_mem_nil, or_false] at h
            omega
          · cases h

theorem partitionLog_fst {α : Type} (cmp : FCompareAccounts α) (arr : List (Ptr α))
    (left right : Int) (s : OperationSummary) (log : List Int) :
    (PartitionLog cmp arr left right s log).1 = Partition cmp arr left right s := by
  have h := forRange_fst (partitionBody cmp (rd arr right))
    (fun j (p : PartState α × List Int) =>
      p.2 ++ (j :: if cmp (rd p.1.arr j) (rd arr right) ≤ 0 ∧ p.1.i + 1 ≠ j
        then [p.1.i + 1, j] else []))
    left right ⟨left - 1, arr, s⟩ (log ++ [right])
  unfold PartitionLog Partition
  dsimp only
  have h2 : (forRange left right (partitionBodyLog cmp (rd arr right))
      (⟨left - 1, arr, s⟩, log ++ [right])).1
      = forRange left right (partitionBody cmp (rd arr right)) ⟨left - 1, arr, s⟩ := h
  rw [← h2]
  split <;> rfl

/-- `Partition` with the log on a range `left <= right`: the pivot index lies in
`[left, right]` and only cells of `[left, right]` are added to the log. -/
theorem partitionLog_range {α : Type} (cmp : FCompareAccounts α) (arr : List (Ptr α))
    (left right : Int) (s : OperationSummary) (log : List Int) (hlr : left ≤ right) :
    left ≤ (PartitionLog cmp arr left right s log).1.1 ∧
    (PartitionLog cmp arr left right s log).1.1 ≤ right ∧
    ∀ k ∈ (PartitionLog cmp arr left right s log).2, k ∈ log ∨ (left ≤ k ∧ k ≤ right) := by
  obtain ⟨h1, h2, h3⟩ := partitionLoopLog_inv cmp (rd arr right) arr left right s log hlr
  unfold PartitionLog
  dsimp only
  split
  · refine ⟨by dsimp only; omega, by dsimp only; omega, ?_⟩
    intro k hk
    rcases List.mem_append.1 hk with h | h
    · exact h3 k h
    · simp only [List.mem_cons, List.mem_singleton, List.not_mem_nil, or_false] at h
      right; omega
  · exact ⟨by dsimp only; omega, by dsimp only; omega, h3⟩

theorem quickSortRecursiveLog_fst {α : Type} (cmp : FCompareAccounts α) :
    ∀ (fuel : Nat) (st : SortState α) (log : List Int) (left right : Int),
      (QuickSortRecursiveLog cmp fuel (st, log) left right).map Prod.fst
        = QuickSortRecursive cmp fuel st left right
  | 0, st, log, left, right => by
    simp only [QuickSortRecursiveLog, QuickSortRecursive]
    split <;> rfl
  | fuel + 1, st, log, left, right => by
    simp only [QuickSortRecursiveLog, QuickSortRecursive]
    split
    · rfl
    · have hp := partitionLog_fst cmp st.arr left right st.summary log
      have ih1 := quickSortRecursiveLog_fst cmp fuel
        (PartitionLog cmp st.arr left right st.summary log).1.2
        (PartitionLog cmp st.arr left right st.summary log).2 left
        ((PartitionLog cmp st.arr left right st.summary log).1.1 - 1)
      rw [hp] at ih1
      rw [hp]
      cases h1 : QuickSortRecursiveLog cmp fuel
        ((Partition cmp st.arr left right st.summary).2,
          (PartitionLog cmp st.arr left right st.summary log).2) left
        ((Partition cmp st.arr left right st.summary).1 - 1) with
      | none =>
        rw [h1] at ih1
        rw [← ih1]
        rfl
      | some s1 =>
        rw [h1] at ih1
        rw [← ih1]
        exact quickSortRecursiveLog_fst cmp fuel s1.1 s1.2 _ _

/-- `QuickSortRecursive` with the log, for any comparator: with fuel at least
`right - left` the recursion returns, and only cells of `[left, right]` are added
to the log. -/
theorem quickSortRecursiveLog_range {α : Type} (cmp : FCompareAccounts α) :
    ∀ (fuel : Nat) (s : SortState α × List Int) (left right : Int),
      right - left ≤ fuel →
      ∃ r, QuickSortRecursiveLog cmp fuel s left right = some r ∧
        ∀ k ∈ r.2, k ∈ s.2 ∨ (left ≤ k ∧ k ≤ right)
  | 0, s, left, right, hf => by
    have hge : left ≥ right := by omega
    exact ⟨s, by simp [QuickSortRecursiveLog, hge], fun k hk => Or.inl hk⟩
  | fuel + 1, s, left, right, hf => by
    by_cases hge : left ≥ right
    · exact ⟨s, by simp [QuickSortRecursiveLog, hge], fun k hk => Or.inl hk⟩
    · obtain ⟨hp1, hp2, hp3⟩ := partitionLog_range cmp s.1.arr left right s.1.summary s.2
        (by omega)
      simp only [QuickSortRecursiveLog, hge, if_false]
      obtain ⟨r1, e1, hr1⟩ := quickSortRecursiveLog_range cmp fuel
        ((PartitionLog cmp s.1.arr left right s.1.summary s.2).1.2,
          (PartitionLog cmp s.1.arr left right s.1.summary s.2).2) left
        ((PartitionLog cmp s.1.arr left right s.1.summary s.2).1.1 - 1)
        (by push_cast at hf; omega)
      rw [e1]
      dsimp only
      obtain ⟨r2, e2, hr2⟩ := quickSortRecursiveLog_range cmp fuel r1
        ((PartitionLog cmp s.1.arr left right s.1.summary s.2).1.1 + 1) right
        (by push_cast at hf; omega)
      refine ⟨r2, e2, ?_⟩
      intro k hk
      rcases hr2 k hk with h | h
      · rcases hr1 k h with h | h
        · exact hp3 k h
        · right; omega
      · right; omega

/-- A copy loop of `Merge` with the log: only cells `off .. off + n - 1` are added. -/
theorem copyLoopLog_range {α : Type} (vec : List (Ptr α)) (off n : Int) (h0 : 0 ≤ n)
    (init : List (Ptr α)) (log : List Int) (lo hi : Int) (hlo : lo ≤ off)
    (hhi : off + n - 1 ≤ hi) :
    ∀ k ∈ (forRange 0 n
      (fun i (c : List (Ptr α) × List Int) => (wr c.1 i (rd vec (off + i)), c.2 ++ [off + i]))
      (init, log)).2, k ∈ log ∨ (lo ≤ k ∧ k ≤ hi) := by
  refine forRange_inv
    (fun (_ : Int) (c : List (Ptr α) × List Int) => ∀ k ∈ c.2, k ∈ log ∨ (lo ≤ k ∧ k ≤ hi))
    0 n _ (init, log) h0 (fun k hk => Or.inl hk) ?_
  intro i c hi0 hin hc k hk
  rcases List.mem_append.1 hk with h | h
  · exact hc k h
  · simp only [List.mem_singleton] at h
    right; omega

/-- `Merge` with the log, for any comparator, on runs `[left, mid]` and
`[mid + 1, right]` (possibly empty): it returns, and only cells of `[left, right]`
are added to the log. -/
theorem mergeLog_range {α : Type} (cmp : FCompareAccounts α) (s : SortState α × List Int)
    (left mid right : Int) (h1 : left ≤ mid + 1) (h2 : mid ≤ right) :
    ∃ r, MergeLog cmp s left mid right = some r ∧
      ∀ k ∈ r.2, k ∈ s.2 ∨ (left ≤ k ∧ k ≤ right) := by
  unfold MergeLog
  dsimp only
  have hcl := copyLoopLog_range s.1.arr left (mid - left + 1) (by omega)
    (List.replicate (mid - left + 1).toNat none) s.2 left right (le_refl _) (by omega)
  generalize (forRange 0 (mid - left + 1)
    (fun i (c : List (Ptr α) × List Int) => (wr c.1 i (rd s.1.arr (left + i)), c.2 ++ [left + i]))
    (List.replicate (mid - left + 1).toNat none, s.2)) = cl at hcl
  have hcr := copyLoopLog_range s.1.arr (mid + 1) (right - mid) (by omega)
    (List.replicate (right - mid).toNat none) cl.2 left right (by omega) (by omega)
  generalize (forRange 0 (right - mid)
    (fun j (c : List (Ptr α) × List Int) =>
      (wr c.1 j (rd s.1.arr (mid + 1 + j)), c.2 ++ [mid + 1 + j]))
    (List.replicate (right - mid).toNat none, cl.2)) = cr at hcr
  have hlog0 : ∀ k ∈ cr.2, k ∈ s.2 ∨ (left ≤ k ∧ k ≤ right) := by
    intro k hk
    rcases hcr k hk with h | h
    · exact hcl k h
    · exact Or.inr h
  let Inv : MergeState α × List Int → Prop := fun m =>
    0 ≤ m.1.i ∧ m.1.i ≤ mid - left + 1 ∧ 0 ≤ m.1.j ∧ m.1.j ≤ right - mid ∧
    m.1.k = left + m.1.i + m.1.j ∧ ∀ k ∈ m.2, k ∈ s.2 ∨ (left ≤ k ∧ k ≤ right)
  let meas : MergeState α × List Int → Nat := fun m =>
    ((mid - left + 1) - m.1.i).toNat + ((right - mid) - m.1.j).toNat
  have hmem : ∀ (m : MergeState α × List Int), Inv m →
      (m.1.i < mid - left + 1 ∨ m.1.j < right - mid) →
      ∀ k ∈ m.2 ++ [m.1.k], k ∈ s.2 ∨ (left ≤ k ∧ k ≤ right) := by
    intro m ⟨a1, a2, a3, a4, a5, a6⟩ hc k hk
    rcases List.mem_append.1 hk with h | h
    · exact a6 k h
    · simp only [List.mem_singleton] at h
      right; omega
  obtain ⟨m1, e1, hI1, _⟩ := whileLoop_spec
    (fun m : MergeState α × List Int =>
      decide (m.1.i < mid - left + 1) && decide (m.1.j < right - mid))
    (fun m => (mergeBody cmp cl.1 cr.1 m.1, m.2 ++ [m.1.k])) Inv meas
    (by
      intro m hI hc
      simp only [Bool.and_eq_true, decide_eq_true_eq] at hc
      have hm := hmem m hI (Or.inl hc.1)
      obtain ⟨a1, a2, a3, a4, a5, a6⟩ := hI
      unfold mergeBody
      dsimp only [Inv, meas]
      split
      · exact ⟨⟨by dsimp only; omega, by dsimp only; omega, a3, a4, by dsimp only; omega, hm⟩,
          by dsimp only; omega⟩
      · exact ⟨⟨a1, a2, by dsimp only; omega, by dsimp only; omega, by dsimp only; omega, hm⟩,
          by dsimp only; omega⟩)
    (mid - left + 1 + (right - mid)).toNat (⟨0, 0, left, s.1.arr, s.1.summary⟩, cr.2)
    ⟨le_refl _, by dsimp only; omega, le_refl _, by dsimp only; omega, by dsimp only; omega,
      hlog0⟩
    (by dsimp only [meas]; omega)
  rw [e1]
  dsimp only
  obtain ⟨m2, e2, hI2, _⟩ := whileLoop_spec
    (fun m : MergeState α × List Int => decide (m.1.i < mid - left + 1))
    (fun m => (drainLeftBody cl.1 m.1, m.2 ++ [m.1.k])) Inv meas
    (by
      intro m hI hc
      simp only [decide_eq_true_eq] at hc
      have hm := hmem m hI (Or.inl hc)
      obtain ⟨a1, a2, a3, a4, a5, a6⟩ := hI
      unfold drainLeftBody
      dsimp only [Inv, meas]
      exact ⟨⟨by omega, by omega, a3, a4, by omega, hm⟩, by omega⟩)
    (mid - left + 1 + (right - mid)).toNat m1 hI1
    (by obtain ⟨a1, a2, a3, a4, a5, a6⟩ := hI1; dsimp only [meas]; omega)
  rw [e2]
  dsimp only
  obtain ⟨m3, e3, hI3, _⟩ := whileLoop_spec
    (fun m : MergeState α × List Int => decide (m.1.j < right - mid))
    (fun m => (drainRightBody cr.1 m.1, m.2 ++ [m.1.k])) Inv meas
    (by
      intro m hI hc
      simp only [decide_eq_true_eq] at hc
      have hm := hmem m hI (Or.inr hc)
      obtain ⟨a1, a2, a3, a4, a5, a6⟩ := hI
      unfold drainRightBody
      dsimp only [Inv, meas]
      exact ⟨⟨a1, a2, by omega, by omega, by omega, hm⟩, by omega⟩)
    (mid - left + 1 + (right - mid)).toNat m2 hI2
    (by obtain ⟨a1, a2, a3, a4, a5, a6⟩ := hI2; dsimp only [meas]; omega)
  rw [e3]
  exact ⟨_, rfl, hI3.2.2.2.2.2⟩

theorem mergeLog_fst {α : Type} (cmp : FCompareAccounts α) (st : SortState α)
    (log : List Int) (left mid right : Int) :
    (MergeLog cmp (st, log) left mid right).map Prod.fst = Merge cmp st left mid right := by
  unfold MergeLog Merge
  dsimp only
  have hL := forRange_fst (fun i (L : List (Ptr α)) => wr L i (rd st.arr (left + i)))
    (fun i (c : List (Ptr α) × List Int) => c.2 ++ [left + i]) 0 (mid - left + 1)
    (List.replicate (mid - left + 1).toNat none) log
  generalize (forRange 0 (mid - left + 1)
    (fun i (c : List (Ptr α) × List Int) => (wr c.1 i (rd st.arr (left + i)), c.2 ++ [left + i]))
    (List.replicate (mid - left + 1).toNat none, log)) = cl at hL
  have hR := forRange_fst (fun j (R : List (Ptr α)) => wr R j (rd st.arr (mid + 1 + j)))
    (fun j (c : List (Ptr α) × List Int) => c.2 ++ [mid + 1 + j]) 0 (right - mid)
    (List.replicate (right - mid).toNat none) cl.2
  generalize (forRange 0 (right - mid)
    (fun j (c : List (Ptr α) × List Int) =>
      (wr c.1 j (rd st.arr (mid + 1 + j)), c.2 ++ [mid + 1 + j]))
    (List.replicate (right - mid).toNat none, cl.2)) = cr at hR
  rw [← hL, ← hR]
  have w1 := whileLoop_fst
    (fun m : MergeState α => decide (m.i < mid - left + 1) && decide (m.j < right - mid))
    (mergeBody cmp cl.1 cr.1) (fun m : MergeState α × List Int => m.2 ++ [m.1.k])
    (mid - left + 1 + (right - mid)).toNat ⟨0, 0, left, st.arr, st.summary⟩ cr.2
  rw [← w1]
  cases whileLoop
    (fun m : MergeState α × List Int =>
      decide (m.1.i < mid - left + 1) && decide (m.1.j < right - mid))
    (fun m => (mergeBody cmp cl.1 cr.1 m.1, m.2 ++ [m.1.k]))
    (mid - left + 1 + (right - mid)).toNat (⟨0, 0, left, st.arr, st.summary⟩, cr.2) with
  | none => rfl
  | some m1 =>
    dsimp only [Option.map]
    have w2 := whileLoop_fst (fun m : MergeState α => decide (m.i < mid - left + 1))
      (drainLeftBody cl.1) (fun m : MergeState α × List Int => m.2 ++ [m.1.k])
      (mid - left + 1 + (right - mid)).toNat m1.1 m1.2
    rw [← w2]
    cases whileLoop (fun m : MergeState α × List Int => decide (m.1.i < mid - left + 1))
      (fun m => (drainLeftBody cl.1 m.1, m.2 ++ [m.1.k]))
      (mid - left + 1 + (right - mid)).toNat (m1.1, m1.2) with
    | none => rfl
    | some m2 =>
      dsimp only [Option.map]
      have w3 := whileLoop_fst (fun m : MergeState α => decide (m.j < right - mid))
        (drainRightBody cr.1) (fun m : MergeState α × List Int => m.2 ++ [m.1.k])
        (mid - left + 1 + (right - mid)).toNat m2.1 m2.2
      rw [← w3]
      cases whileLoop (fun m : MergeState α × List Int => decide (m.1.j < right - mid))
        (fun m => (drainRightBody cr.1 m.1, m.2 ++ [m.1.k]))
        (mid - left + 1 + (right - mid)).toNat (m2.1, m2.2) with
      | none => rfl
      | some m3 => rfl

theorem mergeSortRecursiveLog_fst {α : Type} (cmp : FCompareAccounts α) :
    ∀ (fuel : Nat) (st : SortState α) (log : List Int) (left right : Int),
      (MergeSortRecursiveLog cmp fuel (st, log) left right).map Prod.fst
        = MergeSortRecursive cmp fuel st left right
  | 0, st, log, left, right => by
    simp only [MergeSortRecursiveLog, MergeSortRecursive]
    split <;> rfl
  | fuel + 1, st, log, left, right => by
    simp only [MergeSortRecursiveLog, MergeSortRecursive]
    split
    · rfl
    · have ih1 := mergeSortRecursiveLog_fst cmp fuel st log left
        (left + cdiv (right - left) 2)
      cases h1 : MergeSortRecursiveLog cmp fuel (st, log) left
        (left + cdiv (right - left) 2) with
      | none =>
        rw [h1] at ih1
        rw [← ih1]
        rfl
      | some s1 =>
        rw [h1] at ih1
        rw [← ih1]
        dsimp only [Option.map]
        have ih2 := mergeSortRecursiveLog_fst cmp fuel s1.1 s1.2
          (left + cdiv (right - left) 2 + 1) right
        cases h2 : MergeSortRecursiveLog cmp fuel (s1.1, s1.2)
          (left + cdiv (right - left) 2 + 1) right with
        | none =>
          rw [h2] at ih2
          rw [← ih2]
          rfl
        | some s2 =>
          rw [h2] at ih2
          rw [← ih2]
          exact mergeLog_fst cmp s2.1 s2.2 _ _ _

/-- `MergeSortRecursive` with the log, for any comparator: with fuel at least
`right - left` the recursion returns, and only cells of `[left, right]` are added
to the log. -/
theorem mergeSortRecursiveLog_range {α : Type} (cmp : FCompareAccounts α) :
    ∀ (fuel : Nat) (s : SortState α × List Int) (left right : Int),
      right - left ≤ fuel →
      ∃ r, MergeSortRecursiveLog cmp fuel s left right = some r ∧
        ∀ k ∈ r.2, k ∈ s.2 ∨ (left ≤ k ∧ k ≤ right)
  | 0, s, left, right, hf => by
    have hge : left ≥ right := by omega
    exact ⟨s, by simp [MergeSortRecursiveLog, hge], fun k hk => Or.inl hk⟩
  | fuel + 1, s, left, right, hf => by
    by_cases hge : left ≥ right
    · exact ⟨s, by simp [MergeSortRecursiveLog, hge], fun k hk => Or.inl hk⟩
    · simp only [MergeSortRecursiveLog, hge, if_false]
      rw [cdiv_two (by omega)]
      obtain ⟨r1, e1, hr1⟩ := mergeSortRecursiveLog_range cmp fuel s left
        (left + (right - left) / 2) (by push_cast at hf; omega)
      rw [e1]
      dsimp only
      obtain ⟨r2, e2, hr2⟩ := mergeSortRecursiveLog_range cmp fuel r1
        (left + (right - left) / 2 + 1) right (by push_cast at hf; omega)
      rw [e2]
      dsimp only
      obtain ⟨r3, e3, hr3⟩ := mergeLog_range cmp r2 left (left + (right - left) / 2) right
        (by omega) (by omega)
      refine ⟨r3, e3, ?_⟩
      intro k hk
      rcases hr3 k hk with h | h
      · rcases hr2 k h with h | h
        · rcases hr1 k h with h | h
          · exact Or.inl h
          · right; omega
        · right; omega
      · exact Or.inr h

theorem binarySearchRecursiveLog_fst {α : Type} (A : List (Ptr α)) (key : Ptr α)
    (cmp : FCompareAccounts α) :
    ∀ (fuel : Nat) (left right : Int) (s : OperationSummary) (log : List Int),
      (BinarySearchRecursiveLog A key cmp fuel left right (s, log)).map Prod.fst
        = BinarySearchRecursive A key cmp fuel left right s
  | 0, left, right, s, log => by
    simp only [BinarySearchRecursiveLog, BinarySearchRecursive]
    split <;> rfl
  | fuel + 1, left, right, s, log => by
    simp only [BinarySearchRecursiveLog, BinarySearchRecursive]
    split
    · rfl
    · split
      · rfl
      · split
        · exact binarySearchRecursiveLog_fst A key cmp fuel _ _ _ _
        · exact binarySearchRecursiveLog_fst A key cmp fuel _ _ _ _

/-- `BinarySearchRecursive` with the log, for any comparator: with fuel at least
the size of the range the recursion returns, and only cells of `[left, right]`
are added to the log. -/
theorem binarySearchRecursiveLog_range {α : Type} (A : List (Ptr α)) (key : Ptr α)
    (cmp : FCompareAccounts α) :
    ∀ (fuel : Nat) (left right : Int) (s : OperationSummary × List Int),
      right - left + 1 ≤ fuel →
      ∃ r, BinarySearchRecursiveLog A key cmp fuel left right s = some r ∧
        ∀ k ∈ r.2, k ∈ s.2 ∨ (left ≤ k ∧ k ≤ right)
  | 0, left, right, s, hf => by
    have hgt : left > right := by omega
    exact ⟨((none, s.1), s.2), by simp only [BinarySearchRecursiveLog, hgt, if_true],
      fun k hk => Or.inl hk⟩
  | fuel + 1, left, right, s, hf => by
    by_cases hgt : left > right
    · exact ⟨((none, s.1), s.2), by simp only [BinarySearchRecursiveLog, hgt, if_true],
        fun k hk => Or.inl hk⟩
    · simp only [BinarySearchRecursiveLog, hgt, if_false]
      rw [cdiv_two (by omega)]
      have hmem : ∀ k ∈ s.2 ++ [left + (right - left) / 2],
          k ∈ s.2 ∨ (left ≤ k ∧ k ≤ right) := by
        intro k hk
        rcases List.mem_append.1 hk with h | h
        · exact Or.inl h
        · simp only [List.mem_singleton] at h
          right; omega
      split
      · refine ⟨_, rfl, ?_⟩
        intro k hk
        rcases List.mem_append.1 hk with h | h
        · exact Or.inl h
        · simp only [List.mem_cons, List.mem_singleton, List.not_mem_nil, or_false, or_self]
            at h
          right; omega
      · split
        · obtain ⟨r, e, hr⟩ := binarySearchRecursiveLog_range A key cmp fuel
            (left + (right - left) / 2 + 1) right
            (s.1.incComparisons, s.2 ++ [left + (right - left) / 2])
            (by push_cast at hf; omega)
          refine ⟨r, e, ?_⟩
          intro k hk
          rcases hr k hk with h | h
          · exact hmem k h
          · right; omega
        · obtain ⟨r, e, hr⟩ := binarySearchRecursiveLog_range A key cmp fuel left
            (left + (right - left) / 2 - 1)
            (s.1.incComparisons, s.2 ++ [left + (right - left) / 2])
            (by push_cast at hf; omega)
          refine ⟨r, e, ?_⟩
          intro k hk
          rcases hr k hk with h | h
          · exact hmem k h
          · right; omega

/-- Replacing the middle part of a buffer by a part of the same size keeps the
size and every cell outside the middle part. -/
theorem frame_of_append {α : Type} (pre X X' post : List (Ptr α))
    (hlen : X'.length = X.length) (k : Int)
    (hk : k < pre.length ∨ (pre.length : Int) + X.length - 1 < k) :
    rd (pre ++ (X' ++ post)) k = rd (pre ++ (X ++ post)) k := by
  by_cases h0 : 0 ≤ k
  · rcases hk with h | h
    · rw [rd_append_left _ _ _ h0 h, rd_append_left _ _ _ h0 h]
    · rw [rd_append_right _ _ _ (by omega), rd_append_right _ _ _ (by omega),
        rd_append_right _ _ _ (by omega), rd_append_right _ _ _ (by omega), hlen]
  · unfold rd
    simp only [h0, if_false]

/-! ## C34 -/

/-- C34. `QuickSortRecursive` terminates and stays in bounds for every comparator,
even an inconsistent one: every call on a range `0 <= left <= right < n` (with the
fuel the engine gives it, or more) returns, reads and writes only indices in
`[left, right]` (the log holds nothing else, the buffer keeps its size and the cells
outside the range), and both recursive calls, on `[left, p - 1]` and
`[p + 1, right]`, are on ranges strictly shorter than `[left, right]` because the
partition index `p` lies in `[left, right]`; the same holds for `MergeSortRecursive`
(recursive calls on `[left, mid]` and `[mid + 1, right]` with `left <= mid < right`)
and for `BinarySearchRecursive` (recursive call on `[mid + 1, right]` or
`[left, mid - 1]` with `left <= mid <= right`). -/
theorem recursions_terminate_in_bounds {α : Type} (cmp : FCompareAccounts α)
    (st : SortState α) (key : Ptr α) (left right : Int) (fuel : Nat)
    (hl : 0 ≤ left) (hlr : left ≤ right) (hr : right < st.arr.length)
    (hf : right - left + 1 ≤ fuel) :
    ((∃ r : SortState α × List Int,
        QuickSortRecursiveLog cmp fuel (st, []) left right = some r ∧
        QuickSortRecursive cmp fuel st left right = some r.1 ∧
        (∀ k ∈ r.2, left ≤ k ∧ k ≤ right) ∧
        r.1.arr.length = st.arr.length ∧
        ∀ k : Int, (k < left ∨ right < k) → rd r.1.arr k = rd st.arr k) ∧
      left ≤ (Partition cmp st.arr left right st.summary).1 ∧
      (Partition cmp st.arr left right st.summary).1 ≤ right) ∧
    ((∃ r : SortState α × List Int,
        MergeSortRecursiveLog cmp fuel (st, []) left right = some r ∧
        MergeSortRecursive cmp fuel st left right = some r.1 ∧
        (∀ k ∈ r.2, left ≤ k ∧ k ≤ right) ∧
        r.1.arr.length = st.arr.length ∧
        ∀ k : Int, (k < left ∨ right < k) → rd r.1.arr k = rd st.arr k) ∧
      (left < right →
        left ≤ left + cdiv (right - left) 2 ∧ left + cdiv (right - left) 2 < right)) ∧
    ((∃ r : (Ptr α × OperationSummary) × List Int,
        BinarySearchRecursiveLog st.arr key cmp fuel left right (st.summary, []) = some r ∧
        BinarySearchRecursive st.arr key cmp fuel left right st.summary = some r.1 ∧
        ∀ k ∈ r.2, left ≤ k ∧ k ≤ right) ∧
      left ≤ left + cdiv (right - left) 2 ∧ left + cdiv (right - left) 2 ≤ right) := by
  have hmid : cdiv (right - left) 2 = (right - left) / 2 := cdiv_two (by omega)
  have hnil : ∀ (t : List Int), (∀ k ∈ t, k ∈ ([] : List Int) ∨ (left ≤ k ∧ k ≤ right)) →
      ∀ k ∈ t, left ≤ k ∧ k ≤ right := by
    intro t h k hk
    rcases h k hk with h1 | h1
    · cases h1
    · exact h1
  refine ⟨⟨?_, ?_⟩, ⟨?_, ?_⟩, ⟨?_, ?_⟩⟩
  · obtain ⟨r, e, hr1⟩ := quickSortRecursiveLog_range cmp fuel (st, []) left right (by omega)
    have hfst := quickSortRecursiveLog_fst cmp fuel st [] left right
    rw [e] at hfst
    obtain ⟨st', e', _, hS, _⟩ := quickSortRecursive_spec cmp [] fuel st left right hl hr
      (by omega)
    have hst : st' = r.1 := by
      rw [e'] at hfst
      exact (Option.some.inj hfst).symm
    subst hst
    exact ⟨r, e, e', hnil _ hr1, hS.1, hS.2.1⟩
  · have h := partition_spec cmp st.arr left right st.summary hl hlr hr
    exact h.1
  · obtain ⟨r, e, hr1⟩ := mergeSortRecursiveLog_range cmp fuel (st, []) left right (by omega)
    have hfst := mergeSortRecursiveLog_fst cmp fuel st [] left right
    rw [e] at hfst
    have hdec : st.arr = st.arr.take left.toNat ++
        ((st.arr.drop left.toNat).take (right - left + 1).toNat ++
          (st.arr.drop left.toNat).drop (right - left + 1).toNat) := by
      rw [List.take_append_drop, List.take_append_drop]
    have hpl : ((st.arr.take left.toNat).length : Int) = left := by
      rw [List.length_take]; omega
    have hXl : (((st.arr.drop left.toNat).take (right - left + 1).toNat).length : Int)
        = right - left + 1 := by
      rw [List.length_take, List.length_drop]; omega
    generalize st.arr.take left.toNat = pre at hdec hpl
    generalize (st.arr.drop left.toNat).take (right - left + 1).toNat = X at hdec hXl
    generalize (st.arr.drop left.toNat).drop (right - left + 1).toNat = post at hdec
    obtain ⟨X', s', e', hP, _⟩ := mergeSortRecursive_spec cmp fuel pre X post st.summary
      left right hpl.symm (by omega) (by omega)
    have hst : (⟨pre ++ (X ++ post), st.summary⟩ : SortState α) = st := by
      cases st
      simp only at hdec
      rw [← hdec]
    rw [hst] at e'
    have hr1' : r.1 = ⟨pre ++ (X' ++ post), s'⟩ := by
      rw [e'] at hfst
      exact Option.some.inj hfst
    refine ⟨r, e, by rw [e', hr1'], hnil _ hr1, ?_, ?_⟩
    · rw [hr1', hdec]
      simp only [List.length_append, hP.length_eq]
    · intro k hk
      rw [hr1', hdec]
      exact frame_of_append pre X X' post hP.length_eq k (by omega)
  · intro hlt
    rw [hmid]
    omega
  · obtain ⟨r, e, hr1⟩ := binarySearchRecursiveLog_range st.arr key cmp fuel left right
      (st.summary, []) hf
    have hfst := binarySearchRecursiveLog_fst st.arr key cmp fuel left right st.summary []
    rw [e] at hfst
    exact ⟨r, e, hfst.symm, hnil _ hr1⟩
  · rw [hmid]
    omega

theorem recursions_terminate_in_bounds_witness :
    (0 : Int) ≤ 1 ∧ (1 : Int) ≤ 3 ∧
    (0 ≤ (Partition cmpNat [some 5, some 3, some 1, some 2] 1 3 ⟨0, 0⟩).1) ∧
    (∃ r : SortState Nat × List Int,
      QuickSortRecursiveLog cmpNat 3 (⟨[some 5, some 3, some 1, some 2], ⟨0, 0⟩⟩, []) 1 3
        = some r ∧
      ∀ k ∈ r.2, (1 : Int) ≤ k ∧ k ≤ 3) :=
  have h := recursions_terminate_in_bounds cmpNat ⟨[some 5, some 3, some 1, some 2], ⟨0, 0⟩⟩
    (some 2) 1 3 3 (by decide) (by decide) (by decide) (by decide)
  ⟨by decide, by decide, by decide,
    h.1.1.elim (fun r hr => ⟨r, hr.1, hr.2.2.1⟩)⟩

end Assignment5

namespace Assignment3

/-! ## Assignment 3: `ReverseString` -/

theorem toChar_of_char (x : Int) (h1 : -128 ≤ x) (h2 : x ≤ 127) : toChar x = x := by
  unfold toChar
  omega

theorem take_take_append (a b : List Int) (n : Nat) :
    ((a.take n) ++ b).take n = (a ++ b).take n := by
  rw [List.take_append_eq_append_take, List.take_append_eq_append_take, List.take_take,
    Nat.min_self, List.length_take]
  by_cases h : a.length ≤ n
  · rw [Nat.min_eq_right h]
  · have h1 : min n a.length = n := Nat.min_eq_left (by omega)
    have h2 : n - a.length = 0 := by omega
    rw [h1, h2, Nat.sub_self]

/-- `Push` on a stack holding the items `l` (bottom first, in the first cells of
`data`): the item is stored behind them unless the stack is full, in which case
nothing changes. -/
theorem push_holds (s : TStack) (l rest : List Int) (x : Int)
    (hd : s.data = l ++ rest) (ht : s.top = (l.length : Int) - 1)
    (hlen : (l ++ rest).length = 100) :
    ∃ rest1 : List Int, (s.Push x).2.data = (l ++ [x]).take 100 ++ rest1 ∧
      (s.Push x).2.top = (((l ++ [x]).take 100).length : Int) - 1 ∧
      ((l ++ [x]).take 100 ++ rest1).length = 100 := by
  rw [List.length_append] at hlen
  unfold TStack.Push MAX_SIZE
  by_cases hfull : s.top ≥ 100 - 1
  · have hl : l.length = 100 := by omega
    have e : (l ++ [x]).take 100 = l := by
      rw [List.take_append_eq_append_take, hl, Nat.sub_self, List.take_zero, List.append_nil,
        ← hl, List.take_length]
    rw [if_pos hfull, e]
    exact ⟨rest, hd, ht, by rw [List.length_append]; exact hlen⟩
  · have hl : l.length < 100 := by omega
    have e : (l ++ [x]).take 100 = l ++ [x] :=
      List.take_of_length_le (by rw [List.length_append]; simp; omega)
    rw [if_neg hfull, e]
    match rest, hlen with
    | [], hlen =>
      simp only [List.length_nil] at hlen
      omega
    | r :: rest1, hlen =>
      refine ⟨rest1, ?_, ?_, ?_⟩
      · dsimp only
        have ei : (s.top + 1).toNat = l.length := by omega
        rw [hd, ei, List.set_append_right _ _ (le_refl _), Nat.sub_self, List.set_cons_zero]
        simp
      · dsimp only
        rw [List.length_append]
        simp
        omega
      · simp only [List.length_append, List.length_cons, List.length_nil] at hlen ⊢
        omega

theorem pushAll_holds : ∀ (str : List Int) (s : TStack) (l rest : List Int),
    s.data = l ++ rest → s.top = (l.length : Int) - 1 → (l ++ rest).length = 100 →
    ∃ rest1 : List Int,
      (str.foldl (fun (s : TStack) (ch : Int) => (s.Push ch).2) s).data
        = (l ++ str).take 100 ++ rest1 ∧
      (str.foldl (fun (s : TStack) (ch : Int) => (s.Push ch).2) s).top
        = (((l ++ str).take 100).length : Int) - 1 ∧
      ((l ++ str).take 100 ++ rest1).length = 100
  | [], s, l, rest, hd, ht, hlen => by
    have hl : l.length ≤ 100 := by rw [List.length_append] at hlen; omega
    have e : (l ++ []).take 100 = l := by
      rw [List.append_nil]; exact List.take_of_length_le hl
    rw [e]
    exact ⟨rest, hd, ht, hlen⟩
  | x :: str, s, l, rest, hd, ht, hlen => by
    obtain ⟨rest1, h1, h2, h3⟩ := push_holds s l rest x hd ht hlen
    obtain ⟨rest2, g1, g2, g3⟩ := pushAll_holds str (s.Push x).2 ((l ++ [x]).take 100) rest1
      h1 h2 h3
    have e : ((l ++ [x]).take 100 ++ str).take 100 = (l ++ x :: str).take 100 := by
      rw [take_take_append]; simp
    rw [e] at g1 g2 g3
    exact ⟨rest2, g1, g2, g3⟩

/-- The second loop of `ReverseString` on a stack holding the items `l`: it
returns, having appended the items top first. -/
theorem reverseLoop_holds : ∀ (fuel : Nat) (l : List Int) (s : TStack) (rest acc : List Int),
    s.data = l ++ rest → s.top = (l.length : Int) - 1 → l.length ≤ fuel →
    reverseLoop fuel s acc = some (acc ++ l.reverse.map toChar)
  | 0, l, s, rest, acc, hd, ht, hf => by
    have hl : l = [] := List.length_eq_zero.1 (by omega)
    subst hl
    have he : s.IsEmpty = true := by simp [TStack.IsEmpty, ht]
    simp [reverseLoop, he]
  | fuel + 1, l, s, rest, acc, hd, ht, hf => by
    rcases List.eq_nil_or_concat l with hl | ⟨l1, x, hl⟩
    · subst hl
      have he : s.IsEmpty = true := by simp [TStack.IsEmpty, ht]
      simp [reverseLoop, he]
    · rw [List.concat_eq_append] at hl
      subst hl
      have hlen : (l1 ++ [x]).length = l1.length + 1 := by simp
      rw [hlen] at ht hf
      have he : s.IsEmpty = false := by
        simp only [TStack.IsEmpty, decide_eq_false_iff_not]
        push_cast at ht
        omega
      have hx : s.data.getD s.top.toNat 0 = x := by
        have ei : s.top.toNat = l1.length := by push_cast at ht; omega
        rw [hd, ei, List.append_assoc, List.getD_eq_getElem?_getD,
          List.getElem?_append_right (le_refl _), Nat.sub_self]
        simp
      have hpop : s.Pop = some (x, ⟨s.data, s.top - 1⟩) := by
        simp only [TStack.Pop, he, hx]
        rfl
      simp only [reverseLoop, he, hpop]
      have ih := reverseLoop_holds fuel l1 ⟨s.data, s.top - 1⟩ (x :: rest) (acc ++ [toChar x])
        (by rw [hd]; simp) (by dsimp only; push_cast at ht; omega) (by omega)
      simp only [Bool.false_eq_true, if_false]
      rw [ih]
      simp

/-- What `ReverseString` returns: the first `MAX_SIZE` characters of `str`, in
reverse order; characters behind them are lost, as `Push` drops them without
`ReverseString` looking at its result. -/
theorem reverseString_eq (str : List Int) (hchar : ∀ c ∈ str, -128 ≤ c ∧ c ≤ 127) :
    ReverseString str = some (str.take 100).reverse := by
  obtain ⟨rest1, h1, h2, _⟩ := pushAll_holds str TStack.new [] (List.replicate 100 0)
    rfl rfl (by simp)
  simp only [List.nil_append] at h1 h2
  unfold ReverseString
  dsimp only
  rw [reverseLoop_holds 100 (str.take 100) _ rest1 [] h1 h2 (by rw [List.length_take]; omega)]
  have hm : (str.take 100).reverse.map toChar = (str.take 100).reverse := by
    conv_rhs => rw [← List.map_id (str.take 100).reverse]
    apply List.map_congr_left
    intro c hc
    have hc1 : c ∈ str := List.mem_of_mem_take (List.mem_reverse.1 hc)
    exact toChar_of_char c (hchar c hc1).1 (hchar c hc1).2
  rw [hm]
  simp

/-- For strings of at most `MAX_SIZE` characters `ReverseString` is the reversal. -/
theorem reverseString_short (str : List Int) (hchar : ∀ c ∈ str, -128 ≤ c ∧ c ≤ 127)
    (hlen : str.length ≤ 100) :
    ReverseString str = some str.reverse := by
  rw [reverseString_eq str hchar, List.take_of_length_le hlen]

/-! ## Assignment 3: the encoding of grid cells -/

theorem decode_nonneg (code : Int) (h : 0 ≤ code) : decode code = (code / 100, code % 100) := by
  unfold decode
  rw [Int.tdiv_eq_ediv h (by decide), Int.tmod_eq_emod h (by decide)]

/-- Where the encoding of the neighbours is right: the codes for the upper and the
lower neighbour of a grid cell always decode to that neighbour or are rejected by
the bounds check; the code for the left neighbour does so except in column `0` of
the rows `1 .. 99`, the code for the right neighbour except in column `99` of the
rows `0 .. 98`. -/
theorem neighbourCodes_decode (row col : Int) (hr0 : 0 ≤ row) (hr1 : row < 100)
    (hc0 : 0 ≤ col) (hc1 : col < 100) :
    (decode ((row - 1) * 100 + col) = (row - 1, col) ∨
      rejected (decode ((row - 1) * 100 + col)).1 (decode ((row - 1) * 100 + col)).2 = true) ∧
    (decode ((row + 1) * 100 + col) = (row + 1, col)) ∧
    (¬ (col = 0 ∧ 1 ≤ row) →
      decode (row * 100 + (col - 1)) = (row, col - 1) ∨
      rejected (decode (row * 100 + (col - 1))).1 (decode (row * 100 + (col - 1))).2 = true) ∧
    (¬ (col = 99 ∧ row ≤ 98) →
      decode (row * 100 + (col + 1)) = (row, col + 1) ∨
      rejected (decode (row * 100 + (col + 1))).1 (decode (row * 100 + (col + 1))).2 = true) := by
  refine ⟨?_, ?_, ?_, ?_⟩
  · by_cases h : 1 ≤ row
    · left
      rw [decode_nonneg _ (by omega)]
      exact Prod.ext (by dsimp only; omega) (by dsimp only; omega)
    · right
      have hrow : row = 0 := by omega
      subst hrow
      have e : ((0 : Int) - 1) * 100 + col = -(100 - col) := by omega
      rw [e]
      have ht : (-(100 - col)).tdiv 100 = -((100 - col) / 100) := by
        rw [Int.neg_tdiv, Int.tdiv_eq_ediv (by omega) (by decide)]
      have hm : (-(100 - col)).tmod 100 = -(100 - col) - 100 * -((100 - col) / 100) := by
        rw [Int.tmod_def, ht]
      unfold decode rejected
      dsimp only
      rw [hm, ht]
      simp only [Bool.or_eq_true, decide_eq_true_eq]
      omega
  · rw [decode_nonneg _ (by omega)]
    exact Prod.ext (by dsimp only; omega) (by dsimp only; omega)
  · intro h
    by_cases hc : col = 0
    · right
      have hrow : row = 0 := by omega
      subst hrow; subst hc
      decide
    · left
      rw [decode_nonneg _ (by omega)]
      exact Prod.ext (by dsimp only; omega) (by dsimp only; omega)
  · intro h
    by_cases hc : col = 99
    · right
      have hrow : row = 99 := by omega
      subst hrow; subst hc
      decide
    · left
      rw [decode_nonneg _ (by omega)]
      exact Prod.ext (by dsimp only; omega) (by dsimp only; omega)

/-! ## C39, C40 -/

/-- C39. The claim (for every string `str`, `ReverseString(str)` returns `str` with
its characters in reverse order, with the same length) fails on the code for
strings of more than `MAX_SIZE = 100` characters: for the string of 100 characters
`'a'` followed by one `'b'`, `ReverseString` returns the 100 characters `'a'`, a
string of length 100 instead of 101 that is not the reversal (which starts with
`'b'`). -/
theorem reverseString_drops_characters :
    ReverseString (List.replicate 100 97 ++ [98]) = some (List.replicate 100 97) ∧
    (List.replicate 100 97 ++ [98]).reverse = 98 :: List.replicate 100 97 ∧
    (List.replicate 100 (97 : Int) ++ [98]).length = 101 ∧
    (List.replicate 100 (97 : Int)).length = 100 := by
  refine ⟨?_, by simp, by simp, by simp⟩
  rw [reverseString_eq _ (by
    intro c hc
    rcases List.mem_append.1 hc with h | h
    · rw [List.eq_of_mem_replicate h]; decide
    · rw [List.mem_singleton.1 h]; decide)]
  have e : (List.replicate 100 (97 : Int) ++ [98]).take 100 = List.replicate 100 97 := by
    rw [List.take_append_eq_append_take]
    simp
  rw [e]
  simp

/-- C40. The claim (each of the four codes pushed for a cell decodes to that
neighbour or is rejected by the bounds check, so a search only visits cells
adjacent to a cell visited before) fails on the code in the first and in the last
column: for the cell `(1, 0)` the code pushed for the left neighbour decodes to
`(0, 99)`, and for `(0, 99)` the code pushed for the right neighbour decodes to
`(1, 0)`; both pass the bounds check.  On a grid whose only `0` is in `(1, 0)`,
started in `(0, 99)`, `DFSFindZero` visits `(1, 0)` right after the start cell, and
`BFSFindZero` visits `(0, 99)`, `(1, 99)`, `(0, 98)` and then `(1, 0)`, which is
adjacent to none of them. -/
theorem gridSearch_wraps_around :
    ((neighbourCodes 1 0).map decode = [(0, 0), (2, 0), (0, 99), (1, 1)] ∧
      rejected 0 99 = false ∧ adjacent (0, 99) (1, 0) = false) ∧
    ((neighbourCodes 0 99).map decode = [(0, -1), (1, 99), (0, 98), (1, 0)] ∧
      rejected 1 0 = false) ∧
    ((DFSFindZero exampleGrid (fun _ _ => false) 0 99).map (fun r => (r.found, r.order))
        = some (true, [(0, 99), (1, 0)]) ∧
      (DFSFindZero exampleGrid (fun _ _ => false) 0 99).map (fun r => r.visited 1 0)
        = some true) ∧
    ((BFSFindZero exampleGrid (fun _ _ => false) 0 99).map (fun r => (r.found, r.order))
        = some (true, [(0, 99), (1, 99), (0, 98), (1, 0)]) ∧
      (BFSFindZero exampleGrid (fun _ _ => false) 0 99).map (fun r => r.visited 1 0)
        = some true ∧
      ∀ c ∈ [((0 : Int), (99 : Int)), (1, 99), (0, 98)], adjacent c (1, 0) = false) := by
  decide

end Assignment3
